import Mathlib

/-!
Live variable analysis (`assign2/LiveAnalysis.cpp`).

A shallow embedding of `Liveness::run`, the backward dataflow pass that
computes the `In`, `Out` and `OutKill` sets of every instruction of a
function, followed by theorems about the embedded code.

* An instruction is identified by its position: `(b, i)` is the `i`-th
  instruction of the `b`-th basic block (the C++ code uses the address of the
  `Instruction`).  The entry block is block `0`.
* `DenseSet<Value*>` is a `Finset Value`; `DenseMap<const Instruction*, _>` is a
  total function from keys to sets, because `operator[]` default-constructs an
  empty set for a key it has not seen.
-/

namespace LiveAnalysis

/-- An `llvm::Value` as the pass distinguishes them: the result of the
instruction at position `i` of block `b` (`isa<Instruction>`), a function
parameter (`isa<Argument>`), an integer constant (`ConstantInt`), a constant of
another kind (floating-point, null, undef, a global), or any other value (a
block label, metadata). -/
inductive Value
  | inst (b i : Nat)
  | arg (k : Nat)
  | constInt (c : Int)
  | constant (k : Nat)
  | other (k : Nat)
deriving DecidableEq, Repr

/-- The test `isa<Instruction>(op) || isa<Argument>(op)` of lines 98, 108, 117. -/
def Value.isTracked : Value → Bool
  | .inst _ _ => true
  | .arg _ => true
  | .constInt _ => false
  | .constant _ => false
  | .other _ => false

/-- The test `dyn_cast<ConstantInt>(op)` of line 88. -/
def Value.isConstantInt : Value → Bool
  | .constInt _ => true
  | _ => false

/-- The value is an `llvm::Constant`, of any kind. -/
def Value.isConstant : Value → Bool
  | .constInt _ => true
  | .constant _ => true
  | _ => false

/-- An instruction, by the three cases the pass tells apart.
`store src dst` has `getOperand(0) = src` and `getOperand(1) = dst`;
`phi incoming` lists the pairs `(getIncomingValue(i), getIncomingBlock(i))`;
`other ops` is any other instruction with operand list `ops`. -/
inductive Instruction
  | store (src dst : Value)
  | phi (incoming : List (Value × Nat))
  | other (operands : List Value)
deriving DecidableEq, Repr

/-- The list `Insn->operands()`. -/
def Instruction.operands : Instruction → List Value
  | .store src dst => [src, dst]
  | .phi incoming => incoming.map Prod.fst
  | .other ops => ops

/-- The test `dyn_cast<PHINode>(Insn)`. -/
def Instruction.isPhi : Instruction → Bool
  | .phi _ => true
  | _ => false

/-- The incoming pairs of a phi node (empty for any other instruction). -/
def Instruction.incoming : Instruction → List (Value × Nat)
  | .phi incoming => incoming
  | _ => []

/-- A basic block: the instructions before the terminator, the terminator, and
the successor blocks named by the terminator (`successors(BB)`). -/
structure BasicBlock where
  body : List Instruction
  term : Instruction
  succs : List Nat
deriving DecidableEq, Repr

instance : Inhabited BasicBlock := ⟨⟨[], .other [], []⟩⟩

/-- All instructions of the block in program order; never empty. -/
def BasicBlock.insts (B : BasicBlock) : List Instruction := B.body ++ [B.term]

/-- A function: its basic blocks, the entry block first. -/
structure Function where
  blocks : List BasicBlock
deriving DecidableEq, Repr

/-- The block with index `b`. -/
def Function.block (F : Function) (b : Nat) : BasicBlock := F.blocks.getD b default

/-- The instruction with key `(b, i)`. -/
def Function.insn (F : Function) (b i : Nat) : Instruction :=
  (F.block b).insts.getD i (F.block b).term

/-- The list `successors(BB)`. -/
def Function.successors (F : Function) (b : Nat) : List Nat := (F.block b).succs

/-- The list `predecessors(BB)`: the blocks whose terminator names `b`. -/
def Function.predecessors (F : Function) (b : Nat) : List Nat :=
  (List.range F.blocks.length).filter (fun p => decide (b ∈ F.successors p))

/-- Keys of the three maps: `(block, position)` of an instruction. -/
abbrev Key := Nat × Nat

/-- The key of `BB->getTerminator()`. -/
def Function.terminator (F : Function) (b : Nat) : Key := (b, (F.block b).body.length)

/-- The key of `&*BB->begin()`. -/
def Function.firstInsn (_F : Function) (b : Nat) : Key := (b, 0)

/-- The members `In`, `Out` and `OutKill` of class `Liveness`. -/
structure State where
  In : Key → Finset Value
  Out : Key → Finset Value
  OutKill : Key → Finset Value

/-- The assignment `In[k] = s`. -/
def State.setIn (st : State) (k : Key) (s : Finset Value) : State :=
  ⟨Function.update st.In k s, st.Out, st.OutKill⟩

/-- The assignment `Out[k] = s`. -/
def State.setOut (st : State) (k : Key) (s : Finset Value) : State :=
  ⟨st.In, Function.update st.Out k s, st.OutKill⟩

/-- The assignment `OutKill[k] = s`. -/
def State.setOutKill (st : State) (k : Key) (s : Finset Value) : State :=
  ⟨st.In, st.Out, Function.update st.OutKill k s⟩

/-- All three maps empty, as when `Liveness L` is constructed. -/
def State.init : State := ⟨fun _ => ∅, fun _ => ∅, fun _ => ∅⟩

/-- The set `kill` of lines 82–94 for the instruction at `(b, i)`. -/
def kill (F : Function) (b i : Nat) : Finset Value :=
  match F.insn b i with
  | .store _ dst => {dst}
  | _ => {Value.inst b i}

/-- The operands that pass the test of line 98, as a set. -/
def trackedOperands (I : Instruction) : Finset Value :=
  (I.operands.filter Value.isTracked).toFinset

/-- The set `gen` of lines 82–100 for the instruction at `(b, i)`. -/
def gen (F : Function) (b i : Nat) : Finset Value :=
  match F.insn b i with
  | .store src _ => if src.isConstantInt then ∅ else {src}
  | I => trackedOperands I

/-- Lines 104–111: every tracked operand of the phi is inserted into `OutKill`
of the terminator of every predecessor of the block. -/
def phiInsert (F : Function) (b : Nat) (I : Instruction) (st : State) : State :=
  (F.predecessors b).foldl
    (fun s p => s.setOutKill (F.terminator p) (s.OutKill (F.terminator p) ∪ trackedOperands I))
    st

/-- Lines 114–122: every tracked incoming value is erased from `OutKill` of the
terminator of its own incoming block. -/
def phiErase (F : Function) (I : Instruction) (st : State) : State :=
  I.incoming.foldl
    (fun s vp =>
      if vp.1.isTracked then
        s.setOutKill (F.terminator vp.2) ((s.OutKill (F.terminator vp.2)).erase vp.1)
      else s)
    st

/-- One iteration of the loop of line 69, for the instruction at `(b, i)`. -/
def visitInsn (F : Function) (b i : Nat) (st : State) : State :=
  let I := F.insn b i
  -- lines 73–78
  let st1 : State :=
    if i < (F.block b).body.length then st.setOut (b, i) (st.In (b, i + 1)) else st
  -- lines 102–123
  let st2 : State := if I.isPhi then phiErase F I (phiInsert F b I st1) else st1
  -- lines 126–141
  st2.setIn (b, i) ((st2.Out (b, i) \ kill F b i) ∪ gen F b i)

/-- The loop of line 69 over the instructions with positions `k-1, …, 0`. -/
def walk (F : Function) (b : Nat) : Nat → State → State
  | 0, st => st
  | k + 1, st => walk F b k (visitInsn F b k st)

/-- Lines 53–61: the successors' `In` sets are added to `Out` of the
terminator, then the values of `OutKill` are erased from it. -/
def mergeSuccessors (F : Function) (b : Nat) (st : State) : State :=
  let T := F.terminator b
  let u := (F.successors b).foldl (fun acc s => acc ∪ st.In (F.firstInsn s)) (st.Out T)
  st.setOut T (u \ st.OutKill T)

/-- Lines 50–154: the body of the worklist loop for block `b`.  The second
component tells whether lines 146–153 set `change`. -/
def visitBlock (F : Function) (b : Nat) (st : State) : State × Bool :=
  let st1 := mergeSuccessors F b st
  let OldIn := st1.In (F.firstInsn b)
  let st2 := walk F b ((F.block b).body.length + 1) st1
  (st2, decide (∃ v ∈ st2.In (F.firstInsn b), v ∉ OldIn))

/-- The traversal `depth_first(&F.getEntryBlock())`, with an explicit stack:
the list of visited blocks in discovery order. -/
def dfs (F : Function) : Nat → List Nat → List Nat → List Nat
  | 0, _, visited => visited
  | _ + 1, [], visited => visited
  | fuel + 1, b :: stack, visited =>
    if b ∈ visited then dfs F fuel stack visited
    else dfs F fuel (F.successors b ++ stack) (visited ++ [b])

/-- The number of control-flow edges of the function. -/
def Function.numEdges (F : Function) : Nat :=
  ∑ b ∈ Finset.range F.blocks.length, (F.successors b).length

/-- The blocks pushed on `wL` by lines 45–46, in push order.  Every step of `dfs`
takes one entry from the stack and a block puts its successors on the stack only
once, so `numEdges + 1` steps empty the stack (`mem_depth_first_iff`). -/
def depth_first (F : Function) : List Nat :=
  dfs F (F.numEdges + 1) [0] []

/-- The blocks in the order lines 48–51 take them from `wL`. -/
def worklist (F : Function) : List Nat := (depth_first F).reverse

/-- The visits of the blocks of `bs` in order, accumulating `change`. -/
def visitAll (F : Function) (bs : List Nat) (sc : State × Bool) : State × Bool :=
  bs.foldl (fun acc b => ((visitBlock F b acc.1).1, acc.2 || (visitBlock F b acc.1).2)) sc

/-- One round: the body of `while(change)`, lines 42–155. -/
def round (F : Function) (st : State) : State × Bool :=
  visitAll F (worklist F) (st, false)

/-- The loop `while(change)` of line 40 with a bound on the number of rounds:
the final state and the number of rounds executed, or `none` when the bound
was reached with `change` still set. -/
def runLoop (F : Function) : Nat → State → Option (State × Nat)
  | 0, _ => none
  | fuel + 1, st =>
    if (round F st).2 then
      (runLoop F fuel (round F st).1).map (fun r => (r.1, r.2 + 1))
    else some ((round F st).1, 1)

/-- The analysis `Liveness::run` up to line 156, from empty maps. -/
def run (F : Function) (fuel : Nat) : Option (State × Nat) := runLoop F fuel State.init


/-! ## The report (lines 158–202) -/

/-- Lines 177–194: the program points printed, in print order: for every block
of the function and every instruction `I` of it, the key of `I` (block and the
index `i2`) with the set `Out[I]` printed for it. -/
def programPoints (F : Function) (st : State) : List (Key × Finset Value) :=
  ((List.range F.blocks.length).flatMap
    (fun b => (List.range ((F.block b).body.length + 1)).map (fun i => (b, i)))).map
    (fun k => (k, st.Out k))

/-- The statement `hist[s]++` of line 184 on the `std::map<int, int>`, kept as the
list of its entries in key order. -/
def histIncr : List (Nat × Nat) → Nat → List (Nat × Nat)
  | [], s => [(s, 1)]
  | (k, c) :: t, s =>
    if s = k then (k, c + 1) :: t
    else if s < k then (s, 1) :: (k, c) :: t
    else (k, c) :: histIncr t s

/-- The map `hist` after the loop of lines 177–194. -/
def histogram (F : Function) (st : State) : List (Nat × Nat) :=
  (programPoints F st).foldl (fun h p => histIncr h p.2.card) []

/-! ## The driver with another visiting order -/

/-- One round of lines 42–155 with the blocks taken in the order `order` instead
of the order in which lines 45–51 take them. -/
def roundWith (F : Function) (order : List Nat) (st : State) : State × Bool :=
  visitAll F order (st, false)

/-- The loop `while(change)` with the rounds of `roundWith`. -/
def runLoopWith (F : Function) (order : List Nat) : Nat → State → Option (State × Nat)
  | 0, _ => none
  | fuel + 1, st =>
    if (roundWith F order st).2 then
      (runLoopWith F order fuel (roundWith F order st).1).map (fun r => (r.1, r.2 + 1))
    else some ((roundWith F order st).1, 1)

/-- The analysis with the visiting order `order`, from empty maps. -/
def runWith (F : Function) (order : List Nat) (fuel : Nat) : Option (State × Nat) :=
  runLoopWith F order fuel State.init

/-! ## Notions used to state the properties -/

/-- The dataflow equations inside block `b`: `In = (Out \ kill) ∪ gen` at every
instruction, and `Out` of a non-terminator is `In` of the next instruction. -/
def Local (F : Function) (b : Nat) (st : State) : Prop :=
  ∀ i, i ≤ (F.block b).body.length →
    st.In (b, i) = (st.Out (b, i) \ kill F b i) ∪ gen F b i ∧
    (i < (F.block b).body.length → st.Out (b, i) = st.In (b, i + 1))

/-- Block `b` is reachable from the entry block along successor edges. -/
def Reachable (F : Function) (b : Nat) : Prop :=
  Relation.ReflTransGen (fun x y => y ∈ F.successors x) 0 b

/-- The number of edges that leave blocks not yet in `visited`. -/
def unvisitedEdges (F : Function) (visited : List Nat) : Nat :=
  ∑ b ∈ (Finset.range F.blocks.length).filter (fun b => b ∉ visited), (F.successors b).length

/-- The maps after `n` rounds of the loop of line 40, from empty maps. -/
def stateAfter (F : Function) : Nat → State
  | 0 => State.init
  | n + 1 => (round F (stateAfter F n)).1

/-- The value of `change` at the end of round `n + 1`. -/
def changeAfter (F : Function) (n : Nat) : Bool := (round F (stateAfter F n)).2

/-- The maps at the moment the round started from `s0` takes block `P` from
the worklist (line 50). -/
def stateAtVisit (F : Function) (s0 : State) (P : Nat) : State :=
  (visitAll F ((worklist F).takeWhile (fun b => decide (b ≠ P))) (s0, false)).1

/-- The union over the successors `S` of `P` of `In` of the first instruction of `S`. -/
def succIn (F : Function) (st : State) (P : Nat) : Finset Value :=
  (F.successors P).toFinset.biUnion (fun S => st.In (F.firstInsn S))

/-- The number of instructions of the function. -/
def Function.numInsts (F : Function) : Nat := (F.blocks.map (fun B => B.body.length + 1)).sum

/-- The keys of all instructions of the function. -/
def Function.keys (F : Function) : List Key :=
  (List.range F.blocks.length).flatMap
    (fun b => (List.range ((F.block b).body.length + 1)).map (fun i => (b, i)))

/-- The largest cardinality of an `In` or `Out` set of an instruction of the function. -/
def maxLive (F : Function) (st : State) : Nat :=
  (F.keys.map (fun k => max (st.In k).card (st.Out k).card)).foldr max 0

/-! ## Example functions -/

/-- Straight-line code:
```
define i32 @f(i32 %a, i32 %b) {
  %x = add i32 %a, %b
  %y = mul i32 %x, 2
  ret i32 %y
}
``` -/
def straightLine : Function :=
  ⟨[⟨[.other [.arg 0, .arg 1], .other [.inst 0 0, .constInt 2]], .other [.inst 0 1], []⟩]⟩

/-- A loop whose latch also leaves to a block that starts with a phi:
```
define i32 @f(i32 %a) {
b0:  br label %b1
b1:  %p = phi i32 [ %a, %b0 ], [ 7, %b2 ]
     br label %b2
b2:  br i1 true, label %b3, label %b1
b3:  %q = phi i32 [ %a, %b2 ]
     ret i32 %q
}
``` -/
def loopExit : Function := ⟨[
  ⟨[], .other [], [1]⟩,
  ⟨[.phi [(.arg 0, 0), (.constInt 7, 2)]], .other [], [2]⟩,
  ⟨[], .other [.constInt 1], [3, 1]⟩,
  ⟨[.phi [(.arg 0, 2)]], .other [.inst 3 0], []⟩]⟩

/-- The function `loopExit` with `b3` reading `%a` directly instead of through a phi:
```
define i32 @f(i32 %a) {
b0:  br label %b1
b1:  %p = phi i32 [ %a, %b0 ], [ 7, %b2 ]
     br label %b2
b2:  br i1 true, label %b3, label %b1
b3:  ret i32 %a
}
``` -/
def staleOut : Function := ⟨[
  ⟨[], .other [], [1]⟩,
  ⟨[.phi [(.arg 0, 0), (.constInt 7, 2)]], .other [], [2]⟩,
  ⟨[], .other [.constInt 1], [3, 1]⟩,
  ⟨[], .other [.arg 0], []⟩]⟩

/-- A diamond whose join has two phis taking the same two values crosswise:
```
define i32 @f(i32 %n) {
b0:  %a = add i32 %n, 1
     %b = add i32 %n, 2
     br i1 true, label %b1, label %b2
b1:  br label %b3
b2:  br label %b3
b3:  %x = phi i32 [ %a, %b1 ], [ %b, %b2 ]
     %y = phi i32 [ %b, %b1 ], [ %a, %b2 ]
     %s = add i32 %x, %y
     ret i32 %s
}
``` -/
def crossedPhis : Function := ⟨[
  ⟨[.other [.arg 0, .constInt 1], .other [.arg 0, .constInt 2]], .other [.constInt 1], [1, 2]⟩,
  ⟨[], .other [], [3]⟩,
  ⟨[], .other [], [3]⟩,
  ⟨[.phi [(.inst 0 0, 1), (.inst 0 1, 2)], .phi [(.inst 0 1, 1), (.inst 0 0, 2)],
    .other [.inst 3 0, .inst 3 1]], .other [.inst 3 2], []⟩]⟩

/-- A block `b1` with two successors: `b3` starts with a phi that receives `%a`
from the other predecessor `b2`, and `b4` uses `%a`:
```
define i32 @f(i32 %a) {
b0:  br i1 true, label %b1, label %b2
b1:  br i1 true, label %b3, label %b4
b2:  br label %b3
b3:  %p = phi i32 [ 7, %b1 ], [ %a, %b2 ]
     ret i32 %p
b4:  ret i32 %a
}
``` -/
def sideExit : Function := ⟨[
  ⟨[], .other [.constInt 1], [1, 2]⟩,
  ⟨[], .other [.constInt 1], [3, 4]⟩,
  ⟨[], .other [], [3]⟩,
  ⟨[.phi [(.constInt 7, 1), (.arg 0, 2)]], .other [.inst 3 0], []⟩,
  ⟨[], .other [.arg 0], []⟩]⟩

/-- A loop `b1 → b2 → b1` whose header phi receives `%a` from the entry, with an
exit `b2 → b3` to a block that uses `%a`, and a second path `b0 → b4 → b3`:
```
define i32 @f(i32 %a) {
b0:  br i1 true, label %b1, label %b4
b1:  %p = phi i32 [ %a, %b0 ], [ 7, %b2 ]
     br label %b2
b2:  br i1 true, label %b3, label %b1
b3:  ret i32 %a
b4:  br label %b3
}
``` -/
def loopShrink : Function := ⟨[
  ⟨[], .other [.constInt 1], [1, 4]⟩,
  ⟨[.phi [(.arg 0, 0), (.constInt 7, 2)]], .other [], [2]⟩,
  ⟨[], .other [.constInt 1], [3, 1]⟩,
  ⟨[], .other [.arg 0], []⟩,
  ⟨[], .other [], [3]⟩]⟩

/-- A function of one instruction:
```
define i32 @f(i32 %a) {
  ret i32 %a
}
``` -/
def retArg : Function := ⟨[⟨[], .other [.arg 0], []⟩]⟩

/-- A store of a floating-point constant:
```
define void @f(float* %p) {
  store float 1.0, float* %p
  ret void
}
``` -/
def storeFloat : Function := ⟨[⟨[.store (.constant 0) (.arg 0)], .other [], []⟩]⟩

/-! ## Notions used in the convergence argument -/

/-- The maps after the visits of the blocks of `bs` in order. -/
def visitStates (F : Function) (bs : List Nat) (st : State) : State :=
  bs.foldl (fun s b => (visitBlock F b s).1) st

/-- A state transformer acts on `OutKill` one membership at a time: whether `v`
is in `OutKill k` afterwards is either what it was before, or fixed
independently of the state. -/
def KillRigid (f : State → State) : Prop :=
  ∀ (k : Key) (v : Value),
    (∀ st, v ∈ (f st).OutKill k ↔ v ∈ st.OutKill k) ∨
    (∃ c : Prop, ∀ st, v ∈ (f st).OutKill k ↔ c)

/-- Pointwise inclusion of the `In` and `Out` maps. -/
def Below (s t : State) : Prop := ∀ k, s.In k ⊆ t.In k ∧ s.Out k ⊆ t.Out k

/-- The inclusions that the equations of `Local` imply; they also hold for
empty maps. -/
def PreLocal (F : Function) (b : Nat) (st : State) : Prop :=
  ∀ i, i ≤ (F.block b).body.length →
    st.In (b, i) ⊆ (st.Out (b, i) \ kill F b i) ∪ gen F b i ∧
    (i < (F.block b).body.length → st.Out (b, i) ⊆ st.In (b, i + 1))

/-- Block `b` can be visited in `st` without any set of the block losing a value. -/
def Ready (F : Function) (b : Nat) (st : State) : Prop :=
  PreLocal F b st ∧ Disjoint (st.Out (F.terminator b)) (st.OutKill (F.terminator b))

/-- Every block of the round started from `s` is `Ready` when it is visited. -/
def Inflating (F : Function) (s : State) : Prop :=
  ∀ pre b post, worklist F = pre ++ b :: post → Ready F b (visitStates F pre s)

/-- The sum, over the blocks of the worklist, of the size of `In` of the first
instruction. -/
def potential (F : Function) (st : State) : Nat :=
  ((worklist F).map (fun b => (st.In (F.firstInsn b)).card)).sum

/-- The values that instructions of worklist blocks generate; no other value
ever enters an `In` or `Out` set. -/
def genUniverse (F : Function) : Finset Value :=
  (worklist F).toFinset.biUnion
    (fun b => (Finset.range ((F.block b).body.length + 1)).biUnion (fun i => gen F b i))

/-- Every `In` and `Out` set is inside `genUniverse`. -/
def Bounded (F : Function) (st : State) : Prop :=
  ∀ k, st.In k ⊆ genUniverse F ∧ st.Out k ⊆ genUniverse F

/-- Structural well-formedness of the control-flow graph: there is an entry
block, every successor is a block of the function, and no terminator is a phi. -/
def Function.WellFormed (F : Function) : Prop :=
  F.blocks ≠ [] ∧ (∀ B ∈ F.blocks, ∀ s ∈ B.succs, s < F.blocks.length) ∧
    (∀ B ∈ F.blocks, B.term.isPhi = false)

instance (F : Function) : Decidable F.WellFormed := by
  unfold Function.WellFormed
  infer_instance

/-- A diamond whose join starts with a phi of the values defined on the two sides:
```
define i32 @f(i32 %n) {
b0:  br i1 true, label %b1, label %b2
b1:  %v1 = add i32 %n, 1
     br label %b3
b2:  %v2 = add i32 %n, 2
     br label %b3
b3:  %p = phi i32 [ %v1, %b1 ], [ %v2, %b2 ]
     ret i32 %p
}
``` -/
def diamond : Function := ⟨[
  ⟨[], .other [.constInt 1], [1, 2]⟩,
  ⟨[.other [.arg 0, .constInt 1]], .other [], [3]⟩,
  ⟨[.other [.arg 0, .constInt 2]], .other [], [3]⟩,
  ⟨[.phi [(.inst 1 0, 1), (.inst 2 0, 2)]], .other [.inst 3 0], []⟩]⟩

/-- A block that branches only to itself, with a phi at its head:
```
define void @f(i32 %a) {
b0:  br label %b1
b1:  %p = phi i32 [ %a, %b0 ], [ %n, %b1 ]
     %n = add i32 %p, 1
     br label %b1
}
``` -/
def selfLoop : Function := ⟨[
  ⟨[], .other [], [1]⟩,
  ⟨[.phi [(.arg 0, 0), (.inst 1 1, 1)], .other [.inst 1 0, .constInt 1]], .other [], [1]⟩]⟩

/-- The functions of Scenario A: the entry block `b0` (instructions `body0`,
terminator `term0`) branches to `b1` and `b2`; `b1` (`body1`, `term1`) and `b2`
(`body2`, `term2`) branch to `b3`; `b3` starts with the phi
`[ v1, %b1 ], [ v2, %b2 ]`, where `v1` is the result of the instruction at
position `i1` of `b1` and `v2` that of the instruction at position `i2` of `b2`,
goes on with `rest3` and ends with `term3`, without successors.  `diamond` is
one of them. -/
def diamondOf (body0 : List Instruction) (term0 : Instruction) (body1 : List Instruction)
    (term1 : Instruction) (body2 : List Instruction) (term2 : Instruction) (i1 i2 : Nat)
    (rest3 : List Instruction) (term3 : Instruction) : Function := ⟨[
  ⟨body0, term0, [1, 2]⟩,
  ⟨body1, term1, [3]⟩,
  ⟨body2, term2, [3]⟩,
  ⟨.phi [(.inst 1 i1, 1), (.inst 2 i2, 2)] :: rest3, term3, []⟩]⟩

/-- A diamond of the family `diamondOf` whose join block stores a floating-point
constant through the phi:
```
define void @f() {
b0:  br i1 true, label %b1, label %b2
b1:  %v1 = alloca float
     br label %b3
b2:  %v2 = alloca float
     br label %b3
b3:  %p = phi float* [ %v1, %b1 ], [ %v2, %b2 ]
     store float 1.0, float* %p
     ret void
}
``` -/
def diamondStore : Function := ⟨[
  ⟨[], .other [.constInt 1], [1, 2]⟩,
  ⟨[.other [.constInt 1]], .other [], [3]⟩,
  ⟨[.other [.constInt 1]], .other [], [3]⟩,
  ⟨[.phi [(.inst 1 0, 1), (.inst 2 0, 2)], .store (.constant 0) (.inst 3 0)], .other [], []⟩]⟩

/-- The instruction is a store whose source is neither an instruction, nor a
parameter, nor an integer constant: the stores for which the test of line 88
puts a value into `gen` that the test of line 98 keeps out. -/
def Instruction.storesUntracked : Instruction → Bool
  | .store src _ => !src.isTracked && !src.isConstantInt
  | _ => false

/-- The functions of Scenario C: the entry block `b0` (instructions `body0`,
terminator `term0`) branches to the loop block `b1`; `b1` starts with the phi
`[ a, %b0 ], [ n, %b1 ]`, where `n` is the result of the instruction at position
`j` of `b1`, goes on with `rest` and ends with `termL`, which branches to `b1`
only.  `selfLoop` is one of them. -/
def selfLoopOf (body0 : List Instruction) (term0 : Instruction) (a : Value) (j : Nat)
    (rest : List Instruction) (termL : Instruction) : Function := ⟨[
  ⟨body0, term0, [1]⟩,
  ⟨.phi [(a, 0), (.inst 1 j, 1)] :: rest, termL, [1]⟩]⟩

/-- The program point right after the instruction with key `k` is immediately
before a phi of the same block. -/
def beforePhi (F : Function) (k : Key) : Bool :=
  decide (k.2 < (F.block k.1).body.length) && (F.insn k.1 (k.2 + 1)).isPhi

/-- The count that the entries of `h` with key `s` hold. -/
def histGet (h : List (Nat × Nat)) (s : Nat) : Nat :=
  ((h.filter (fun e => decide (e.1 = s))).map Prod.snd).sum

/-! ## Notions used for the visiting order -/

/-- The maps after `n` rounds in the order `order`, from empty maps. -/
def stateAfterWith (F : Function) (order : List Nat) : Nat → State
  | 0 => State.init
  | n + 1 => (roundWith F order (stateAfterWith F order n)).1

/-- No instruction of a block of the worklist is a phi. -/
def PhiFree (F : Function) : Prop :=
  ∀ b ∈ worklist F, ∀ i ∈ List.range ((F.block b).body.length + 1), (F.insn b i).isPhi = false

instance (F : Function) : Decidable (PhiFree F) := by
  unfold PhiFree
  infer_instance

/-- The state has empty `OutKill` sets and satisfies the inclusions `PreLocal` in
every block: the states that the driver reaches on a function without phis. -/
def Calm (F : Function) (s : State) : Prop :=
  (∀ b, PreLocal F b s) ∧ s.OutKill = State.init.OutKill

/-- On every block of the worklist, `Out` of the terminator is inside the union
of `In` of the first instructions of the successors. -/
def OutBelowSucc (F : Function) (s : State) : Prop :=
  ∀ b ∈ worklist F, s.Out (F.terminator b) ⊆ succIn F s b

/-- The maps solve the dataflow equations on the blocks of the worklist: the
equations of `Local`, and `Out` of every terminator is the union of `In` of the
first instructions of the successors. -/
def Solution (F : Function) (X : State) : Prop :=
  ∀ b ∈ worklist F, Local F b X ∧ X.Out (F.terminator b) = succIn F X b

/-- A diamond without phis:
```
define i32 @f(i32 %a) {
b0:  br i1 true, label %b1, label %b2
b1:  br label %b3
b2:  br label %b3
b3:  ret i32 %a
}
``` -/
def plainDiamond : Function := ⟨[
  ⟨[], .other [.constInt 1], [1, 2]⟩,
  ⟨[], .other [], [3]⟩,
  ⟨[], .other [], [3]⟩,
  ⟨[], .other [.arg 0], []⟩]⟩

/-! ## Lemmas about the embedded code -/

section Frame
variable (F : Function)

@[simp] theorem setIn_In (st : State) (k : Key) (s : Finset Value) :
    (st.setIn k s).In = Function.update st.In k s := rfl
@[simp] theorem setIn_Out (st : State) (k : Key) (s : Finset Value) :
    (st.setIn k s).Out = st.Out := rfl
@[simp] theorem setIn_OutKill (st : State) (k : Key) (s : Finset Value) :
    (st.setIn k s).OutKill = st.OutKill := rfl
@[simp] theorem setOut_In (st : State) (k : Key) (s : Finset Value) :
    (st.setOut k s).In = st.In := rfl
@[simp] theorem setOut_Out (st : State) (k : Key) (s : Finset Value) :
    (st.setOut k s).Out = Function.update st.Out k s := rfl
@[simp] theorem setOut_OutKill (st : State) (k : Key) (s : Finset Value) :
    (st.setOut k s).OutKill = st.OutKill := rfl
@[simp] theorem setOutKill_In (st : State) (k : Key) (s : Finset Value) :
    (st.setOutKill k s).In = st.In := rfl
@[simp] theorem setOutKill_Out (st : State) (k : Key) (s : Finset Value) :
    (st.setOutKill k s).Out = st.Out := rfl
@[simp] theorem setOutKill_OutKill (st : State) (k : Key) (s : Finset Value) :
    (st.setOutKill k s).OutKill = Function.update st.OutKill k s := rfl

theorem phiInsert_In (b : Nat) (I : Instruction) (st : State) :
    (phiInsert F b I st).In = st.In := by
  unfold phiInsert
  generalize F.predecessors b = ps
  induction ps generalizing st with
  | nil => rfl
  | cons p ps ih => simp [List.foldl_cons, ih]

theorem phiInsert_Out (b : Nat) (I : Instruction) (st : State) :
    (phiInsert F b I st).Out = st.Out := by
  unfold phiInsert
  generalize F.predecessors b = ps
  induction ps generalizing st with
  | nil => rfl
  | cons p ps ih => simp [List.foldl_cons, ih]

theorem phiErase_In (I : Instruction) (st : State) : (phiErase F I st).In = st.In := by
  unfold phiErase
  generalize I.incoming = l
  induction l generalizing st with
  | nil => rfl
  | cons p ps ih =>
    simp only [List.foldl_cons, ih]
    split <;> simp

theorem phiErase_Out (I : Instruction) (st : State) : (phiErase F I st).Out = st.Out := by
  unfold phiErase
  generalize I.incoming = l
  induction l generalizing st with
  | nil => rfl
  | cons p ps ih =>
    simp only [List.foldl_cons, ih]
    split <;> simp

/-- The value `Out[Insn]` that line 126 reads for the instruction at `(b, i)`. -/
theorem visitInsn_Out (b i : Nat) (st : State) (k : Key) :
    (visitInsn F b i st).Out k =
      if k = (b, i) ∧ i < (F.block b).body.length then st.In (b, i + 1) else st.Out k := by
  unfold visitInsn
  by_cases hi : i < (F.block b).body.length <;> by_cases hp : (F.insn b i).isPhi = true <;>
    by_cases hk : k = (b, i) <;>
    simp [hi, hp, hk, phiErase_Out, phiInsert_Out, Function.update_apply]

theorem visitInsn_In (b i : Nat) (st : State) (k : Key) :
    (visitInsn F b i st).In k =
      if k = (b, i) then ((visitInsn F b i st).Out (b, i) \ kill F b i) ∪ gen F b i
      else st.In k := by
  rw [visitInsn_Out]
  unfold visitInsn
  by_cases hi : i < (F.block b).body.length <;> by_cases hp : (F.insn b i).isPhi = true <;>
    by_cases hk : k = (b, i) <;>
    simp [hi, hp, hk, phiErase_Out, phiInsert_Out, phiErase_In, phiInsert_In,
      Function.update_apply]

/-- The `kill` set of a store is its destination operand (lines 84–85). -/
theorem kill_of_store (b i : Nat) (src dst : Value) (h : F.insn b i = .store src dst) :
    kill F b i = {dst} := by
  unfold kill
  rw [h]

/-- The `gen` set of a store is its source operand unless that is a `ConstantInt`
(lines 87–89). -/
theorem gen_of_store (b i : Nat) (src dst : Value) (h : F.insn b i = .store src dst) :
    gen F b i = if src.isConstantInt then ∅ else {src} := by
  unfold gen
  rw [h]

end Frame
section Walk
variable (F : Function)

theorem walk_In_frame (b n : Nat) (st : State) (k : Key) (h : k.1 ≠ b ∨ n ≤ k.2) :
    (walk F b n st).In k = st.In k := by
  induction n generalizing st with
  | zero => rfl
  | succ n ih =>
    rw [walk, ih _ (by omega), visitInsn_In, if_neg]
    rintro rfl
    simp at h

theorem walk_Out_frame (b n : Nat) (st : State) (k : Key) (h : k.1 ≠ b ∨ n ≤ k.2) :
    (walk F b n st).Out k = st.Out k := by
  induction n generalizing st with
  | zero => rfl
  | succ n ih =>
    rw [walk, ih _ (by omega), visitInsn_Out, if_neg]
    rintro ⟨rfl, -⟩
    simp at h

theorem walk_local (b n : Nat) (st : State) (i : Nat) (hi : i < n) :
    (walk F b n st).In (b, i) = ((walk F b n st).Out (b, i) \ kill F b i) ∪ gen F b i ∧
    (i < (F.block b).body.length → (walk F b n st).Out (b, i) = (walk F b n st).In (b, i + 1)) := by
  induction n generalizing st with
  | zero => omega
  | succ n ih =>
    rw [walk]
    rcases Nat.lt_succ_iff_lt_or_eq.mp hi with h | rfl
    · exact ih _ h
    · rw [walk_In_frame F b i _ (b, i) (Or.inr le_rfl),
        walk_Out_frame F b i _ (b, i) (Or.inr le_rfl),
        walk_In_frame F b i _ (b, i + 1) (Or.inr (Nat.le_succ i))]
      refine ⟨by rw [visitInsn_In, if_pos rfl], fun hlt => ?_⟩
      rw [visitInsn_Out, if_pos ⟨rfl, hlt⟩, visitInsn_In, if_neg]
      simp

theorem mergeSuccessors_In (b : Nat) (st : State) : (mergeSuccessors F b st).In = st.In := rfl

theorem mergeSuccessors_OutKill (b : Nat) (st : State) :
    (mergeSuccessors F b st).OutKill = st.OutKill := rfl

theorem mem_foldl_union {α : Type} (f : α → Finset Value) (l : List α) (a : Finset Value)
    (v : Value) : v ∈ l.foldl (fun acc s => acc ∪ f s) a ↔ v ∈ a ∨ ∃ s ∈ l, v ∈ f s := by
  induction l generalizing a with
  | nil => simp
  | cons x xs ih =>
    rw [List.foldl_cons, ih]
    simp only [Finset.mem_union, List.mem_cons, exists_eq_or_imp]
    tauto

theorem mergeSuccessors_Out (b : Nat) (st : State) (k : Key) :
    (mergeSuccessors F b st).Out k =
      if k = F.terminator b then
        (st.Out k ∪ (F.successors b).toFinset.biUnion (fun s => st.In (F.firstInsn s)))
          \ st.OutKill k
      else st.Out k := by
  unfold mergeSuccessors
  by_cases hk : k = F.terminator b
  · subst hk
    simp only [setOut_Out, Function.update_same, if_true]
    ext v
    simp only [Finset.mem_sdiff, mem_foldl_union, Finset.mem_union, Finset.mem_biUnion,
      List.mem_toFinset]
  · simp [hk, Function.update_apply]

theorem visitBlock_In_frame (b : Nat) (st : State) (k : Key) (h : k.1 ≠ b) :
    (visitBlock F b st).1.In k = st.In k := by
  unfold visitBlock
  simp only
  rw [walk_In_frame F b _ _ k (Or.inl h), mergeSuccessors_In]

theorem visitBlock_Out_frame (b : Nat) (st : State) (k : Key) (h : k.1 ≠ b) :
    (visitBlock F b st).1.Out k = st.Out k := by
  unfold visitBlock
  simp only
  rw [walk_Out_frame F b _ _ k (Or.inl h), mergeSuccessors_Out, if_neg]
  rintro rfl
  exact h rfl

theorem visitBlock_local (b : Nat) (st : State) : Local F b (visitBlock F b st).1 := by
  intro i hi
  exact walk_local F b _ _ i (Nat.lt_succ_of_le hi)

theorem visitBlock_local_preserved (b c : Nat) (st : State) (h : Local F b st) :
    Local F b (visitBlock F c st).1 := by
  by_cases hc : c = b
  · subst hc; exact visitBlock_local F c st
  · intro i hi
    have hb : ∀ j, ((b, j) : Key).1 ≠ c := fun j => fun e => hc e.symm
    rw [visitBlock_In_frame F c st _ (hb i), visitBlock_Out_frame F c st _ (hb i),
      visitBlock_In_frame F c st _ (hb (i + 1))]
    exact h i hi

theorem visitAll_nil (sc : State × Bool) : visitAll F [] sc = sc := rfl

theorem visitAll_cons (b : Nat) (bs : List Nat) (sc : State × Bool) :
    visitAll F (b :: bs) sc =
      visitAll F bs ((visitBlock F b sc.1).1, sc.2 || (visitBlock F b sc.1).2) := rfl

theorem visitAll_append (as bs : List Nat) (sc : State × Bool) :
    visitAll F (as ++ bs) sc = visitAll F bs (visitAll F as sc) := by
  unfold visitAll
  rw [List.foldl_append]

theorem visitAll_local (b : Nat) (bs : List Nat) (sc : State × Bool)
    (h : b ∈ bs ∨ Local F b sc.1) : Local F b (visitAll F bs sc).1 := by
  induction bs generalizing sc with
  | nil => simpa using h
  | cons c cs ih =>
    rw [visitAll_cons]
    apply ih
    rcases h with h | h
    · rcases List.mem_cons.mp h with rfl | h
      · exact Or.inr (visitBlock_local F b sc.1)
      · exact Or.inl h
    · exact Or.inr (visitBlock_local_preserved F b c sc.1 h)

theorem round_local (b : Nat) (hb : b ∈ depth_first F) (st : State) :
    Local F b (round F st).1 :=
  visitAll_local F b _ _ (Or.inl (by simpa [worklist] using hb))

/-- The state `runLoop` returns is the outcome of a round that left `change` unset. -/
theorem runLoop_eq_round (fuel : Nat) (st fin : State) (k : Nat)
    (h : runLoop F fuel st = some (fin, k)) :
    ∃ s0, round F s0 = (fin, false) := by
  induction fuel generalizing st k with
  | zero => simp [runLoop] at h
  | succ n ih =>
    rw [runLoop] at h
    by_cases hc : (round F st).2 = true
    · rw [if_pos hc] at h
      rcases hr : runLoop F n (round F st).1 with _ | ⟨fin1, k1⟩
      · simp [hr] at h
      · simp only [hr, Option.map_some', Option.some.injEq, Prod.mk.injEq] at h
        obtain ⟨rfl, -⟩ := h
        exact ih _ _ hr
    · rw [if_neg hc] at h
      simp only [Option.some.injEq, Prod.mk.injEq] at h
      refine ⟨st, ?_⟩
      rw [← h.1]
      simp only [Bool.not_eq_true] at hc
      exact Prod.ext rfl hc

theorem run_local (fuel : Nat) (fin : State) (k : Nat) (h : run F fuel = some (fin, k))
    (b : Nat) (hb : b ∈ depth_first F) : Local F b fin := by
  obtain ⟨s0, hs⟩ := runLoop_eq_round F fuel _ fin k h
  have := round_local F b hb s0
  rwa [hs] at this

end Walk
section Run
variable (F : Function)

theorem dfs_nodup (fuel : Nat) (stack visited : List Nat) (h : visited.Nodup) :
    (dfs F fuel stack visited).Nodup := by
  induction fuel generalizing stack visited with
  | zero => simpa [dfs] using h
  | succ n ih =>
    cases stack with
    | nil => simpa [dfs] using h
    | cons b stack =>
      rw [dfs]
      split
      · exact ih _ _ h
      · rename_i hb
        apply ih
        rw [List.nodup_append]
        refine ⟨h, List.nodup_singleton b, ?_⟩
        intro x hx hx2
        rw [List.mem_singleton] at hx2
        exact hb (hx2 ▸ hx)

theorem depth_first_nodup : (depth_first F).Nodup := dfs_nodup F _ _ _ List.nodup_nil

theorem worklist_nodup : (worklist F).Nodup := List.nodup_reverse.mpr (depth_first_nodup F)

theorem mem_worklist (b : Nat) : b ∈ worklist F ↔ b ∈ depth_first F := by
  simp [worklist]

theorem walk_Out_terminator (b n : Nat) (st : State) (hn : n ≤ (F.block b).body.length + 1) :
    (walk F b n st).Out (F.terminator b) = st.Out (F.terminator b) := by
  induction n generalizing st with
  | zero => rfl
  | succ n ih =>
    rw [walk, ih _ (by omega), visitInsn_Out, if_neg]
    rintro ⟨h1, h2⟩
    simp only [Function.terminator, Prod.mk.injEq, true_and] at h1
    omega

theorem visitBlock_Out_terminator (b : Nat) (st : State) :
    (visitBlock F b st).1.Out (F.terminator b) =
      (st.Out (F.terminator b) ∪
        (F.successors b).toFinset.biUnion (fun s => st.In (F.firstInsn s)))
        \ st.OutKill (F.terminator b) := by
  unfold visitBlock
  simp only
  rw [walk_Out_terminator F b _ _ le_rfl, mergeSuccessors_Out, if_pos rfl]

theorem visitAll_In_frame (bs : List Nat) (sc : State × Bool) (k : Key) (h : k.1 ∉ bs) :
    (visitAll F bs sc).1.In k = sc.1.In k := by
  induction bs generalizing sc with
  | nil => rfl
  | cons c cs ih =>
    rw [visitAll_cons, ih _ (fun hm => h (List.mem_cons_of_mem _ hm))]
    exact visitBlock_In_frame F c sc.1 k (fun e => h (e ▸ List.mem_cons_self _ _))

theorem visitAll_Out_frame (bs : List Nat) (sc : State × Bool) (k : Key) (h : k.1 ∉ bs) :
    (visitAll F bs sc).1.Out k = sc.1.Out k := by
  induction bs generalizing sc with
  | nil => rfl
  | cons c cs ih =>
    rw [visitAll_cons, ih _ (fun hm => h (List.mem_cons_of_mem _ hm))]
    exact visitBlock_Out_frame F c sc.1 k (fun e => h (e ▸ List.mem_cons_self _ _))

/-- The worklist split at a block it contains. -/
theorem worklist_split (P : Nat) (hP : P ∈ worklist F) :
    ∃ post, worklist F = (worklist F).takeWhile (fun b => decide (b ≠ P)) ++ P :: post ∧
      P ∉ (worklist F).takeWhile (fun b => decide (b ≠ P)) ∧ P ∉ post := by
  have hnd := worklist_nodup F
  generalize worklist F = l at hP hnd
  induction l with
  | nil => simp at hP
  | cons c cs ih =>
    by_cases hc : c = P
    · subst hc
      refine ⟨cs, by simp [List.takeWhile], by simp [List.takeWhile], (List.nodup_cons.mp hnd).1⟩
    · have hP2 : P ∈ cs := by
        rcases List.mem_cons.mp hP with h | h
        · exact absurd h.symm hc
        · exact h
      obtain ⟨post, h1, h2, h3⟩ := ih hP2 (List.nodup_cons.mp hnd).2
      refine ⟨post, ?_, ?_, h3⟩
      · rw [List.takeWhile_cons_of_pos (by simpa using hc), List.cons_append, ← h1]
      · rw [List.takeWhile_cons_of_pos (by simpa using hc)]
        intro hm
        rcases List.mem_cons.mp hm with h | h
        · exact hc h.symm
        · exact h2 h

/-- The state a round ends in, in terms of the visit of one of its blocks. -/
theorem round_eq_visit (P : Nat) (hP : P ∈ worklist F) (s0 : State) :
    ∃ post c, P ∉ post ∧
      (round F s0).1 = (visitAll F post ((visitBlock F P (stateAtVisit F s0 P)).1, c)).1 := by
  obtain ⟨post, h1, -, h3⟩ := worklist_split F P hP
  have h : round F s0 =
      visitAll F ((worklist F).takeWhile (fun b => decide (b ≠ P)) ++ P :: post) (s0, false) := by
    rw [← h1]; rfl
  rw [h, visitAll_append, visitAll_cons]
  exact ⟨post, _, h3, rfl⟩

theorem runLoop_spec (fuel m k : Nat) (fin : State)
    (h : runLoop F fuel (stateAfter F m) = some (fin, k)) :
    1 ≤ k ∧ fin = stateAfter F (m + k) ∧ changeAfter F (m + k - 1) = false ∧
      ∀ j, m ≤ j → j < m + k - 1 → changeAfter F j = true := by
  induction fuel generalizing m k with
  | zero => simp [runLoop] at h
  | succ n ih =>
    rw [runLoop] at h
    by_cases hc : (round F (stateAfter F m)).2 = true
    · rw [if_pos hc] at h
      rcases hr : runLoop F n (round F (stateAfter F m)).1 with _ | ⟨fin1, k1⟩
      · simp [hr] at h
      · simp only [hr, Option.map_some', Option.some.injEq, Prod.mk.injEq] at h
        obtain ⟨rfl, rfl⟩ := h
        obtain ⟨h1, h2, h3, h4⟩ := ih (m + 1) k1 hr
        refine ⟨by omega, ?_, ?_, ?_⟩
        · rw [h2]; congr 1; omega
        · rw [← h3]; congr 1; omega
        · intro j hj1 hj2
          rcases Nat.eq_or_lt_of_le hj1 with rfl | hlt
          · exact hc
          · exact h4 j hlt (by omega)
    · rw [if_neg hc] at h
      simp only [Option.some.injEq, Prod.mk.injEq] at h
      obtain ⟨rfl, rfl⟩ := h
      refine ⟨le_rfl, rfl, by simpa [changeAfter] using hc, fun j h1 h2 => by omega⟩

theorem run_spec (fuel k : Nat) (fin : State) (h : run F fuel = some (fin, k)) :
    1 ≤ k ∧ fin = stateAfter F k ∧ changeAfter F (k - 1) = false ∧
      ∀ j, j < k - 1 → changeAfter F j = true := by
  have := runLoop_spec F fuel 0 k fin h
  simp only [zero_add, Nat.zero_le, true_implies] at this
  exact this

theorem runLoop_of_changeAfter (j m : Nat) (h : changeAfter F (m + j) = false) :
    ∃ r, runLoop F (j + 1) (stateAfter F m) = some r := by
  induction j generalizing m with
  | zero =>
    rw [runLoop, if_neg]
    · exact ⟨_, rfl⟩
    · simpa [changeAfter] using h
  | succ j ih =>
    rw [runLoop]
    by_cases hc : (round F (stateAfter F m)).2 = true
    · rw [if_pos hc]
      obtain ⟨r, hr⟩ := ih (m + 1) (by rw [← h]; congr 1; omega)
      have : (round F (stateAfter F m)).1 = stateAfter F (m + 1) := rfl
      rw [this, hr]
      exact ⟨_, rfl⟩
    · rw [if_neg hc]
      exact ⟨_, rfl⟩

end Run
section Rigid
variable (F : Function)

theorem visitStates_nil (st : State) : visitStates F [] st = st := rfl

theorem visitStates_cons (b : Nat) (bs : List Nat) (st : State) :
    visitStates F (b :: bs) st = visitStates F bs (visitBlock F b st).1 := rfl

theorem visitStates_append (as bs : List Nat) (st : State) :
    visitStates F (as ++ bs) st = visitStates F bs (visitStates F as st) := by
  unfold visitStates
  rw [List.foldl_append]

theorem visitAll_fst (bs : List Nat) (sc : State × Bool) :
    (visitAll F bs sc).1 = visitStates F bs sc.1 := by
  induction bs generalizing sc with
  | nil => rfl
  | cons b bs ih => rw [visitAll_cons, ih, visitStates_cons]

theorem round_fst (st : State) : (round F st).1 = visitStates F (worklist F) st :=
  visitAll_fst F _ _

theorem stateAtVisit_eq (s0 : State) (P : Nat) :
    stateAtVisit F s0 P =
      visitStates F ((worklist F).takeWhile (fun b => decide (b ≠ P))) s0 :=
  visitAll_fst F _ _

theorem killRigid_of_outKill_eq {f : State → State} (h : ∀ st, (f st).OutKill = st.OutKill) :
    KillRigid f := fun k v => Or.inl (fun st => by rw [h])

theorem killRigid_comp {f g : State → State} (hf : KillRigid f) (hg : KillRigid g) :
    KillRigid (fun st => g (f st)) := by
  intro k v
  rcases hg k v with h | ⟨c, h⟩
  · rcases hf k v with h2 | ⟨c, h2⟩
    · exact Or.inl (fun st => (h (f st)).trans (h2 st))
    · exact Or.inr ⟨c, fun st => (h (f st)).trans (h2 st)⟩
  · exact Or.inr ⟨c, fun st => h (f st)⟩

theorem killRigid_foldl {α : Type} (step : State → α → State) (l : List α)
    (h : ∀ x ∈ l, KillRigid (fun s => step s x)) : KillRigid (fun s => l.foldl step s) := by
  induction l with
  | nil => exact killRigid_of_outKill_eq (fun _ => rfl)
  | cons x xs ih =>
    simp only [List.foldl_cons]
    exact killRigid_comp (h x (List.mem_cons_self _ _))
      (ih (fun y hy => h y (List.mem_cons_of_mem _ hy)))

theorem killRigid_idem {f : State → State} (hf : KillRigid f) (st : State) :
    (f (f st)).OutKill = (f st).OutKill := by
  funext k
  ext v
  rcases hf k v with h | ⟨c, h⟩
  · exact h (f st)
  · exact (h (f st)).trans (h st).symm

theorem killRigid_congr {f : State → State} (hf : KillRigid f) (s t : State)
    (h : s.OutKill = t.OutKill) : (f s).OutKill = (f t).OutKill := by
  funext k
  ext v
  rcases hf k v with h2 | ⟨c, h2⟩
  · rw [h2 s, h2 t, h]
  · exact (h2 s).trans (h2 t).symm

theorem killRigid_insert (k0 : Key) (A : Finset Value) :
    KillRigid (fun s => s.setOutKill k0 (s.OutKill k0 ∪ A)) := by
  intro k v
  by_cases hk : k = k0
  · subst hk
    by_cases hv : v ∈ A
    · exact Or.inr ⟨True, fun st => by simp [hv]⟩
    · exact Or.inl (fun st => by simp [hv])
  · exact Or.inl (fun st => by simp [Function.update_apply, hk])

theorem killRigid_erase (k0 : Key) (v0 : Value) :
    KillRigid (fun s => s.setOutKill k0 ((s.OutKill k0).erase v0)) := by
  intro k v
  by_cases hk : k = k0
  · subst hk
    by_cases hv : v = v0
    · exact Or.inr ⟨False, fun st => by simp [hv]⟩
    · exact Or.inl (fun st => by simp [hv])
  · exact Or.inl (fun st => by simp [Function.update_apply, hk])

theorem killRigid_phiInsert (b : Nat) (I : Instruction) : KillRigid (phiInsert F b I) :=
  killRigid_foldl _ _ (fun _ _ => killRigid_insert _ _)

theorem killRigid_phiErase (I : Instruction) : KillRigid (phiErase F I) := by
  refine killRigid_foldl _ _ (fun vp _ => ?_)
  by_cases h : vp.1.isTracked = true
  · simp only [h, if_true]
    exact killRigid_erase _ _
  · simp only [h, if_false]
    exact killRigid_of_outKill_eq (fun _ => rfl)

theorem killRigid_visitInsn (b i : Nat) : KillRigid (visitInsn F b i) := by
  have h1 : KillRigid (fun st : State =>
      if i < (F.block b).body.length then st.setOut (b, i) (st.In (b, i + 1)) else st) :=
    killRigid_of_outKill_eq (fun st => by split <;> rfl)
  have h2 : KillRigid (fun st : State =>
      if (F.insn b i).isPhi then phiErase F (F.insn b i) (phiInsert F b (F.insn b i) st)
      else st) := by
    by_cases hp : (F.insn b i).isPhi = true
    · simp only [hp, if_true]
      exact killRigid_comp (killRigid_phiInsert F b _) (killRigid_phiErase F _)
    · simp only [hp]
      exact killRigid_of_outKill_eq (fun _ => rfl)
  have h3 : KillRigid (fun st : State =>
      st.setIn (b, i) ((st.Out (b, i) \ kill F b i) ∪ gen F b i)) :=
    killRigid_of_outKill_eq (fun _ => rfl)
  have h12 := killRigid_comp h1 h2
  have h123 := killRigid_comp h12 h3
  exact h123

theorem killRigid_walk (b n : Nat) : KillRigid (walk F b n) := by
  induction n with
  | zero => exact killRigid_of_outKill_eq (fun _ => rfl)
  | succ n ih =>
    have h := killRigid_comp (killRigid_visitInsn F b n) ih
    exact h

theorem killRigid_visitBlock (b : Nat) : KillRigid (fun st => (visitBlock F b st).1) := by
  have h0 : KillRigid (mergeSuccessors F b) :=
    killRigid_of_outKill_eq (mergeSuccessors_OutKill F b)
  have h := killRigid_comp h0 (killRigid_walk F b ((F.block b).body.length + 1))
  exact h

theorem killRigid_visitStates (bs : List Nat) : KillRigid (visitStates F bs) :=
  killRigid_foldl _ _ (fun b _ => killRigid_visitBlock F b)

theorem killRigid_round : KillRigid (fun st => (round F st).1) := by
  have : (fun st => (round F st).1) = visitStates F (worklist F) := funext (round_fst F)
  rw [this]
  exact killRigid_visitStates F _

/-- From the end of the first round on, `OutKill` is the same at the end of
every round. -/
theorem stateAfter_outKill (n : Nat) :
    (stateAfter F (n + 1)).OutKill = (stateAfter F 1).OutKill := by
  induction n with
  | zero => rfl
  | succ n ih =>
    rw [← ih]
    exact killRigid_idem (killRigid_round F) (stateAfter F n)

end Rigid
section Inflate
variable (F : Function)

theorem below_refl (s : State) : Below s s := fun _ => ⟨subset_rfl, subset_rfl⟩

theorem below_trans {s t u : State} (h1 : Below s t) (h2 : Below t u) : Below s u :=
  fun k => ⟨(h1 k).1.trans (h2 k).1, (h1 k).2.trans (h2 k).2⟩

theorem preLocal_of_local {b : Nat} {st : State} (h : Local F b st) : PreLocal F b st :=
  fun i hi => ⟨(h i hi).1 ▸ subset_rfl, fun hlt => ((h i hi).2 hlt) ▸ subset_rfl⟩

theorem visitStates_In_frame (bs : List Nat) (st : State) (k : Key) (h : k.1 ∉ bs) :
    (visitStates F bs st).In k = st.In k := by
  rw [← visitAll_fst F bs (st, false)]
  exact visitAll_In_frame F bs _ k h

theorem visitStates_Out_frame (bs : List Nat) (st : State) (k : Key) (h : k.1 ∉ bs) :
    (visitStates F bs st).Out k = st.Out k := by
  rw [← visitAll_fst F bs (st, false)]
  exact visitAll_Out_frame F bs _ k h

theorem visitStates_local (b : Nat) (bs : List Nat) (st : State)
    (h : b ∈ bs ∨ Local F b st) : Local F b (visitStates F bs st) := by
  rw [← visitAll_fst F bs (st, false)]
  exact visitAll_local F b bs _ h

/-- A visit of a `Ready` block only adds values. -/
theorem visitBlock_below (b : Nat) (st : State) (h : Ready F b st) :
    Below st (visitBlock F b st).1 := by
  obtain ⟨hpre, hdisj⟩ := h
  have hL := visitBlock_local F b st
  have hout : ∀ d i, i + d = (F.block b).body.length →
      st.Out (b, i) ⊆ (visitBlock F b st).1.Out (b, i) := by
    intro d
    induction d with
    | zero =>
      intro i hi
      have hT : ((b, i) : Key) = F.terminator b := by
        simp only [Function.terminator, Prod.mk.injEq, true_and]; omega
      rw [hT, visitBlock_Out_terminator]
      intro v hv
      rw [Finset.mem_sdiff, Finset.mem_union]
      exact ⟨Or.inl hv, Finset.disjoint_left.mp hdisj hv⟩
    | succ d ih =>
      intro i hi
      have hlt : i < (F.block b).body.length := by omega
      rw [(hL i (Nat.le_of_lt hlt)).2 hlt, (hL (i + 1) hlt).1]
      exact ((hpre i (Nat.le_of_lt hlt)).2 hlt).trans
        (((hpre (i + 1) hlt).1).trans
          (Finset.union_subset_union
            (Finset.sdiff_subset_sdiff (ih (i + 1) (by omega)) subset_rfl) subset_rfl))
  intro k
  obtain ⟨c, i⟩ := k
  by_cases hc : c = b
  · subst hc
    by_cases hi : i ≤ (F.block c).body.length
    · refine ⟨?_, hout _ i (Nat.add_sub_cancel' hi)⟩
      rw [(hL i hi).1]
      exact (hpre i hi).1.trans
        (Finset.union_subset_union
          (Finset.sdiff_subset_sdiff (hout _ i (Nat.add_sub_cancel' hi)) subset_rfl)
          subset_rfl)
    · have hi2 : (F.block c).body.length + 1 ≤ i := by omega
      unfold visitBlock
      simp only
      rw [walk_In_frame F c _ _ (c, i) (Or.inr hi2), walk_Out_frame F c _ _ (c, i) (Or.inr hi2),
        mergeSuccessors_Out, if_neg, mergeSuccessors_In]
      · exact ⟨subset_rfl, subset_rfl⟩
      · simp only [Function.terminator, Prod.mk.injEq, true_and]; omega
  · have hne : ((c, i) : Key).1 ≠ b := hc
    rw [visitBlock_In_frame F b st _ hne, visitBlock_Out_frame F b st _ hne]
    exact ⟨subset_rfl, subset_rfl⟩

/-- Visiting blocks that are all `Ready` at their visit only adds values. -/
theorem visitStates_below (bs : List Nat) (s : State)
    (h : ∀ pre b post, bs = pre ++ b :: post → Ready F b (visitStates F pre s)) :
    Below s (visitStates F bs s) := by
  induction bs generalizing s with
  | nil => exact below_refl s
  | cons c cs ih =>
    rw [visitStates_cons]
    refine below_trans (visitBlock_below F c s (h [] c cs rfl)) (ih _ ?_)
    intro pre b post hsplit
    have := h (c :: pre) b post (by rw [hsplit]; rfl)
    rwa [visitStates_cons] at this

theorem inflating_below_initial {s : State} (h : Inflating F s) (pre rest : List Nat)
    (hw : worklist F = pre ++ rest) : Below s (visitStates F pre s) := by
  apply visitStates_below
  intro p b q hsplit
  exact h p b (q ++ rest) (by rw [hw, hsplit]; simp)

theorem inflating_below_round {s : State} (h : Inflating F s) : Below s (round F s).1 := by
  rw [round_fst]
  exact inflating_below_initial F h (worklist F) [] (by simp)

theorem nodup_split {pre post : List Nat} {b : Nat} (h : (pre ++ b :: post).Nodup) :
    b ∉ pre ∧ b ∉ post := by
  rw [List.nodup_append] at h
  obtain ⟨-, h2, h3⟩ := h
  exact ⟨fun hb => h3 hb (List.mem_cons_self _ _), (List.nodup_cons.mp h2).1⟩

/-- The value `Out` of the terminator of `b` has at the end of a round. -/
theorem round_Out_terminator (s : State) (pre post : List Nat) (b : Nat)
    (hw : worklist F = pre ++ b :: post) :
    (round F s).1.Out (F.terminator b) =
      ((visitStates F pre s).Out (F.terminator b) ∪ succIn F (visitStates F pre s) b)
        \ (visitStates F pre s).OutKill (F.terminator b) := by
  have hnd := worklist_nodup F
  rw [hw] at hnd
  rw [round_fst, hw, visitStates_append, visitStates_cons,
    visitStates_Out_frame F post _ _ (nodup_split hnd).2]
  exact visitBlock_Out_terminator F b _

/-- After a round that left `OutKill` as it found it, every visit of the next
round is of a `Ready` block. -/
theorem inflating_round (s0 : State) (hK : (round F s0).1.OutKill = s0.OutKill) :
    Inflating F (round F s0).1 := by
  intro pre b post hw
  have hnd := worklist_nodup F
  rw [hw] at hnd
  have hb : b ∈ depth_first F := by
    rw [← mem_worklist, hw]
    simp
  refine ⟨preLocal_of_local F (visitStates_local F b pre _ (Or.inr (round_local F b hb s0))), ?_⟩
  have hT : (F.terminator b).1 ∉ pre := (nodup_split hnd).1
  rw [visitStates_Out_frame F pre _ _ hT, round_Out_terminator F s0 pre post b hw,
    killRigid_congr (killRigid_visitStates F pre) _ _ hK]
  exact Finset.sdiff_disjoint

theorem inflating_stateAfter (n : Nat) : Inflating F (stateAfter F (n + 2)) := by
  apply inflating_round F (stateAfter F (n + 1))
  show (stateAfter F (n + 2)).OutKill = (stateAfter F (n + 1)).OutKill
  rw [stateAfter_outKill F (n + 1), stateAfter_outKill F n]

/-- From the second round on, no `In` or `Out` set loses a value in a round. -/
theorem stateAfter_below (n : Nat) : Below (stateAfter F (n + 2)) (stateAfter F (n + 3)) :=
  inflating_below_round F (inflating_stateAfter F n)

end Inflate
section Potential
variable (F : Function)

theorem visitBlock_snd (b : Nat) (st : State) :
    (visitBlock F b st).2 = true ↔
      ∃ v, v ∈ (visitBlock F b st).1.In (F.firstInsn b) ∧ v ∉ st.In (F.firstInsn b) := by
  unfold visitBlock
  simp only [decide_eq_true_eq, mergeSuccessors_In]

theorem visitAll_snd (bs : List Nat) (s : State) (c : Bool) :
    (visitAll F bs (s, c)).2 = true ↔
      c = true ∨ ∃ pre b post, bs = pre ++ b :: post ∧
        (visitBlock F b (visitStates F pre s)).2 = true := by
  induction bs generalizing s c with
  | nil => simp [visitAll_nil]
  | cons a bs ih =>
    rw [visitAll_cons, ih]
    simp only [Bool.or_eq_true]
    constructor
    · rintro ((h | h) | ⟨pre, b, post, h1, h2⟩)
      · exact Or.inl h
      · exact Or.inr ⟨[], a, bs, rfl, h⟩
      · exact Or.inr ⟨a :: pre, b, post, by rw [h1]; rfl, h2⟩
    · rintro (h | ⟨pre, b, post, h1, h2⟩)
      · exact Or.inl (Or.inl h)
      · cases pre with
        | nil =>
          simp only [List.nil_append, List.cons.injEq] at h1
          obtain ⟨rfl, rfl⟩ := h1
          exact Or.inl (Or.inr h2)
        | cons p pre =>
          simp only [List.cons_append, List.cons.injEq] at h1
          obtain ⟨rfl, rfl⟩ := h1
          exact Or.inr ⟨pre, b, post, rfl, h2⟩

/-- A round sets `change` exactly when `In` of the first instruction of some
block of the worklist has, at the end of the round, a value it did not have at
the start. -/
theorem round_snd (s : State) :
    (round F s).2 = true ↔
      ∃ b ∈ worklist F, ∃ v, v ∈ (round F s).1.In (F.firstInsn b) ∧ v ∉ s.In (F.firstInsn b) := by
  have hnd := worklist_nodup F
  unfold round
  rw [visitAll_snd, visitAll_fst]
  simp only [Bool.false_eq_true, false_or]
  constructor
  · rintro ⟨pre, b, post, hw, hflag⟩
    rw [hw] at hnd
    obtain ⟨v, h1, h2⟩ := (visitBlock_snd F b _).mp hflag
    refine ⟨b, by rw [hw]; simp, v, ?_, ?_⟩
    · rw [hw, visitStates_append, visitStates_cons,
        visitStates_In_frame F post _ _ (nodup_split hnd).2]
      exact h1
    · rwa [visitStates_In_frame F pre _ _ (nodup_split hnd).1] at h2
  · rintro ⟨b, hb, v, h1, h2⟩
    obtain ⟨pre, post, hw⟩ := List.append_of_mem hb
    rw [hw] at hnd
    refine ⟨pre, b, post, hw, (visitBlock_snd F b _).mpr ⟨v, ?_, ?_⟩⟩
    · rw [hw, visitStates_append, visitStates_cons,
        visitStates_In_frame F post _ _ (nodup_split hnd).2] at h1
      exact h1
    · rwa [visitStates_In_frame F pre _ _ (nodup_split hnd).1]

theorem potential_le {s t : State} (h : Below s t) : potential F s ≤ potential F t :=
  List.sum_le_sum (fun _ _ => Finset.card_le_card (h _).1)

theorem potential_lt {s t : State} (h : Below s t)
    (hv : ∃ b ∈ worklist F, ∃ v, v ∈ t.In (F.firstInsn b) ∧ v ∉ s.In (F.firstInsn b)) :
    potential F s < potential F t := by
  obtain ⟨b, hb, v, h1, h2⟩ := hv
  refine List.sum_lt_sum _ _ (fun b _ => Finset.card_le_card (h _).1) ⟨b, hb, ?_⟩
  exact Finset.card_lt_card ⟨(h _).1, fun hsub => h2 (hsub h1)⟩

theorem potential_le_mul (st : State) (M : Nat)
    (h : ∀ b ∈ worklist F, (st.In (F.firstInsn b)).card ≤ M) :
    potential F st ≤ (worklist F).length * M := by
  have := List.sum_le_card_nsmul ((worklist F).map (fun b => (st.In (F.firstInsn b)).card)) M
    (by
      intro x hx
      obtain ⟨b, hb, rfl⟩ := List.mem_map.mp hx
      exact h b hb)
  simpa using this

/-- A round of visits that are all of `Ready` blocks and that sets `change`
increases the potential. -/
theorem inflating_potential_lt {s : State} (h : Inflating F s) (hc : (round F s).2 = true) :
    potential F s < potential F (round F s).1 :=
  potential_lt F (inflating_below_round F h) ((round_snd F s).mp hc)

theorem gen_subset_genUniverse (b i : Nat) (hb : b ∈ worklist F)
    (hi : i ≤ (F.block b).body.length) : gen F b i ⊆ genUniverse F := by
  intro v hv
  unfold genUniverse
  rw [Finset.mem_biUnion]
  refine ⟨b, List.mem_toFinset.mpr hb, ?_⟩
  rw [Finset.mem_biUnion]
  exact ⟨i, Finset.mem_range.mpr (Nat.lt_succ_of_le hi), hv⟩

theorem bounded_init : Bounded F State.init := fun _ => ⟨by simp [State.init], by simp [State.init]⟩

theorem visitInsn_bounded (b i : Nat) (hb : b ∈ worklist F)
    (hi : i ≤ (F.block b).body.length) (st : State) (h : Bounded F st) :
    Bounded F (visitInsn F b i st) := by
  have hout : ∀ k, (visitInsn F b i st).Out k ⊆ genUniverse F := by
    intro k
    rw [visitInsn_Out]
    split
    · exact (h _).1
    · exact (h _).2
  intro k
  refine ⟨?_, hout k⟩
  rw [visitInsn_In]
  split
  · exact Finset.union_subset (Finset.sdiff_subset.trans (hout _))
      (gen_subset_genUniverse F b i hb hi)
  · exact (h _).1

theorem walk_bounded (b n : Nat) (hb : b ∈ worklist F)
    (hn : n ≤ (F.block b).body.length + 1) (st : State) (h : Bounded F st) :
    Bounded F (walk F b n st) := by
  induction n generalizing st with
  | zero => exact h
  | succ n ih =>
    rw [walk]
    exact ih (by omega) _ (visitInsn_bounded F b n hb (by omega) st h)

theorem mergeSuccessors_bounded (b : Nat) (st : State) (h : Bounded F st) :
    Bounded F (mergeSuccessors F b st) := by
  intro k
  refine ⟨(h k).1, ?_⟩
  rw [mergeSuccessors_Out]
  split
  · refine Finset.sdiff_subset.trans (Finset.union_subset (h _).2 ?_)
    intro v hv
    rw [Finset.mem_biUnion] at hv
    obtain ⟨s, -, hs⟩ := hv
    exact (h _).1 hs
  · exact (h k).2

theorem visitBlock_bounded (b : Nat) (hb : b ∈ worklist F) (st : State) (h : Bounded F st) :
    Bounded F (visitBlock F b st).1 :=
  walk_bounded F b _ hb le_rfl _ (mergeSuccessors_bounded F b st h)

theorem visitStates_bounded (bs : List Nat) (hbs : ∀ b ∈ bs, b ∈ worklist F) (st : State)
    (h : Bounded F st) : Bounded F (visitStates F bs st) := by
  induction bs generalizing st with
  | nil => exact h
  | cons b bs ih =>
    rw [visitStates_cons]
    exact ih (fun c hc => hbs c (List.mem_cons_of_mem _ hc)) _
      (visitBlock_bounded F b (hbs b (List.mem_cons_self _ _)) st h)

theorem stateAfter_bounded (n : Nat) : Bounded F (stateAfter F n) := by
  induction n with
  | zero => exact bounded_init F
  | succ n ih =>
    rw [stateAfter, round_fst]
    exact visitStates_bounded F _ (fun _ h => h) _ ih

theorem potential_le_bound (n : Nat) :
    potential F (stateAfter F n) ≤ (worklist F).length * (genUniverse F).card :=
  potential_le_mul F _ _ (fun _ _ => Finset.card_le_card (stateAfter_bounded F n _).1)

/-- As long as the rounds after round `m` are made of visits of `Ready` blocks
and set `change`, the potential grows by at least one per round. -/
theorem potential_ge_of_change (m j : Nat)
    (hinf : ∀ i < j, Inflating F (stateAfter F (m + i)))
    (h : ∀ i < j, changeAfter F (m + i) = true) :
    potential F (stateAfter F m) + j ≤ potential F (stateAfter F (m + j)) := by
  induction j with
  | zero => exact le_rfl
  | succ j ih =>
    have h1 := ih (fun i hi => hinf i (Nat.lt_succ_of_lt hi)) (fun i hi => h i (Nat.lt_succ_of_lt hi))
    have h3 := inflating_potential_lt F (hinf j (Nat.lt_succ_self j)) (h j (Nat.lt_succ_self j))
    have h4 : (round F (stateAfter F (m + j))).1 = stateAfter F (m + (j + 1)) := rfl
    rw [h4] at h3
    omega

theorem inflating_stateAfter_add (i : Nat) : Inflating F (stateAfter F (2 + i)) := by
  rw [Nat.add_comm]; exact inflating_stateAfter F i

/-- Some round leaves `change` unset. -/
theorem exists_changeAfter_false :
    ∃ n, n ≤ (worklist F).length * (genUniverse F).card + 2 ∧ changeAfter F n = false := by
  by_contra hcon
  push_neg at hcon
  have hall : ∀ i < (worklist F).length * (genUniverse F).card + 1,
      changeAfter F (2 + i) = true := by
    intro i hi
    have := hcon (2 + i) (by omega)
    simpa using this
  have h1 := potential_ge_of_change F 2 _ (fun i _ => inflating_stateAfter_add F i) hall
  have h2 := potential_le_bound F (2 + ((worklist F).length * (genUniverse F).card + 1))
  omega

end Potential
section Fuel
variable (F : Function)

theorem runLoop_succ (n : Nat) (st : State) (r : State × Nat)
    (h : runLoop F n st = some r) : runLoop F (n + 1) st = some r := by
  induction n generalizing st r with
  | zero => simp [runLoop] at h
  | succ n ih =>
    rw [runLoop] at h ⊢
    by_cases hc : (round F st).2 = true
    · rw [if_pos hc] at h ⊢
      rcases hr : runLoop F n (round F st).1 with _ | r1
      · simp [hr] at h
      · rw [ih _ _ hr]
        rw [hr] at h
        exact h
    · rw [if_neg hc] at h ⊢
      exact h

theorem runLoop_mono (n m : Nat) (hnm : n ≤ m) (st : State) (r : State × Nat)
    (h : runLoop F n st = some r) : runLoop F m st = some r := by
  induction m with
  | zero =>
    have : n = 0 := by omega
    subst this
    exact h
  | succ m ih =>
    rcases Nat.eq_or_lt_of_le hnm with rfl | hlt
    · exact h
    · exact runLoop_succ F m st r (ih (by omega))

end Fuel
section Bound
variable (F : Function)

theorem below_init (s : State) : Below State.init s :=
  fun _ => ⟨by simp [State.init], by simp [State.init]⟩

/-- The number of rounds is at most the final potential plus two. -/
theorem rounds_le_potential_add_two (fuel k : Nat) (fin : State)
    (h : run F fuel = some (fin, k)) : k ≤ potential F fin + 2 := by
  obtain ⟨hk, rfl, -, hch⟩ := run_spec F fuel k fin h
  by_cases h3 : k < 3
  · omega
  · obtain ⟨j, rfl⟩ : ∃ j, k = j + 3 := ⟨k - 3, by omega⟩
    have h1 := potential_ge_of_change F 2 j (fun i _ => inflating_stateAfter_add F i)
      (fun i hi => hch (2 + i) (by omega))
    have h2 : potential F (stateAfter F (2 + j)) ≤ potential F (stateAfter F (j + 3)) := by
      rw [Nat.add_comm 2 j]
      exact potential_le F (stateAfter_below F j)
    have h4 : 1 ≤ potential F (stateAfter F 2) := by
      have hc : changeAfter F 1 = true := hch 1 (by omega)
      have := potential_lt F (below_init (stateAfter F 2))
        (by
          obtain ⟨b, hb, v, hv, -⟩ := (round_snd F (stateAfter F 1)).mp hc
          exact ⟨b, hb, v, hv, by simp [State.init]⟩)
      omega
    omega

theorem visitInsn_OutKill_of_not_phi (b i : Nat) (st : State)
    (hp : (F.insn b i).isPhi = false) : (visitInsn F b i st).OutKill = st.OutKill := by
  unfold visitInsn
  simp only [hp, Bool.false_eq_true, if_false, setIn_OutKill]
  split <;> rfl

theorem walk_OutKill_of_not_phi (b n : Nat) (st : State)
    (hp : ∀ i < n, (F.insn b i).isPhi = false) : (walk F b n st).OutKill = st.OutKill := by
  induction n generalizing st with
  | zero => rfl
  | succ n ih =>
    rw [walk, ih _ (fun i hi => hp i (Nat.lt_succ_of_lt hi)),
      visitInsn_OutKill_of_not_phi F b n st (hp n (Nat.lt_succ_self n))]

theorem visitBlock_OutKill_of_not_phi (b : Nat) (st : State)
    (hp : ∀ i ≤ (F.block b).body.length, (F.insn b i).isPhi = false) :
    (visitBlock F b st).1.OutKill = st.OutKill := by
  unfold visitBlock
  simp only
  rw [walk_OutKill_of_not_phi F b _ _ (fun i hi => hp i (Nat.le_of_lt_succ hi)),
    mergeSuccessors_OutKill]

theorem visitStates_OutKill_of_not_phi (bs : List Nat) (st : State)
    (hp : ∀ b ∈ bs, ∀ i ≤ (F.block b).body.length, (F.insn b i).isPhi = false) :
    (visitStates F bs st).OutKill = st.OutKill := by
  induction bs generalizing st with
  | nil => rfl
  | cons b bs ih =>
    rw [visitStates_cons, ih _ (fun c hc => hp c (List.mem_cons_of_mem _ hc)),
      visitBlock_OutKill_of_not_phi F b st (hp b (List.mem_cons_self _ _))]

theorem stateAfter_OutKill_of_not_phi (n : Nat)
    (hp : ∀ b ∈ worklist F, ∀ i ≤ (F.block b).body.length, (F.insn b i).isPhi = false) :
    (stateAfter F n).OutKill = State.init.OutKill := by
  induction n with
  | zero => rfl
  | succ n ih => rw [stateAfter, round_fst, visitStates_OutKill_of_not_phi F _ _ hp, ih]

theorem preLocal_init (b : Nat) : PreLocal F b State.init :=
  fun _ _ => ⟨by simp [State.init], fun _ => by simp [State.init]⟩

theorem visitBlock_preLocal_preserved (b c : Nat) (st : State) (h : PreLocal F b st) :
    PreLocal F b (visitBlock F c st).1 := by
  by_cases hc : c = b
  · subst hc; exact preLocal_of_local F (visitBlock_local F c st)
  · intro i hi
    have hb : ∀ j, ((b, j) : Key).1 ≠ c := fun j => fun e => hc e.symm
    rw [visitBlock_In_frame F c st _ (hb i), visitBlock_Out_frame F c st _ (hb i),
      visitBlock_In_frame F c st _ (hb (i + 1))]
    exact h i hi

theorem visitStates_preLocal (b : Nat) (bs : List Nat) (st : State) (h : PreLocal F b st) :
    PreLocal F b (visitStates F bs st) := by
  induction bs generalizing st with
  | nil => exact h
  | cons c cs ih =>
    rw [visitStates_cons]
    exact ih _ (visitBlock_preLocal_preserved F b c st h)

theorem stateAfter_preLocal (b n : Nat) : PreLocal F b (stateAfter F n) := by
  induction n with
  | zero => exact preLocal_init F b
  | succ n ih =>
    rw [stateAfter, round_fst]
    exact visitStates_preLocal F b _ _ ih

/-- Without phis in the blocks of the worklist every round is made of visits of
`Ready` blocks. -/
theorem inflating_of_not_phi (n : Nat)
    (hp : ∀ b ∈ worklist F, ∀ i ≤ (F.block b).body.length, (F.insn b i).isPhi = false) :
    Inflating F (stateAfter F n) := by
  intro pre b post hw
  refine ⟨visitStates_preLocal F b pre _ (stateAfter_preLocal F b n), ?_⟩
  rw [visitStates_OutKill_of_not_phi F pre _
    (fun c hc => hp c (by rw [hw]; exact List.mem_append_left _ hc)),
    stateAfter_OutKill_of_not_phi F n hp]
  simp [State.init]

/-- Without phis in the blocks of the worklist the number of rounds is at most
the final potential plus one. -/
theorem rounds_le_potential_add_one (fuel k : Nat) (fin : State)
    (h : run F fuel = some (fin, k))
    (hp : ∀ b ∈ worklist F, ∀ i ≤ (F.block b).body.length, (F.insn b i).isPhi = false) :
    k ≤ potential F fin + 1 := by
  obtain ⟨hk, rfl, -, hch⟩ := run_spec F fuel k fin h
  obtain ⟨j, rfl⟩ : ∃ j, k = j + 1 := ⟨k - 1, by omega⟩
  have h1 := potential_ge_of_change F 0 j (fun i _ => inflating_of_not_phi F _ hp)
    (fun i hi => hch (0 + i) (by omega))
  have h2 : potential F (stateAfter F (0 + j)) ≤ potential F (stateAfter F (j + 1)) := by
    rw [Nat.zero_add]
    exact potential_le F (inflating_below_round F (inflating_of_not_phi F j hp))
  omega

end Bound
section Counting
variable (F : Function)

theorem block_mem (b : Nat) (hb : b < F.blocks.length) : F.block b ∈ F.blocks := by
  unfold Function.block
  rw [List.getD_eq_getElem _ _ hb]
  exact List.getElem_mem hb

theorem dfs_lt (hwf : F.WellFormed) (fuel : Nat) (stack visited : List Nat)
    (hs : ∀ b ∈ stack, b < F.blocks.length) (hv : ∀ b ∈ visited, b < F.blocks.length) :
    ∀ b ∈ dfs F fuel stack visited, b < F.blocks.length := by
  induction fuel generalizing stack visited with
  | zero => simpa [dfs] using hv
  | succ n ih =>
    cases stack with
    | nil => simpa [dfs] using hv
    | cons a stack =>
      rw [dfs]
      have ha : a < F.blocks.length := hs a (List.mem_cons_self _ _)
      split
      · exact ih _ _ (fun b hb => hs b (List.mem_cons_of_mem _ hb)) hv
      · apply ih
        · intro b hb
          rcases List.mem_append.mp hb with h | h
          · exact hwf.2.1 _ (block_mem F a ha) b h
          · exact hs b (List.mem_cons_of_mem _ h)
        · intro b hb
          rcases List.mem_append.mp hb with h | h
          · exact hv b h
          · rw [List.mem_singleton] at h
            exact h ▸ ha

theorem worklist_lt (hwf : F.WellFormed) : ∀ b ∈ worklist F, b < F.blocks.length := by
  intro b hb
  rw [mem_worklist] at hb
  refine dfs_lt F hwf _ _ _ ?_ (by simp) b hb
  intro c hc
  rw [List.mem_singleton] at hc
  subst hc
  exact List.length_pos.mpr hwf.1

theorem worklist_length_le (hwf : F.WellFormed) : (worklist F).length ≤ F.blocks.length := by
  rw [← List.toFinset_card_of_nodup (worklist_nodup F)]
  have : (worklist F).toFinset ⊆ Finset.range F.blocks.length := by
    intro b hb
    rw [Finset.mem_range]
    exact worklist_lt F hwf b (List.mem_toFinset.mp hb)
  simpa using Finset.card_le_card this

theorem length_le_numInsts : F.blocks.length ≤ F.numInsts := by
  unfold Function.numInsts
  have h := @List.sum_le_sum _ _ _ _ _ _ F.blocks (fun _ => 1) (fun B => B.body.length + 1)
    (fun _ _ => Nat.le_add_left _ _)
  simp only [List.map_const', List.sum_replicate, smul_eq_mul, mul_one] at h
  exact h

theorem length_lt_numInsts (h : ∃ B ∈ F.blocks, B.body ≠ []) : F.blocks.length < F.numInsts := by
  unfold Function.numInsts
  obtain ⟨B, hB, hne⟩ := h
  have h := @List.sum_lt_sum _ _ _ _ _ _ _ _ F.blocks (fun _ => 1) (fun B => B.body.length + 1)
    (fun _ _ => Nat.le_add_left _ _)
    ⟨B, hB, Nat.lt_add_of_pos_left (List.length_pos.mpr hne)⟩
  simp only [List.map_const', List.sum_replicate, smul_eq_mul, mul_one] at h
  exact h

theorem mem_keys (b i : Nat) (hb : b < F.blocks.length) (hi : i ≤ (F.block b).body.length) :
    (b, i) ∈ F.keys := by
  unfold Function.keys
  rw [List.mem_flatMap]
  exact ⟨b, List.mem_range.mpr hb, List.mem_map.mpr ⟨i, List.mem_range.mpr (by omega), rfl⟩⟩

theorem le_foldr_max (l : List Nat) (x : Nat) (hx : x ∈ l) : x ≤ l.foldr max 0 := by
  induction l with
  | nil => simp at hx
  | cons a l ih =>
    rw [List.foldr_cons]
    rcases List.mem_cons.mp hx with rfl | h
    · exact le_max_left _ _
    · exact (ih h).trans (le_max_right _ _)

theorem card_In_le_maxLive (st : State) (k : Key) (hk : k ∈ F.keys) :
    (st.In k).card ≤ maxLive F st :=
  (le_max_left _ _).trans (le_foldr_max _ _ (List.mem_map.mpr ⟨k, hk, rfl⟩))

theorem card_Out_le_maxLive (st : State) (k : Key) (hk : k ∈ F.keys) :
    (st.Out k).card ≤ maxLive F st :=
  (le_max_right _ _).trans (le_foldr_max _ _ (List.mem_map.mpr ⟨k, hk, rfl⟩))

/-- When a second round is run, some `In` set of the result is not empty. -/
theorem maxLive_pos (hwf : F.WellFormed) (fuel k : Nat) (fin : State)
    (h : run F fuel = some (fin, k)) (hk : 2 ≤ k) : 1 ≤ maxLive F fin := by
  obtain ⟨-, -, -, hch⟩ := run_spec F fuel k fin h
  obtain ⟨b, -, v, hv, -⟩ := (round_snd F (stateAfter F 0)).mp (hch 0 (by omega))
  have hu : v ∈ genUniverse F := (stateAfter_bounded F 1 _).1 hv
  unfold genUniverse at hu
  simp only [Finset.mem_biUnion, List.mem_toFinset, Finset.mem_range] at hu
  obtain ⟨c, hc, i, hi, hg⟩ := hu
  have hloc := (run_local F fuel fin k h c ((mem_worklist F c).mp hc) i (by omega)).1
  have hin : v ∈ fin.In (c, i) := by
    rw [hloc]
    exact Finset.mem_union_right _ hg
  exact (Finset.card_pos.mpr ⟨v, hin⟩).trans_le
    (card_In_le_maxLive F fin _ (mem_keys F c i (worklist_lt F hwf c hc) (by omega)))

theorem insn_zero_of_body_nil (b : Nat) (h : (F.block b).body = []) :
    F.insn b 0 = (F.block b).term := by
  unfold Function.insn BasicBlock.insts
  rw [h]
  rfl

end Counting

/-! ## The traversal visits exactly the reachable blocks -/

section Traversal
variable (F : Function)

theorem successors_of_ge (b : Nat) (h : F.blocks.length ≤ b) : F.successors b = [] := by
  unfold Function.successors Function.block
  rw [List.getD_eq_default _ _ h]
  rfl

theorem unvisitedEdges_append (visited : List Nat) (b : Nat) (hb : b ∉ visited) :
    unvisitedEdges F (visited ++ [b]) + (F.successors b).length = unvisitedEdges F visited := by
  have hfilter : (Finset.range F.blocks.length).filter (fun x => x ∉ visited ++ [b]) =
      ((Finset.range F.blocks.length).filter (fun x => x ∉ visited)).erase b := by
    ext x
    simp only [Finset.mem_filter, Finset.mem_erase, List.mem_append, List.mem_singleton, not_or]
    tauto
  unfold unvisitedEdges
  rw [hfilter]
  by_cases hlt : b < F.blocks.length
  · exact Finset.sum_erase_add _ _ (Finset.mem_filter.mpr ⟨Finset.mem_range.mpr hlt, hb⟩)
  · rw [Finset.erase_eq_of_not_mem (fun h => hlt (Finset.mem_range.mp (Finset.mem_filter.mp h).1)),
      successors_of_ge F b (by omega)]
    rfl

theorem unvisitedEdges_nil : unvisitedEdges F [] = F.numEdges := by
  unfold unvisitedEdges Function.numEdges
  rw [Finset.filter_true_of_mem (fun _ _ => by simp)]

theorem dfs_sound (fuel : Nat) (stack visited : List Nat)
    (hs : ∀ b ∈ stack, Reachable F b) (hv : ∀ b ∈ visited, Reachable F b) :
    ∀ b ∈ dfs F fuel stack visited, Reachable F b := by
  induction fuel generalizing stack visited with
  | zero => simpa [dfs] using hv
  | succ n ih =>
    cases stack with
    | nil => simpa [dfs] using hv
    | cons a stack =>
      rw [dfs]
      have ha : Reachable F a := hs a (List.mem_cons_self _ _)
      split
      · exact ih _ _ (fun b hb => hs b (List.mem_cons_of_mem _ hb)) hv
      · apply ih
        · intro b hb
          rcases List.mem_append.mp hb with h | h
          · exact Relation.ReflTransGen.tail ha h
          · exact hs b (List.mem_cons_of_mem _ h)
        · intro b hb
          rcases List.mem_append.mp hb with h | h
          · exact hv b h
          · rw [List.mem_singleton] at h
            exact h ▸ ha

theorem dfs_complete (fuel : Nat) (stack visited : List Nat)
    (hfuel : stack.length + unvisitedEdges F visited ≤ fuel)
    (hinv : ∀ b ∈ visited, ∀ s ∈ F.successors b, s ∈ visited ∨ s ∈ stack) :
    (∀ b ∈ visited, b ∈ dfs F fuel stack visited) ∧
      (∀ b ∈ stack, b ∈ dfs F fuel stack visited) ∧
      (∀ b ∈ dfs F fuel stack visited, ∀ s ∈ F.successors b, s ∈ dfs F fuel stack visited) := by
  induction fuel generalizing stack visited with
  | zero =>
    have hnil : stack = [] := List.length_eq_zero.mp (by omega)
    subst hnil
    refine ⟨fun b hb => hb, fun b hb => by simp at hb, fun b hb s hs => ?_⟩
    rcases hinv b hb s hs with h | h
    · exact h
    · simp at h
  | succ n ih =>
    cases stack with
    | nil =>
      refine ⟨fun b hb => hb, fun b hb => by simp at hb, fun b hb s hs => ?_⟩
      rcases hinv b hb s hs with h | h
      · exact h
      · simp at h
    | cons a stack =>
      rw [dfs]
      simp only [List.length_cons] at hfuel
      split
      · rename_i ha
        obtain ⟨h1, h2, h3⟩ := ih stack visited (by omega) (by
          intro b hb s hs
          rcases hinv b hb s hs with h | h
          · exact Or.inl h
          · rcases List.mem_cons.mp h with rfl | h
            · exact Or.inl ha
            · exact Or.inr h)
        refine ⟨h1, ?_, h3⟩
        intro b hb
        rcases List.mem_cons.mp hb with rfl | h
        · exact h1 _ ha
        · exact h2 b h
      · rename_i ha
        have hm := unvisitedEdges_append F visited a ha
        obtain ⟨h1, h2, h3⟩ := ih (F.successors a ++ stack) (visited ++ [a])
          (by rw [List.length_append]; omega) (by
          intro b hb s hs
          rcases List.mem_append.mp hb with hb | hb
          · rcases hinv b hb s hs with h | h
            · exact Or.inl (List.mem_append_left _ h)
            · rcases List.mem_cons.mp h with rfl | h
              · exact Or.inl (List.mem_append_right _ (List.mem_singleton_self _))
              · exact Or.inr (List.mem_append_right _ h)
          · rw [List.mem_singleton] at hb
            subst hb
            exact Or.inr (List.mem_append_left _ hs))
        refine ⟨fun b hb => h1 b (List.mem_append_left _ hb), ?_, h3⟩
        intro b hb
        rcases List.mem_cons.mp hb with rfl | h
        · exact h1 _ (List.mem_append_right _ (List.mem_singleton_self _))
        · exact h2 b (List.mem_append_right _ h)

/-- The worklist holds exactly the blocks reachable from the entry. -/
theorem mem_depth_first_iff (b : Nat) : b ∈ depth_first F ↔ Reachable F b := by
  constructor
  · intro hb
    refine dfs_sound F _ _ _ ?_ (by simp) b hb
    intro c hc
    rw [List.mem_singleton] at hc
    subst hc
    exact Relation.ReflTransGen.refl
  · intro hb
    obtain ⟨-, h2, h3⟩ := dfs_complete F (F.numEdges + 1) [0] []
      (by rw [unvisitedEdges_nil]; simp; omega) (by simp)
    induction hb with
    | refl => exact h2 0 (List.mem_singleton_self _)
    | tail _ hstep ih => exact h3 _ ih _ hstep

end Traversal

/-! ## The report -/

section Report

theorem programPoints_eq (F : Function) (st : State) :
    programPoints F st = F.keys.map (fun k => (k, st.Out k)) := rfl

theorem histGet_histIncr (h : List (Nat × Nat)) (x s : Nat) :
    histGet (histIncr h x) s = histGet h s + if s = x then 1 else 0 := by
  induction h with
  | nil =>
    by_cases hs : x = s
    · subst hs; simp [histIncr, histGet]
    · have hs2 : ¬ s = x := fun e => hs e.symm
      simp [histIncr, histGet, hs, hs2]
  | cons e t ih =>
    obtain ⟨k, c⟩ := e
    unfold histGet at ih ⊢
    rw [histIncr]
    by_cases hxk : x = k
    · subst hxk
      by_cases hs : x = s
      · subst hs; simp [List.filter_cons]; omega
      · have hs2 : ¬ s = x := fun e => hs e.symm
        simp [List.filter_cons, hs, hs2]
    · rw [if_neg hxk]
      by_cases hlt : x < k
      · rw [if_pos hlt]
        by_cases hs : x = s
        · subst hs; simp [List.filter_cons, hxk]; omega
        · have hs2 : ¬ s = x := fun e => hs e.symm
          simp [List.filter_cons, hs, hs2]
      · rw [if_neg hlt]
        by_cases hks : k = s
        · subst hks
          have hs2 : ¬ k = x := fun e => hxk e.symm
          simp only [List.filter_cons, decide_True, if_true, List.map_cons, List.sum_cons, ih,
            hs2, if_false]
          omega
        · simp only [List.filter_cons, hks, decide_False, Bool.false_eq_true, if_false, ih]

theorem sum_histIncr (h : List (Nat × Nat)) (x : Nat) :
    ((histIncr h x).map Prod.snd).sum = (h.map Prod.snd).sum + 1 := by
  induction h with
  | nil => simp [histIncr]
  | cons e t ih =>
    obtain ⟨k, c⟩ := e
    rw [histIncr]
    split
    · simp; omega
    · split
      · simp; omega
      · simp [ih]; omega

theorem mem_keys_histIncr (h : List (Nat × Nat)) (x : Nat) (e : Nat × Nat)
    (he : e ∈ histIncr h x) : e.1 = x ∨ ∃ e2 ∈ h, e2.1 = e.1 := by
  induction h with
  | nil =>
    simp only [histIncr, List.mem_singleton] at he
    exact Or.inl (by rw [he])
  | cons a t ih =>
    obtain ⟨k, c⟩ := a
    rw [histIncr] at he
    split at he
    · rename_i hxk
      rcases List.mem_cons.mp he with rfl | h2
      · exact Or.inl hxk.symm
      · exact Or.inr ⟨e, List.mem_cons_of_mem _ h2, rfl⟩
    · split at he
      · rcases List.mem_cons.mp he with rfl | h2
        · exact Or.inl rfl
        · exact Or.inr ⟨e, h2, rfl⟩
      · rcases List.mem_cons.mp he with rfl | h2
        · exact Or.inr ⟨(k, c), List.mem_cons_self _ _, rfl⟩
        · rcases ih h2 with h3 | ⟨e2, h3, h4⟩
          · exact Or.inl h3
          · exact Or.inr ⟨e2, List.mem_cons_of_mem _ h3, h4⟩

/-- The entries stay in strictly increasing key order. -/
theorem pairwise_histIncr (h : List (Nat × Nat)) (x : Nat)
    (hs : h.Pairwise (fun a b => a.1 < b.1)) :
    (histIncr h x).Pairwise (fun a b => a.1 < b.1) := by
  induction h with
  | nil => simp [histIncr]
  | cons a t ih =>
    obtain ⟨k, c⟩ := a
    rw [List.pairwise_cons] at hs
    rw [histIncr]
    split
    · exact List.pairwise_cons.mpr ⟨fun b hb => hs.1 b hb, hs.2⟩
    · rename_i hxk
      split
      · rename_i hlt
        refine List.pairwise_cons.mpr ⟨?_, List.pairwise_cons.mpr hs⟩
        intro b hb
        rcases List.mem_cons.mp hb with rfl | hb
        · exact hlt
        · exact lt_trans hlt (hs.1 b hb)
      · rename_i hlt
        refine List.pairwise_cons.mpr ⟨?_, ih hs.2⟩
        intro b hb
        rcases mem_keys_histIncr t x b hb with h1 | ⟨e2, h2, h3⟩
        · rw [h1]
          show k < x
          omega
        · rw [← h3]
          exact hs.1 e2 h2

theorem histGet_of_mem (h : List (Nat × Nat)) (hs : h.Pairwise (fun a b => a.1 < b.1))
    (e : Nat × Nat) (he : e ∈ h) : histGet h e.1 = e.2 := by
  induction h with
  | nil => simp at he
  | cons a t ih =>
    rw [List.pairwise_cons] at hs
    unfold histGet at ih ⊢
    rcases List.mem_cons.mp he with rfl | h2
    · have hnil : t.filter (fun x => decide (x.1 = e.1)) = [] := by
        rw [List.filter_eq_nil_iff]
        intro b hb
        have := hs.1 b hb
        simp only [decide_eq_true_eq]
        omega
      simp [List.filter_cons, hnil]
    · have hne : ¬ a.1 = e.1 := by
        have := hs.1 e h2
        omega
      simp only [List.filter_cons, hne, decide_False, Bool.false_eq_true, if_false]
      exact ih hs.2 h2

theorem foldl_histIncr (sizes : List Nat) (h : List (Nat × Nat))
    (hs : h.Pairwise (fun a b => a.1 < b.1)) :
    (sizes.foldl histIncr h).Pairwise (fun a b => a.1 < b.1) ∧
      ((sizes.foldl histIncr h).map Prod.snd).sum = (h.map Prod.snd).sum + sizes.length ∧
      ∀ s, histGet (sizes.foldl histIncr h) s = histGet h s + sizes.count s := by
  induction sizes generalizing h with
  | nil => simp [hs]
  | cons x xs ih =>
    obtain ⟨h1, h2, h3⟩ := ih (histIncr h x) (pairwise_histIncr h x hs)
    refine ⟨h1, ?_, fun s => ?_⟩
    · rw [List.foldl_cons, h2, sum_histIncr, List.length_cons]; omega
    · rw [List.foldl_cons, h3, histGet_histIncr, List.count_cons]
      by_cases hsx : s = x
      · subst hsx; simp; omega
      · have : ¬ x = s := fun e => hsx e.symm
        simp [hsx, this]

theorem histogram_eq (F : Function) (st : State) :
    histogram F st = ((programPoints F st).map (fun p => p.2.card)).foldl histIncr [] := by
  unfold histogram
  rw [List.foldl_map]

end Report

/-! ## The convergence test -/

section Convergence
variable (F : Function)

theorem takeWhile_ne_of_split (pre post : List Nat) (b : Nat) (hb : b ∉ pre) :
    (pre ++ b :: post).takeWhile (fun c => decide (c ≠ b)) = pre := by
  induction pre with
  | nil => simp [List.takeWhile]
  | cons a pre ih =>
    have ha : a ≠ b := fun e => hb (e ▸ List.mem_cons_self _ _)
    rw [List.cons_append, List.takeWhile_cons_of_pos (by simpa using ha),
      ih (fun h => hb (List.mem_cons_of_mem _ h))]

theorem stateAtVisit_of_split (s : State) (pre post : List Nat) (b : Nat)
    (hw : worklist F = pre ++ b :: post) : stateAtVisit F s b = visitStates F pre s := by
  have hnd := worklist_nodup F
  rw [hw] at hnd
  rw [stateAtVisit_eq, hw, takeWhile_ne_of_split pre post b (nodup_split hnd).1]

/-- A round sets `change` exactly when the visit of some block of the worklist
sets it. -/
theorem round_snd_visit (s : State) :
    (round F s).2 = true ↔
      ∃ b ∈ worklist F, (visitBlock F b (stateAtVisit F s b)).2 = true := by
  unfold round
  rw [visitAll_snd]
  simp only [Bool.false_eq_true, false_or]
  constructor
  · rintro ⟨pre, b, post, hw, hflag⟩
    refine ⟨b, by rw [hw]; simp, ?_⟩
    rwa [stateAtVisit_of_split F s pre post b hw]
  · rintro ⟨b, hb, hflag⟩
    obtain ⟨pre, post, hw⟩ := List.append_of_mem hb
    refine ⟨pre, b, post, hw, ?_⟩
    rwa [stateAtVisit_of_split F s pre post b hw] at hflag

theorem runLoop_of_flags (j m : Nat) (hf : changeAfter F (m + j) = false)
    (ht : ∀ i < j, changeAfter F (m + i) = true) :
    runLoop F (j + 1) (stateAfter F m) = some (stateAfter F (m + j + 1), j + 1) := by
  induction j generalizing m with
  | zero =>
    rw [runLoop, if_neg]
    · rfl
    · simpa [changeAfter] using hf
  | succ j ih =>
    rw [runLoop, if_pos (by simpa [changeAfter] using ht 0 (Nat.succ_pos j))]
    have h1 : (round F (stateAfter F m)).1 = stateAfter F (m + 1) := rfl
    have h2 := ih (m + 1) (by rw [← hf]; congr 1; omega)
      (fun i hi => by rw [← ht (i + 1) (by omega)]; congr 1; omega)
    rw [h1, h2]
    simp only [Option.map_some', Option.some.injEq, Prod.mk.injEq, and_true]
    congr 1
    omega

/-- The loop returns after round `n + 1` exactly when that round is the first to
leave `change` unset. -/
theorem run_stops_iff (n : Nat) :
    (∃ fin, run F (n + 1) = some (fin, n + 1)) ↔
      (changeAfter F n = false ∧ ∀ j < n, changeAfter F j = true) := by
  constructor
  · rintro ⟨fin, h⟩
    obtain ⟨-, -, h3, h4⟩ := run_spec F (n + 1) (n + 1) fin h
    exact ⟨h3, fun j hj => h4 j (by omega)⟩
  · rintro ⟨hf, ht⟩
    refine ⟨stateAfter F (n + 1), ?_⟩
    have := runLoop_of_flags F n 0 (by simpa using hf) (fun i hi => by simpa using ht i hi)
    simpa using this

end Convergence

/-! ## The final maps are a fixpoint of the round -/

section Fixpoint
variable (F : Function)

theorem visitBlock_In_frame_of_gt (b : Nat) (st : State) (k : Key)
    (h : k.1 ≠ b ∨ (F.block b).body.length < k.2) :
    (visitBlock F b st).1.In k = st.In k := by
  rcases h with h | h
  · exact visitBlock_In_frame F b st k h
  · unfold visitBlock
    simp only
    rw [walk_In_frame F b _ _ k (Or.inr (by omega)), mergeSuccessors_In]

theorem visitBlock_Out_frame_of_gt (b : Nat) (st : State) (k : Key)
    (h : k.1 ≠ b ∨ (F.block b).body.length < k.2) :
    (visitBlock F b st).1.Out k = st.Out k := by
  rcases h with h | h
  · exact visitBlock_Out_frame F b st k h
  · unfold visitBlock
    simp only
    rw [walk_Out_frame F b _ _ k (Or.inr (by omega)), mergeSuccessors_Out, if_neg]
    intro e
    rw [e] at h
    simp [Function.terminator] at h

/-- A visit of `b` that leaves `Out` of the terminator as it is in a state that
satisfies the equations of the block reproduces that state on the block. -/
theorem visitBlock_eq_of_local (b : Nat) (V s : State) (hloc : Local F b s)
    (hT : (visitBlock F b V).1.Out (F.terminator b) = s.Out (F.terminator b)) :
    ∀ i, i ≤ (F.block b).body.length →
      (visitBlock F b V).1.In (b, i) = s.In (b, i) ∧
      (visitBlock F b V).1.Out (b, i) = s.Out (b, i) := by
  have hL := visitBlock_local F b V
  have hout : ∀ d i, i + d = (F.block b).body.length →
      (visitBlock F b V).1.Out (b, i) = s.Out (b, i) := by
    intro d
    induction d with
    | zero =>
      intro i hi
      have hTk : ((b, i) : Key) = F.terminator b := by
        simp only [Function.terminator, Prod.mk.injEq, true_and]; omega
      rw [hTk]
      exact hT
    | succ d ih =>
      intro i hi
      have hlt : i < (F.block b).body.length := by omega
      rw [(hL i (Nat.le_of_lt hlt)).2 hlt, (hL (i + 1) hlt).1, ih (i + 1) (by omega),
        (hloc i (Nat.le_of_lt hlt)).2 hlt, (hloc (i + 1) hlt).1]
  intro i hi
  refine ⟨?_, hout _ i (Nat.add_sub_cancel' hi)⟩
  rw [(hL i hi).1, hout _ i (Nat.add_sub_cancel' hi), (hloc i hi).1]

theorem succIn_congr (s t : State) (b : Nat) (h : ∀ k, s.In k = t.In k) :
    succIn F s b = succIn F t b := by
  unfold succIn
  exact Finset.biUnion_congr rfl (fun S _ => h _)

/-- A round reproduces the `In` and `Out` maps of a state that satisfies the
equations of every block of the worklist and whose `Out` of every terminator
already holds the successors' `In` sets net of `OutKill` at the visit. -/
theorem round_fixed (s1 : State) (hloc : ∀ b ∈ worklist F, Local F b s1)
    (hA : ∀ pre b post, worklist F = pre ++ b :: post →
      Disjoint (s1.Out (F.terminator b)) ((visitStates F pre s1).OutKill (F.terminator b)))
    (hB : ∀ pre b post, worklist F = pre ++ b :: post →
      succIn F s1 b \ (visitStates F pre s1).OutKill (F.terminator b)
        ⊆ s1.Out (F.terminator b)) :
    ∀ k, (round F s1).1.In k = s1.In k ∧ (round F s1).1.Out k = s1.Out k := by
  have key : ∀ rest done, worklist F = done ++ rest →
      (∀ k, (visitStates F done s1).In k = s1.In k ∧ (visitStates F done s1).Out k = s1.Out k) →
      ∀ k, (visitStates F (done ++ rest) s1).In k = s1.In k ∧
        (visitStates F (done ++ rest) s1).Out k = s1.Out k := by
    intro rest
    induction rest with
    | nil => intro done _ h; simpa using h
    | cons b rest ih =>
      intro done hw hagree
      have hw2 : worklist F = (done ++ [b]) ++ rest := by rw [hw]; simp
      have := ih (done ++ [b]) hw2 ?_
      · rwa [List.append_assoc] at this
      · rw [visitStates_append, visitStates_cons, visitStates_nil]
        have hbw : b ∈ worklist F := by rw [hw]; simp
        have hT : (visitBlock F b (visitStates F done s1)).1.Out (F.terminator b) =
            s1.Out (F.terminator b) := by
          rw [visitBlock_Out_terminator, (hagree _).2]
          change (s1.Out (F.terminator b) ∪ succIn F (visitStates F done s1) b)
            \ (visitStates F done s1).OutKill (F.terminator b) = s1.Out (F.terminator b)
          rw [succIn_congr F _ s1 b (fun k => (hagree k).1)]
          ext v
          rw [Finset.mem_sdiff, Finset.mem_union]
          constructor
          · rintro ⟨h1 | h1, h2⟩
            · exact h1
            · exact hB done b rest hw (Finset.mem_sdiff.mpr ⟨h1, h2⟩)
          · intro h1
            exact ⟨Or.inl h1, Finset.disjoint_left.mp (hA done b rest hw) h1⟩
        intro k
        obtain ⟨c, i⟩ := k
        by_cases hk : c = b ∧ i ≤ (F.block b).body.length
        · obtain ⟨rfl, hi⟩ := hk
          exact visitBlock_eq_of_local F c _ s1 (hloc c hbw) hT i hi
        · have hfr : ((c, i) : Key).1 ≠ b ∨ (F.block b).body.length < ((c, i) : Key).2 := by
            by_cases hc : c = b
            · exact Or.inr (by simp only; by_contra hle; exact hk ⟨hc, by omega⟩)
            · exact Or.inl hc
          rw [visitBlock_In_frame_of_gt F b _ _ hfr, visitBlock_Out_frame_of_gt F b _ _ hfr]
          exact hagree _
  intro k
  have := key (worklist F) [] (by simp) (fun k => ⟨rfl, rfl⟩) k
  rwa [List.nil_append, ← round_fst] at this

theorem succ_mem_worklist (b S : Nat) (hb : b ∈ worklist F) (hS : S ∈ F.successors b) :
    S ∈ worklist F := by
  rw [mem_worklist, mem_depth_first_iff] at hb ⊢
  exact Relation.ReflTransGen.tail hb hS

/-- In a round that leaves `change` unset, `In` of the first instruction of a
successor is, at the end of the round, inside its value at the visit of the
predecessor. -/
theorem succIn_subset_of_no_change (s0 : State) (hflag : (round F s0).2 = false)
    (pre post : List Nat) (b : Nat) (hw : worklist F = pre ++ b :: post) :
    succIn F (round F s0).1 b ⊆ succIn F (visitStates F pre s0) b := by
  have hnd := worklist_nodup F
  rw [hw] at hnd
  have hbw : b ∈ worklist F := by rw [hw]; simp
  intro v hv
  unfold succIn at hv ⊢
  rw [Finset.mem_biUnion] at hv ⊢
  obtain ⟨S, hS, hvS⟩ := hv
  refine ⟨S, hS, ?_⟩
  have hSw := succ_mem_worklist F b S hbw (List.mem_toFinset.mp hS)
  by_cases hpre : S ∈ pre
  · have hnot : (F.firstInsn S).1 ∉ b :: post := by
      intro hmem
      rw [List.nodup_append] at hnd
      exact hnd.2.2 hpre hmem
    rw [round_fst, hw, visitStates_append, visitStates_In_frame F (b :: post) _ _ hnot] at hvS
    exact hvS
  · rw [visitStates_In_frame F pre _ _ hpre]
    by_contra hcon
    have : (round F s0).2 = true := (round_snd F s0).mpr ⟨S, hSw, v, hvS, hcon⟩
    rw [hflag] at this
    exact Bool.false_ne_true this

/-- After a round that left `change` unset, and `OutKill` as it found it, one
more round changes no `In` or `Out` set. -/
theorem round_fixed_of_stable (s0 : State) (hflag : (round F s0).2 = false)
    (hK : (round F s0).1.OutKill = s0.OutKill) :
    ∀ k, (round F (round F s0).1).1.In k = (round F s0).1.In k ∧
      (round F (round F s0).1).1.Out k = (round F s0).1.Out k := by
  have hinf := inflating_round F s0 hK
  apply round_fixed F _ (fun b hb => round_local F b ((mem_worklist F b).mp hb) s0)
  · intro pre b post hw
    have hnd := worklist_nodup F
    rw [hw] at hnd
    have := (hinf pre b post hw).2
    rwa [visitStates_Out_frame F pre _ _ (nodup_split hnd).1] at this
  · intro pre b post hw
    rw [killRigid_congr (killRigid_visitStates F pre) _ _ hK,
      round_Out_terminator F s0 pre post b hw]
    intro v hv
    rw [Finset.mem_sdiff] at hv ⊢
    exact ⟨Finset.mem_union_right _ (succIn_subset_of_no_change F s0 hflag pre post b hw hv.1),
      hv.2⟩

/-- After a first round that left `change` unset, one more round changes no `In`
or `Out` set. -/
theorem round_fixed_of_init (hflag : (round F State.init).2 = false) :
    ∀ k, (round F (round F State.init).1).1.In k = (round F State.init).1.In k ∧
      (round F (round F State.init).1).1.Out k = (round F State.init).1.Out k := by
  have hempty : ∀ S ∈ worklist F, (round F State.init).1.In (F.firstInsn S) = ∅ := by
    intro S hS
    rw [Finset.eq_empty_iff_forall_not_mem]
    intro v hv
    have : (round F State.init).2 = true :=
      (round_snd F State.init).mpr ⟨S, hS, v, hv, by simp [State.init]⟩
    rw [hflag] at this
    exact Bool.false_ne_true this
  have hsucc : ∀ b ∈ worklist F, succIn F (round F State.init).1 b = ∅ := by
    intro b hb
    unfold succIn
    rw [Finset.eq_empty_iff_forall_not_mem]
    intro v hv
    rw [Finset.mem_biUnion] at hv
    obtain ⟨S, hS, hvS⟩ := hv
    rw [hempty S (succ_mem_worklist F b S hb (List.mem_toFinset.mp hS))] at hvS
    simp at hvS
  have hout : ∀ pre b post, worklist F = pre ++ b :: post →
      (round F State.init).1.Out (F.terminator b) = ∅ := by
    intro pre b post hw
    have hnd := worklist_nodup F
    rw [hw] at hnd
    have hbw : b ∈ worklist F := by rw [hw]; simp
    rw [round_Out_terminator F State.init pre post b hw,
      visitStates_Out_frame F pre _ _ (nodup_split hnd).1]
    rw [Finset.eq_empty_iff_forall_not_mem]
    intro v hv
    rw [Finset.mem_sdiff, Finset.mem_union] at hv
    rcases hv.1 with h1 | h1
    · simp [State.init] at h1
    · unfold succIn at h1
      rw [Finset.mem_biUnion] at h1
      obtain ⟨S, hS, hvS⟩ := h1
      have hSw := succ_mem_worklist F b S hbw (List.mem_toFinset.mp hS)
      by_cases hpre : S ∈ pre
      · have hnot : (F.firstInsn S).1 ∉ b :: post := by
          intro hmem
          rw [List.nodup_append] at hnd
          exact hnd.2.2 hpre hmem
        have h2 := hempty S hSw
        rw [round_fst, hw, visitStates_append,
          visitStates_In_frame F (b :: post) _ _ hnot] at h2
        rw [h2] at hvS
        simp at hvS
      · rw [visitStates_In_frame F pre _ _ hpre] at hvS
        simp [State.init] at hvS
  apply round_fixed F _ (fun b hb => round_local F b ((mem_worklist F b).mp hb) State.init)
  · intro pre b post hw
    rw [hout pre b post hw]
    exact Finset.disjoint_empty_left _
  · intro pre b post hw
    rw [hsucc b (by rw [hw]; simp)]
    simp

/-- Once `run` has returned, one more round changes no `In` or `Out` set. -/
theorem round_fixed_of_run (fuel k : Nat) (fin : State) (h : run F fuel = some (fin, k)) :
    ∀ n, (round F fin).1.In n = fin.In n ∧ (round F fin).1.Out n = fin.Out n := by
  obtain ⟨hk, rfl, hflag, -⟩ := run_spec F fuel k fin h
  obtain ⟨j, rfl⟩ : ∃ j, k = j + 1 := ⟨k - 1, by omega⟩
  rw [Nat.add_sub_cancel] at hflag
  cases j with
  | zero => exact round_fixed_of_init F hflag
  | succ j =>
    apply round_fixed_of_stable F (stateAfter F (j + 1)) hflag
    show (stateAfter F (j + 2)).OutKill = (stateAfter F (j + 1)).OutKill
    rw [stateAfter_outKill F (j + 1), stateAfter_outKill F j]

end Fixpoint

/-! ## Other visiting orders -/

section Order
variable (F : Function)

theorem roundWith_fst (o : List Nat) (st : State) :
    (roundWith F o st).1 = visitStates F o st :=
  visitAll_fst F _ _

theorem runLoopWith_worklist (fuel : Nat) (st : State) :
    runLoopWith F (worklist F) fuel st = runLoop F fuel st := by
  induction fuel generalizing st with
  | zero => rfl
  | succ n ih =>
    rw [runLoopWith, runLoop]
    have h : roundWith F (worklist F) st = round F st := rfl
    rw [h, ih]

theorem runWith_worklist (fuel : Nat) : runWith F (worklist F) fuel = run F fuel :=
  runLoopWith_worklist F fuel State.init

/-- A round in the order `o` sets `change` exactly when `In` of the first
instruction of some block of `o` has, at the end of the round, a value it did not
have at the start. -/
theorem roundWith_snd (o : List Nat) (hnd : o.Nodup) (s : State) :
    (roundWith F o s).2 = true ↔
      ∃ b ∈ o, ∃ v, v ∈ (roundWith F o s).1.In (F.firstInsn b) ∧ v ∉ s.In (F.firstInsn b) := by
  rw [roundWith_fst]
  unfold roundWith
  rw [visitAll_snd]
  simp only [Bool.false_eq_true, false_or]
  constructor
  · rintro ⟨pre, b, post, hw, hflag⟩
    subst hw
    obtain ⟨v, h1, h2⟩ := (visitBlock_snd F b _).mp hflag
    refine ⟨b, by simp, v, ?_, ?_⟩
    · rw [visitStates_append, visitStates_cons,
        visitStates_In_frame F post _ _ (nodup_split hnd).2]
      exact h1
    · rwa [visitStates_In_frame F pre _ _ (nodup_split hnd).1] at h2
  · rintro ⟨b, hb, v, h1, h2⟩
    obtain ⟨pre, post, hw⟩ := List.append_of_mem hb
    subst hw
    refine ⟨pre, b, post, rfl, (visitBlock_snd F b _).mpr ⟨v, ?_, ?_⟩⟩
    · rw [visitStates_append, visitStates_cons,
        visitStates_In_frame F post _ _ (nodup_split hnd).2] at h1
      exact h1
    · rwa [visitStates_In_frame F pre _ _ (nodup_split hnd).1]

theorem roundWith_Out_terminator (s : State) (pre post : List Nat) (b : Nat)
    (hnd : (pre ++ b :: post).Nodup) :
    (roundWith F (pre ++ b :: post) s).1.Out (F.terminator b) =
      ((visitStates F pre s).Out (F.terminator b) ∪ succIn F (visitStates F pre s) b)
        \ (visitStates F pre s).OutKill (F.terminator b) := by
  rw [roundWith_fst, visitStates_append, visitStates_cons,
    visitStates_Out_frame F post _ _ (nodup_split hnd).2]
  exact visitBlock_Out_terminator F b _

theorem succIn_mono (s t : State) (h : Below s t) (b : Nat) : succIn F s b ⊆ succIn F t b := by
  intro v hv
  unfold succIn at hv ⊢
  rw [Finset.mem_biUnion] at hv ⊢
  obtain ⟨S, hS, hvS⟩ := hv
  exact ⟨S, hS, (h _).1 hvS⟩

theorem not_phi_of_phiFree (hp : PhiFree F) (b : Nat) (hb : b ∈ worklist F) (i : Nat)
    (hi : i ≤ (F.block b).body.length) : (F.insn b i).isPhi = false :=
  hp b hb i (List.mem_range.mpr (Nat.lt_succ_of_le hi))

theorem calm_init : Calm F State.init := ⟨fun b => preLocal_init F b, rfl⟩

theorem calm_visitBlock (hp : PhiFree F) (b : Nat) (hb : b ∈ worklist F) (s : State)
    (h : Calm F s) : Calm F (visitBlock F b s).1 :=
  ⟨fun c => visitBlock_preLocal_preserved F c b s (h.1 c), by
    rw [visitBlock_OutKill_of_not_phi F b s (not_phi_of_phiFree F hp b hb), h.2]⟩

theorem calm_below (b : Nat) (s : State) (h : Calm F s) : Below s (visitBlock F b s).1 := by
  refine visitBlock_below F b s ⟨h.1 b, ?_⟩
  rw [h.2]
  simp [State.init]

theorem outBelowSucc_init : OutBelowSucc F State.init := fun _ _ => by simp [State.init]

theorem outBelowSucc_visitBlock (c : Nat) (s : State)
    (hc : Calm F s) (hj : OutBelowSucc F s) : OutBelowSucc F (visitBlock F c s).1 := by
  intro b hb
  have hmono := succIn_mono F s _ (calm_below F c s hc) b
  by_cases hbc : b = c
  · subst hbc
    rw [visitBlock_Out_terminator]
    exact Finset.sdiff_subset.trans
      ((Finset.union_subset (hj b hb) subset_rfl).trans hmono)
  · have hne : (F.terminator b).1 ≠ c := hbc
    rw [visitBlock_Out_frame F c s _ hne]
    exact (hj b hb).trans hmono

/-- On a function without phis, visits of blocks of the worklist keep the state
`Calm` with `OutBelowSucc`, and only add values. -/
theorem tame_visitStates (hp : PhiFree F) (bs : List Nat) (hbs : ∀ b ∈ bs, b ∈ worklist F)
    (s : State) (hc : Calm F s) (hj : OutBelowSucc F s) :
    Calm F (visitStates F bs s) ∧ OutBelowSucc F (visitStates F bs s) ∧
      Below s (visitStates F bs s) := by
  induction bs generalizing s with
  | nil => exact ⟨hc, hj, below_refl s⟩
  | cons b bs ih =>
    rw [visitStates_cons]
    have hb := hbs b (List.mem_cons_self _ _)
    obtain ⟨h1, h2, h3⟩ := ih (fun c hc => hbs c (List.mem_cons_of_mem _ hc)) _
      (calm_visitBlock F hp b hb s hc) (outBelowSucc_visitBlock F b s hc hj)
    exact ⟨h1, h2, below_trans (calm_below F b s hc) h3⟩

/-- A visit of a block of the worklist keeps the state below every solution. -/
theorem visitBlock_below_solution (b : Nat) (hb : b ∈ worklist F) (X : State)
    (hX : Solution F X) (s : State) (h : Below s X) : Below (visitBlock F b s).1 X := by
  have hL := visitBlock_local F b s
  obtain ⟨hXl, hXo⟩ := hX b hb
  have hout : ∀ d i, i + d = (F.block b).body.length →
      (visitBlock F b s).1.Out (b, i) ⊆ X.Out (b, i) := by
    intro d
    induction d with
    | zero =>
      intro i hi
      have hT : ((b, i) : Key) = F.terminator b := by
        simp only [Function.terminator, Prod.mk.injEq, true_and]; omega
      rw [hT, visitBlock_Out_terminator, hXo]
      exact Finset.sdiff_subset.trans
        (Finset.union_subset ((h _).2.trans hXo.le) (succIn_mono F s X h b))
    | succ d ih =>
      intro i hi
      have hlt : i < (F.block b).body.length := by omega
      rw [(hL i (Nat.le_of_lt hlt)).2 hlt, (hL (i + 1) hlt).1,
        (hXl i (Nat.le_of_lt hlt)).2 hlt, (hXl (i + 1) hlt).1]
      exact Finset.union_subset_union
        (Finset.sdiff_subset_sdiff (ih (i + 1) (by omega)) subset_rfl) subset_rfl
  intro k
  obtain ⟨c, i⟩ := k
  by_cases hk : c = b ∧ i ≤ (F.block b).body.length
  · obtain ⟨rfl, hi⟩ := hk
    refine ⟨?_, hout _ i (Nat.add_sub_cancel' hi)⟩
    rw [(hL i hi).1, (hXl i hi).1]
    exact Finset.union_subset_union
      (Finset.sdiff_subset_sdiff (hout _ i (Nat.add_sub_cancel' hi)) subset_rfl) subset_rfl
  · have hfr : ((c, i) : Key).1 ≠ b ∨ (F.block b).body.length < ((c, i) : Key).2 := by
      by_cases hc : c = b
      · exact Or.inr (by simp only; by_contra hle; exact hk ⟨hc, by omega⟩)
      · exact Or.inl hc
    rw [visitBlock_In_frame_of_gt F b _ _ hfr, visitBlock_Out_frame_of_gt F b _ _ hfr]
    exact h _

theorem visitStates_below_solution (bs : List Nat) (hbs : ∀ b ∈ bs, b ∈ worklist F)
    (X : State) (hX : Solution F X) (s : State) (h : Below s X) :
    Below (visitStates F bs s) X := by
  induction bs generalizing s with
  | nil => exact h
  | cons b bs ih =>
    rw [visitStates_cons]
    exact ih (fun c hc => hbs c (List.mem_cons_of_mem _ hc)) _
      (visitBlock_below_solution F b (hbs b (List.mem_cons_self _ _)) X hX s h)

/-- In a round in the order `o` that leaves `change` unset, `In` of the first
instruction of a successor is, at the end of the round, inside its value at the
visit of the predecessor. -/
theorem succIn_subset_with (s0 : State) (pre post : List Nat) (b : Nat)
    (hnd : (pre ++ b :: post).Nodup)
    (hsucc : ∀ S ∈ F.successors b, S ∈ pre ++ b :: post)
    (hflag : (roundWith F (pre ++ b :: post) s0).2 = false) :
    succIn F (roundWith F (pre ++ b :: post) s0).1 b ⊆ succIn F (visitStates F pre s0) b := by
  intro v hv
  unfold succIn at hv ⊢
  rw [Finset.mem_biUnion] at hv ⊢
  obtain ⟨S, hS, hvS⟩ := hv
  refine ⟨S, hS, ?_⟩
  have hSo := hsucc S (List.mem_toFinset.mp hS)
  by_cases hpre : S ∈ pre
  · have hnot : (F.firstInsn S).1 ∉ b :: post := by
      intro hmem
      rw [List.nodup_append] at hnd
      exact hnd.2.2 hpre hmem
    rw [roundWith_fst, visitStates_append, visitStates_In_frame F (b :: post) _ _ hnot] at hvS
    exact hvS
  · rw [visitStates_In_frame F pre _ _ hpre]
    by_contra hcon
    have : (roundWith F (pre ++ b :: post) s0).2 = true :=
      (roundWith_snd F _ hnd s0).mpr ⟨S, hSo, v, hvS, hcon⟩
    rw [hflag] at this
    exact Bool.false_ne_true this

/-- On a function without phis, a round in any order over the worklist blocks
that leaves `change` unset ends in a solution of the dataflow equations. -/
theorem solution_of_no_change (hp : PhiFree F) (o : List Nat) (ho : o.Perm (worklist F))
    (s0 : State) (hc : Calm F s0) (hj : OutBelowSucc F s0)
    (hflag : (roundWith F o s0).2 = false) : Solution F (roundWith F o s0).1 := by
  have hnd : o.Nodup := ho.nodup_iff.mpr (worklist_nodup F)
  have hmem : ∀ b, b ∈ o ↔ b ∈ worklist F := fun b => ho.mem_iff
  obtain ⟨-, hj2, -⟩ := tame_visitStates F hp o (fun b hb => (hmem b).mp hb) s0 hc hj
  intro b hb
  obtain ⟨pre, post, hw⟩ := List.append_of_mem ((hmem b).mpr hb)
  subst hw
  refine ⟨?_, ?_⟩
  · rw [roundWith_fst]
    exact visitStates_local F b _ _ (Or.inl ((hmem b).mpr hb))
  · apply Finset.Subset.antisymm
    · rw [roundWith_fst]
      exact hj2 b hb
    · obtain ⟨hc3, -, -⟩ := tame_visitStates F hp pre
        (fun c hc => (hmem c).mp (List.mem_append_left _ hc)) s0 hc hj
      have hsub := succIn_subset_with F s0 pre post b hnd
        (fun S hS => (hmem S).mpr (succ_mem_worklist F b S hb hS)) hflag
      rw [roundWith_Out_terminator F s0 pre post b hnd, hc3.2]
      intro v hv
      rw [Finset.mem_sdiff, Finset.mem_union]
      exact ⟨Or.inr (hsub hv), by simp [State.init]⟩

/-- An invariant of the rounds holds before the last round of `runLoopWith`. -/
theorem runLoopWith_inv (o : List Nat) (P : State → Prop)
    (hP : ∀ s, P s → P (roundWith F o s).1) (fuel : Nat) (st fin : State) (k : Nat)
    (h0 : P st) (h : runLoopWith F o fuel st = some (fin, k)) :
    ∃ s0, P s0 ∧ (roundWith F o s0).1 = fin ∧ (roundWith F o s0).2 = false := by
  induction fuel generalizing st k with
  | zero => simp [runLoopWith] at h
  | succ n ih =>
    rw [runLoopWith] at h
    by_cases hc : (roundWith F o st).2 = true
    · rw [if_pos hc] at h
      rcases hr : runLoopWith F o n (roundWith F o st).1 with _ | ⟨fin1, k1⟩
      · simp [hr] at h
      · simp only [hr, Option.map_some', Option.some.injEq, Prod.mk.injEq] at h
        obtain ⟨rfl, -⟩ := h
        exact ih _ _ (hP st h0) hr
    · rw [if_neg hc] at h
      simp only [Option.some.injEq, Prod.mk.injEq] at h
      exact ⟨st, h0, h.1, by simpa using hc⟩

/-- On a function without phis, the result in any order over the worklist blocks
is a solution of the dataflow equations, below every other solution. -/
theorem runWith_least_solution (hp : PhiFree F) (o : List Nat) (ho : o.Perm (worklist F))
    (fuel k : Nat) (fin : State) (h : runWith F o fuel = some (fin, k)) :
    Solution F fin ∧ ∀ X, Solution F X → Below fin X := by
  have hmem : ∀ b, b ∈ o → b ∈ worklist F := fun b => ho.mem_iff.mp
  constructor
  · obtain ⟨s0, ⟨hc, hj⟩, rfl, hflag⟩ := runLoopWith_inv F o
      (fun s => Calm F s ∧ OutBelowSucc F s)
      (fun s hs => by
        rw [roundWith_fst]
        obtain ⟨h1, h2, -⟩ := tame_visitStates F hp o hmem s hs.1 hs.2
        exact ⟨h1, h2⟩)
      fuel State.init fin k ⟨calm_init F, outBelowSucc_init F⟩ h
    exact solution_of_no_change F hp o ho s0 hc hj hflag
  · intro X hX
    obtain ⟨s0, hs0, rfl, -⟩ := runLoopWith_inv F o (fun s => Below s X)
      (fun s hs => by
        rw [roundWith_fst]
        exact visitStates_below_solution F o hmem X hX s hs)
      fuel State.init fin k (below_init X) h
    rw [roundWith_fst]
    exact visitStates_below_solution F o hmem X hX s0 hs0

/-- On a function without phis, any two orders over the worklist blocks give
the same `In` and `Out` maps. -/
theorem runWith_unique (hp : PhiFree F) (o1 o2 : List Nat) (h1 : o1.Perm (worklist F))
    (h2 : o2.Perm (worklist F)) (f1 f2 k1 k2 : Nat) (s1 s2 : State)
    (r1 : runWith F o1 f1 = some (s1, k1)) (r2 : runWith F o2 f2 = some (s2, k2)) :
    ∀ n, s1.In n = s2.In n ∧ s1.Out n = s2.Out n := by
  obtain ⟨hs1, hl1⟩ := runWith_least_solution F hp o1 h1 f1 k1 s1 r1
  obtain ⟨hs2, hl2⟩ := runWith_least_solution F hp o2 h2 f2 k2 s2 r2
  intro n
  exact ⟨Finset.Subset.antisymm (hl1 s2 hs2 n).1 (hl2 s1 hs1 n).1,
    Finset.Subset.antisymm (hl1 s2 hs2 n).2 (hl2 s1 hs1 n).2⟩

end Order

section OrderTermination
variable (F : Function)

theorem stateAfterWith_tame (hp : PhiFree F) (o : List Nat) (ho : o.Perm (worklist F))
    (n : Nat) :
    Calm F (stateAfterWith F o n) ∧ OutBelowSucc F (stateAfterWith F o n) ∧
      Bounded F (stateAfterWith F o n) := by
  have hmem : ∀ b, b ∈ o → b ∈ worklist F := fun b => ho.mem_iff.mp
  induction n with
  | zero => exact ⟨calm_init F, outBelowSucc_init F, bounded_init F⟩
  | succ n ih =>
    obtain ⟨h1, h2, h3⟩ := ih
    obtain ⟨h4, h5, -⟩ := tame_visitStates F hp o hmem _ h1 h2
    rw [stateAfterWith, roundWith_fst]
    exact ⟨h4, h5, visitStates_bounded F o hmem _ h3⟩

theorem potential_lt_with (hp : PhiFree F) (o : List Nat) (ho : o.Perm (worklist F))
    (n : Nat) (hflag : (roundWith F o (stateAfterWith F o n)).2 = true) :
    potential F (stateAfterWith F o n) < potential F (stateAfterWith F o (n + 1)) := by
  have hmem : ∀ b, b ∈ o → b ∈ worklist F := fun b => ho.mem_iff.mp
  obtain ⟨h1, h2, -⟩ := stateAfterWith_tame F hp o ho n
  obtain ⟨-, -, h3⟩ := tame_visitStates F hp o hmem _ h1 h2
  obtain ⟨b, hb, v, hv1, hv2⟩ :=
    (roundWith_snd F o (ho.nodup_iff.mpr (worklist_nodup F)) _).mp hflag
  apply potential_lt F
  · rw [stateAfterWith, roundWith_fst]
    exact h3
  · exact ⟨b, hmem b hb, v, hv1, hv2⟩

theorem potential_ge_with (hp : PhiFree F) (o : List Nat) (ho : o.Perm (worklist F))
    (j : Nat) (h : ∀ i < j, (roundWith F o (stateAfterWith F o i)).2 = true) :
    j ≤ potential F (stateAfterWith F o j) := by
  induction j with
  | zero => exact Nat.zero_le _
  | succ j ih =>
    have h1 := ih (fun i hi => h i (Nat.lt_succ_of_lt hi))
    have h2 := potential_lt_with F hp o ho j (h j (Nat.lt_succ_self j))
    omega

theorem exists_flag_false_with (hp : PhiFree F) (o : List Nat) (ho : o.Perm (worklist F)) :
    ∃ n, n ≤ (worklist F).length * (genUniverse F).card ∧
      (roundWith F o (stateAfterWith F o n)).2 = false := by
  by_contra hcon
  push_neg at hcon
  have hall : ∀ i < (worklist F).length * (genUniverse F).card + 1,
      (roundWith F o (stateAfterWith F o i)).2 = true := by
    intro i hi
    have := hcon i (by omega)
    simpa using this
  have h1 := potential_ge_with F hp o ho _ hall
  have h2 : potential F (stateAfterWith F o ((worklist F).length * (genUniverse F).card + 1)) ≤
      (worklist F).length * (genUniverse F).card :=
    potential_le_mul F _ _
      (fun _ _ => Finset.card_le_card ((stateAfterWith_tame F hp o ho _).2.2 _).1)
  omega

theorem runLoopWith_of_flag (o : List Nat) (j m : Nat)
    (h : (roundWith F o (stateAfterWith F o (m + j))).2 = false) :
    ∃ r, runLoopWith F o (j + 1) (stateAfterWith F o m) = some r := by
  induction j generalizing m with
  | zero =>
    rw [runLoopWith, if_neg]
    · exact ⟨_, rfl⟩
    · simpa using h
  | succ j ih =>
    rw [runLoopWith]
    by_cases hc : (roundWith F o (stateAfterWith F o m)).2 = true
    · rw [if_pos hc]
      obtain ⟨r, hr⟩ := ih (m + 1) (by rw [← h]; congr 3; omega)
      have : (roundWith F o (stateAfterWith F o m)).1 = stateAfterWith F o (m + 1) := rfl
      rw [this, hr]
      exact ⟨_, rfl⟩
    · rw [if_neg hc]
      exact ⟨_, rfl⟩

/-- On a function without phis the driver converges in every order over the
worklist blocks. -/
theorem runWith_terminates (hp : PhiFree F) (o : List Nat) (ho : o.Perm (worklist F)) :
    ∃ fuel r, fuel ≤ (worklist F).length * (genUniverse F).card + 1 ∧
      runWith F o fuel = some r := by
  obtain ⟨n, hn, hflag⟩ := exists_flag_false_with F hp o ho
  obtain ⟨r, hr⟩ := runLoopWith_of_flag F o n 0 (by simpa using hflag)
  exact ⟨n + 1, r, by omega, hr⟩

end OrderTermination

/-! ## The scenario families -/

section Scenario
variable (F : Function)

/-- A property that the visit of the first instruction of a block establishes
holds after the walk over the block. -/
theorem walk_first (b : Nat) (P : State → Prop) (h : ∀ st, P (visitInsn F b 0 st)) :
    ∀ k st, P (walk F b (k + 1) st) := by
  intro k
  induction k with
  | zero => intro st; exact h st
  | succ k ih => intro st; exact ih (visitInsn F b (k + 1) st)

/-- A visit of a block whose new `Out` of the terminator is inside that of a state
`t` that satisfies the equations of the block, up to the values of `E`, yields
`In` sets inside those of `t`, up to the values of `E`. -/
theorem visitBlock_In_subset (b : Nat) (V t : State) (E : Finset Value) (hloc : Local F b t)
    (hT : (visitBlock F b V).1.Out (F.terminator b) ⊆ t.Out (F.terminator b) ∪ E) :
    ∀ i, i ≤ (F.block b).body.length → (visitBlock F b V).1.In (b, i) ⊆ t.In (b, i) ∪ E := by
  have hl := visitBlock_local F b V
  have key : ∀ i, i ≤ (F.block b).body.length →
      (visitBlock F b V).1.Out (b, i) ⊆ t.Out (b, i) ∪ E →
      (visitBlock F b V).1.In (b, i) ⊆ t.In (b, i) ∪ E := by
    intro i hi hO
    rw [(hl i hi).1, (hloc i hi).1]
    intro v hv
    simp only [Finset.mem_union, Finset.mem_sdiff] at hv ⊢
    rcases hv with ⟨hv, hk⟩ | hv
    · rcases Finset.mem_union.mp (hO hv) with h | h
      · exact Or.inl (Or.inl ⟨h, hk⟩)
      · exact Or.inr h
    · exact Or.inl (Or.inr hv)
  intro i hi
  obtain ⟨d, hd⟩ : ∃ d, i + d = (F.block b).body.length :=
    ⟨(F.block b).body.length - i, by omega⟩
  induction d generalizing i with
  | zero =>
    have : (b, i) = F.terminator b := by simp only [Function.terminator]; rw [← hd]; rfl
    exact key i hi (by rw [this]; exact hT)
  | succ d ih =>
    refine key i hi ?_
    rw [(hl i hi).2 (by omega), (hloc i hi).2 (by omega)]
    exact ih (i + 1) (by omega) (by omega)
theorem not_phi_of_insts (b : Nat) (h : ∀ I ∈ (F.block b).insts, I.isPhi = false) :
    ∀ i ≤ (F.block b).body.length, (F.insn b i).isPhi = false := by
  intro i hi
  have hi2 : i < (F.block b).insts.length := by
    simp only [BasicBlock.insts, List.length_append, List.length_singleton]; omega
  have : F.insn b i = (F.block b).insts[i] := by
    unfold Function.insn
    rw [List.getD_eq_getElem _ _ hi2]
  rw [this]
  exact h _ (List.getElem_mem hi2)

/-- The walk over a block whose instructions after the first are not phis ends
with the visit of the first instruction, in a state with the `OutKill` of the
start. -/
theorem walk_eq_visit_first (b : Nat) :
    ∀ k st, (∀ i, 1 ≤ i → i ≤ k → (F.insn b i).isPhi = false) →
      ∃ st1, st1.OutKill = st.OutKill ∧ walk F b (k + 1) st = visitInsn F b 0 st1 := by
  intro k
  induction k with
  | zero => intro st _; exact ⟨st, rfl, rfl⟩
  | succ k ih =>
    intro st hp
    obtain ⟨st1, h1, h2⟩ := ih (visitInsn F b (k + 1) st) (fun i hi1 hi2 => hp i hi1 (by omega))
    refine ⟨st1, ?_, h2⟩
    rw [h1, visitInsn_OutKill_of_not_phi F b (k + 1) st (hp (k + 1) (by omega) le_rfl)]

theorem insn_mem_insts (b i : Nat) (hi : i ≤ (F.block b).body.length) :
    F.insn b i ∈ (F.block b).insts := by
  have hi2 : i < (F.block b).insts.length := by
    simp only [BasicBlock.insts, List.length_append, List.length_singleton]; omega
  have : F.insn b i = (F.block b).insts[i] := by
    unfold Function.insn
    rw [List.getD_eq_getElem _ _ hi2]
  rw [this]
  exact List.getElem_mem hi2

theorem phiInsert_OutKill_frame (b : Nat) (I : Instruction) (st : State) (k : Key)
    (h : ∀ p ∈ F.predecessors b, F.terminator p ≠ k) :
    (phiInsert F b I st).OutKill k = st.OutKill k := by
  unfold phiInsert
  generalize F.predecessors b = ps at h
  induction ps generalizing st with
  | nil => rfl
  | cons p ps ih =>
    rw [List.foldl_cons, ih _ (fun q hq => h q (List.mem_cons_of_mem _ hq))]
    simp [Function.update_noteq (h p (List.mem_cons_self _ _)).symm]

theorem phiErase_OutKill_frame (I : Instruction) (st : State) (k : Key)
    (h : ∀ vp ∈ I.incoming, F.terminator vp.2 ≠ k) :
    (phiErase F I st).OutKill k = st.OutKill k := by
  unfold phiErase
  generalize I.incoming = l at h
  induction l generalizing st with
  | nil => rfl
  | cons p ps ih =>
    rw [List.foldl_cons, ih _ (fun q hq => h q (List.mem_cons_of_mem _ hq))]
    split
    · simp [Function.update_noteq (h p (List.mem_cons_self _ _)).symm]
    · rfl

/-- The visit of an instruction changes `OutKill` only at the terminators of the
predecessors of its block and of the incoming blocks it names. -/
theorem visitInsn_OutKill_frame (b i : Nat) (st : State) (k : Key)
    (hp : ∀ p ∈ F.predecessors b, F.terminator p ≠ k)
    (hi : ∀ vp ∈ (F.insn b i).incoming, F.terminator vp.2 ≠ k) :
    (visitInsn F b i st).OutKill k = st.OutKill k := by
  unfold visitInsn
  simp only [setIn_OutKill]
  split
  · rw [phiErase_OutKill_frame F _ _ k hi, phiInsert_OutKill_frame F b _ _ k hp]
    split <;> rfl
  · split <;> rfl

theorem walk_OutKill_frame (b n : Nat) (st : State) (k : Key)
    (hp : ∀ p ∈ F.predecessors b, F.terminator p ≠ k)
    (hi : ∀ i < n, ∀ vp ∈ (F.insn b i).incoming, F.terminator vp.2 ≠ k) :
    (walk F b n st).OutKill k = st.OutKill k := by
  induction n generalizing st with
  | zero => rfl
  | succ n ih =>
    rw [walk, ih _ (fun i h => hi i (by omega)),
      visitInsn_OutKill_frame F b n st k hp (hi n (by omega))]

theorem visitBlock_OutKill_frame (b : Nat) (st : State) (k : Key)
    (hp : ∀ p ∈ F.predecessors b, F.terminator p ≠ k)
    (hi : ∀ I ∈ (F.block b).insts, ∀ vp ∈ I.incoming, F.terminator vp.2 ≠ k) :
    (visitBlock F b st).1.OutKill k = st.OutKill k := by
  unfold visitBlock
  simp only
  rw [walk_OutKill_frame F b _ _ k hp
    (fun i h => hi _ (insn_mem_insts F b i (by omega))), mergeSuccessors_OutKill]
end Scenario

section SelfLoop
variable (body0 : List Instruction) (term0 : Instruction) (a : Value) (j : Nat)
  (rest : List Instruction) (termL : Instruction)

theorem worklist_selfLoopOf : worklist (selfLoopOf body0 term0 a j rest termL) = [1, 0] := rfl

theorem round_selfLoopOf (s : State) :
    (round (selfLoopOf body0 term0 a j rest termL) s).1 =
      (visitBlock (selfLoopOf body0 term0 a j rest termL) 0
        (visitBlock (selfLoopOf body0 term0 a j rest termL) 1 s).1).1 := by
  rw [round_fst, worklist_selfLoopOf]; rfl
/-- The visit of the loop block leaves the loop-updated value out of `OutKill` of
the terminator of the loop block. -/
theorem selfLoopOf_outKill (s : State) :
    Value.inst 1 j ∉ (visitBlock (selfLoopOf body0 term0 a j rest termL) 1 s).1.OutKill
      ((selfLoopOf body0 term0 a j rest termL).terminator 1) := by
  unfold visitBlock
  refine walk_first (selfLoopOf body0 term0 a j rest termL) 1
    (fun st => Value.inst 1 j ∉ st.OutKill ((selfLoopOf body0 term0 a j rest termL).terminator 1))
    (fun st => ?_) _ _
  have hI : (selfLoopOf body0 term0 a j rest termL).insn 1 0 =
      Instruction.phi [(a, 0), (.inst 1 j, 1)] := rfl
  simp [visitInsn, hI, Instruction.isPhi, phiErase, Instruction.incoming, Value.isTracked]

theorem selfLoopOf_gen :
    Value.inst 1 j ∈ gen (selfLoopOf body0 term0 a j rest termL) 1 0 := by
  have hI : (selfLoopOf body0 term0 a j rest termL).insn 1 0 =
      Instruction.phi [(a, 0), (.inst 1 j, 1)] := rfl
  simp [gen, hI, trackedOperands, Instruction.operands, Value.isTracked]
theorem selfLoopOf_mem_depth_first (b : Nat) (hb : b = 0 ∨ b = 1) :
    b ∈ depth_first (selfLoopOf body0 term0 a j rest termL) := by
  rw [← mem_worklist, worklist_selfLoopOf]
  rcases hb with rfl | rfl <;> simp

/-- At the end of every round the loop-updated value is in `In` of the phi. -/
theorem selfLoopOf_mem_In (s : State) :
    Value.inst 1 j ∈ (round (selfLoopOf body0 term0 a j rest termL) s).1.In (1, 0) := by
  rw [((round_local _ 1 (selfLoopOf_mem_depth_first body0 term0 a j rest termL 1 (Or.inr rfl)) s)
    0 (Nat.zero_le _)).1]
  exact Finset.mem_union_right _ (selfLoopOf_gen body0 term0 a j rest termL)

/-- A round started from the maps at the end of a round puts the loop-updated
value into `Out` of the terminator of the loop block. -/
theorem selfLoopOf_mem_Out (h0 : ∀ I ∈ body0 ++ [term0], I.isPhi = false) (s : State) :
    Value.inst 1 j ∈
      (round (selfLoopOf body0 term0 a j rest termL)
        (round (selfLoopOf body0 term0 a j rest termL) s).1).1.Out
        ((selfLoopOf body0 term0 a j rest termL).terminator 1) := by
  have hin := selfLoopOf_mem_In body0 term0 a j rest termL s
  have hk : Value.inst 1 j ∉ (round (selfLoopOf body0 term0 a j rest termL) s).1.OutKill
      ((selfLoopOf body0 term0 a j rest termL).terminator 1) := by
    rw [round_selfLoopOf, visitBlock_OutKill_of_not_phi _ 0 _
      (not_phi_of_insts (selfLoopOf body0 term0 a j rest termL) 0 h0)]
    exact selfLoopOf_outKill body0 term0 a j rest termL s
  generalize (round (selfLoopOf body0 term0 a j rest termL) s).1 = t at hin hk
  rw [round_selfLoopOf, visitBlock_Out_frame _ 0 _ _ (by show (1 : Nat) ≠ 0; decide),
    visitBlock_Out_terminator]
  refine Finset.mem_sdiff.mpr ⟨Finset.mem_union_right _ ?_, hk⟩
  exact Finset.mem_biUnion.mpr ⟨1, by show (1 : Nat) ∈ [1].toFinset; decide, hin⟩

/-- The first round sets `change`. -/
theorem selfLoopOf_change_first :
    changeAfter (selfLoopOf body0 term0 a j rest termL) 0 = true := by
  refine (round_snd _ _).mpr ⟨1, by rw [worklist_selfLoopOf]; simp, Value.inst 1 j, ?_, ?_⟩
  · exact selfLoopOf_mem_In body0 term0 a j rest termL State.init
  · exact Finset.not_mem_empty _

/-- The second round leaves `change` unset. -/
theorem selfLoopOf_change_second (h0 : ∀ I ∈ body0 ++ [term0], I.isPhi = false) :
    changeAfter (selfLoopOf body0 term0 a j rest termL) 1 = false := by
  have hnp := not_phi_of_insts (selfLoopOf body0 term0 a j rest termL) 0 h0
  have hrig := killRigid_visitBlock (selfLoopOf body0 term0 a j rest termL) 1
  rw [← Bool.not_eq_true]
  intro hflag
  obtain ⟨b, hb, v, hv, hnv⟩ := (round_snd _ _).mp hflag
  -- the maps at the end of round 1 and after the visit of the loop block in round 2
  have hs1 : stateAfter (selfLoopOf body0 term0 a j rest termL) 1 =
      (visitBlock (selfLoopOf body0 term0 a j rest termL) 0
        (visitBlock (selfLoopOf body0 term0 a j rest termL) 1 State.init).1).1 :=
    round_selfLoopOf body0 term0 a j rest termL State.init
  have hloc1 : Local (selfLoopOf body0 term0 a j rest termL) 1
      (stateAfter (selfLoopOf body0 term0 a j rest termL) 1) :=
    round_local _ 1 (selfLoopOf_mem_depth_first body0 term0 a j rest termL 1 (Or.inr rfl)) _
  have hloc0 : Local (selfLoopOf body0 term0 a j rest termL) 0
      (stateAfter (selfLoopOf body0 term0 a j rest termL) 1) :=
    round_local _ 0 (selfLoopOf_mem_depth_first body0 term0 a j rest termL 0 (Or.inl rfl)) _
  -- the visit of the loop block adds nothing to `In` of the phi
  have h1 : (visitBlock (selfLoopOf body0 term0 a j rest termL) 1
      (stateAfter (selfLoopOf body0 term0 a j rest termL) 1)).1.In (1, 0) ⊆
      (stateAfter (selfLoopOf body0 term0 a j rest termL) 1).In (1, 0) := by
    have h := visitBlock_In_subset _ 1 (stateAfter (selfLoopOf body0 term0 a j rest termL) 1)
      (stateAfter (selfLoopOf body0 term0 a j rest termL) 1)
      ((stateAfter (selfLoopOf body0 term0 a j rest termL) 1).In (1, 0)) hloc1 (by
        rw [visitBlock_Out_terminator]
        intro x hx
        rcases Finset.mem_union.mp (Finset.mem_sdiff.mp hx).1 with h | h
        · exact Finset.mem_union_left _ h
        · obtain ⟨S, hS, hxS⟩ := Finset.mem_biUnion.mp h
          have : S = 1 := by simpa [Function.successors, Function.block, selfLoopOf] using hS
          subst this
          exact Finset.mem_union_right _ hxS) 0 (Nat.zero_le _)
    simpa using h
  rw [worklist_selfLoopOf] at hb
  change v ∈ (round _ (stateAfter (selfLoopOf body0 term0 a j rest termL) 1)).1.In _ at hv
  change v ∉ (stateAfter (selfLoopOf body0 term0 a j rest termL) 1).In _ at hnv
  rw [round_selfLoopOf] at hv
  simp only [List.mem_cons, List.mem_singleton, List.not_mem_nil, or_false] at hb
  rcases hb with rfl | rfl
  · rw [visitBlock_In_frame _ 0 _ _ (by show (1 : Nat) ≠ 0; decide)] at hv
    exact hnv (h1 hv)
  · -- the entry block
    set t := (visitBlock (selfLoopOf body0 term0 a j rest termL) 1
      (stateAfter (selfLoopOf body0 term0 a j rest termL) 1)).1 with ht
    have hloct : Local (selfLoopOf body0 term0 a j rest termL) 0 t :=
      visitBlock_local_preserved _ 0 1 _ hloc0
    have hK : t.OutKill =
        (visitBlock (selfLoopOf body0 term0 a j rest termL) 1 State.init).1.OutKill := by
      have e1 : (stateAfter (selfLoopOf body0 term0 a j rest termL) 1).OutKill =
          (visitBlock (selfLoopOf body0 term0 a j rest termL) 1 State.init).1.OutKill := by
        rw [hs1, visitBlock_OutKill_of_not_phi _ 0 _ hnp]
      rw [ht, killRigid_congr hrig _ _ e1]
      exact killRigid_idem hrig State.init
    have hOut : t.Out ((selfLoopOf body0 term0 a j rest termL).terminator 0) =
        ((visitBlock (selfLoopOf body0 term0 a j rest termL) 1 State.init).1.Out
            ((selfLoopOf body0 term0 a j rest termL).terminator 0) ∪
          ((selfLoopOf body0 term0 a j rest termL).successors 0).toFinset.biUnion
            (fun S => (visitBlock (selfLoopOf body0 term0 a j rest termL) 1 State.init).1.In
              ((selfLoopOf body0 term0 a j rest termL).firstInsn S))) \
          (visitBlock (selfLoopOf body0 term0 a j rest termL) 1 State.init).1.OutKill
            ((selfLoopOf body0 term0 a j rest termL).terminator 0) := by
      rw [ht, visitBlock_Out_frame _ 1 _ _ (by show (0 : Nat) ≠ 1; decide), hs1,
        visitBlock_Out_terminator]
    have hIn1 : (stateAfter (selfLoopOf body0 term0 a j rest termL) 1).In (1, 0) =
        (visitBlock (selfLoopOf body0 term0 a j rest termL) 1 State.init).1.In (1, 0) := by
      rw [hs1, visitBlock_In_frame _ 0 _ _ (by decide)]
    have h := visitBlock_In_subset _ 0 t t ∅ hloct (by
        rw [visitBlock_Out_terminator, Finset.union_empty]
        intro x hx
        obtain ⟨hx1, hx2⟩ := Finset.mem_sdiff.mp hx
        rcases Finset.mem_union.mp hx1 with h | h
        · exact h
        · obtain ⟨S, hS, hxS⟩ := Finset.mem_biUnion.mp h
          have : S = 1 := by simpa [Function.successors, Function.block, selfLoopOf] using hS
          subst this
          rw [hOut]
          rw [hK] at hx2
          refine Finset.mem_sdiff.mpr ⟨Finset.mem_union_right _ ?_, hx2⟩
          refine Finset.mem_biUnion.mpr ⟨1, by show (1 : Nat) ∈ [1].toFinset; decide, ?_⟩
          have := h1 hxS
          rw [hIn1] at this
          exact this) 0 (Nat.zero_le _)
    rw [Finset.union_empty] at h
    rw [visitBlock_In_frame _ 1 _ _ (by decide)] at h
    exact hnv (h hv)
end SelfLoop

section Diamond
variable (body0 : List Instruction) (term0 : Instruction) (body1 : List Instruction)
  (term1 : Instruction) (body2 : List Instruction) (term2 : Instruction) (i1 i2 : Nat)
  (rest3 : List Instruction) (term3 : Instruction)

theorem worklist_diamondOf :
    worklist (diamondOf body0 term0 body1 term1 body2 term2 i1 i2 rest3 term3) = [2, 3, 1, 0] :=
  rfl

theorem round_diamondOf (s : State) :
    (round (diamondOf body0 term0 body1 term1 body2 term2 i1 i2 rest3 term3) s).1 =
      (visitBlock (diamondOf body0 term0 body1 term1 body2 term2 i1 i2 rest3 term3) 0
        (visitBlock (diamondOf body0 term0 body1 term1 body2 term2 i1 i2 rest3 term3) 1
          (visitBlock (diamondOf body0 term0 body1 term1 body2 term2 i1 i2 rest3 term3) 3
            (visitBlock (diamondOf body0 term0 body1 term1 body2 term2 i1 i2 rest3 term3) 2
              s).1).1).1).1 := by
  rw [round_fst, worklist_diamondOf]; rfl

theorem diamondOf_not_phi (h3 : ∀ I ∈ rest3 ++ [term3], I.isPhi = false) :
    ∀ i, 1 ≤ i →
      i ≤ ((diamondOf body0 term0 body1 term1 body2 term2 i1 i2 rest3 term3).block 3).body.length →
      ((diamondOf body0 term0 body1 term1 body2 term2 i1 i2 rest3 term3).insn 3 i).isPhi =
        false := by
  intro i hi1 hi2
  obtain ⟨m, rfl⟩ : ∃ m, i = m + 1 := ⟨i - 1, by omega⟩
  have hlen : ((diamondOf body0 term0 body1 term1 body2 term2 i1 i2 rest3 term3).block 3).body.length
      = rest3.length + 1 := rfl
  have hm : m < (rest3 ++ [term3]).length := by
    simp only [List.length_append, List.length_singleton]; omega
  have : (diamondOf body0 term0 body1 term1 body2 term2 i1 i2 rest3 term3).insn 3 (m + 1) =
      (rest3 ++ [term3])[m] := by
    show (rest3 ++ [term3]).getD m term3 = _
    rw [List.getD_eq_getElem _ _ hm]
  rw [this]
  exact h3 _ (List.getElem_mem hm)

/-- The visit of the join block: what it does to `OutKill` of the terminators of
the two sides. -/
theorem diamondOf_outKill (h3 : ∀ I ∈ rest3 ++ [term3], I.isPhi = false) (s : State) :
    (visitBlock (diamondOf body0 term0 body1 term1 body2 term2 i1 i2 rest3 term3) 3 s).1.OutKill
        ((diamondOf body0 term0 body1 term1 body2 term2 i1 i2 rest3 term3).terminator 1) =
      (s.OutKill ((diamondOf body0 term0 body1 term1 body2 term2 i1 i2 rest3 term3).terminator 1) ∪
        {Value.inst 1 i1, Value.inst 2 i2}).erase (Value.inst 1 i1) ∧
    (visitBlock (diamondOf body0 term0 body1 term1 body2 term2 i1 i2 rest3 term3) 3 s).1.OutKill
        ((diamondOf body0 term0 body1 term1 body2 term2 i1 i2 rest3 term3).terminator 2) =
      (s.OutKill ((diamondOf body0 term0 body1 term1 body2 term2 i1 i2 rest3 term3).terminator 2) ∪
        {Value.inst 1 i1, Value.inst 2 i2}).erase (Value.inst 2 i2) := by
  have hI : (diamondOf body0 term0 body1 term1 body2 term2 i1 i2 rest3 term3).insn 3 0 =
      Instruction.phi [(.inst 1 i1, 1), (.inst 2 i2, 2)] := rfl
  have hp : (diamondOf body0 term0 body1 term1 body2 term2 i1 i2 rest3 term3).predecessors 3 =
      [1, 2] := rfl
  have hT1 : (diamondOf body0 term0 body1 term1 body2 term2 i1 i2 rest3 term3).terminator 1 =
      (1, body1.length) := rfl
  have hT2 : (diamondOf body0 term0 body1 term1 body2 term2 i1 i2 rest3 term3).terminator 2 =
      (2, body2.length) := rfl
  have hlen : ((diamondOf body0 term0 body1 term1 body2 term2 i1 i2 rest3 term3).block 3).body.length
      = rest3.length + 1 := rfl
  obtain ⟨st, hK, hw⟩ := walk_eq_visit_first
    (diamondOf body0 term0 body1 term1 body2 term2 i1 i2 rest3 term3) 3
    ((diamondOf body0 term0 body1 term1 body2 term2 i1 i2 rest3 term3).block 3).body.length
    (mergeSuccessors (diamondOf body0 term0 body1 term1 body2 term2 i1 i2 rest3 term3) 3 s)
    (diamondOf_not_phi body0 term0 body1 term1 body2 term2 i1 i2 rest3 term3 h3)
  rw [mergeSuccessors_OutKill] at hK
  unfold visitBlock
  simp only [hw]
  rw [← hK]
  simp [visitInsn, hI, Instruction.isPhi, phiErase, phiInsert, hp, Instruction.incoming,
    Value.isTracked, trackedOperands, Instruction.operands, hT1, hT2, Function.update, hlen]
/-- The visit of the join block in a state with empty `Out` of its terminator,
when the instructions after the phi use no value but the phi. -/
theorem diamondOf_join
    (hg : ∀ i, 1 ≤ i → i ≤ rest3.length + 1 →
      gen (diamondOf body0 term0 body1 term1 body2 term2 i1 i2 rest3 term3) 3 i ⊆
        {Value.inst 3 0})
    (s : State)
    (hs : s.Out ((diamondOf body0 term0 body1 term1 body2 term2 i1 i2 rest3 term3).terminator 3)
      = ∅) :
    (visitBlock (diamondOf body0 term0 body1 term1 body2 term2 i1 i2 rest3 term3) 3 s).1.Out
        ((diamondOf body0 term0 body1 term1 body2 term2 i1 i2 rest3 term3).terminator 3) = ∅ ∧
    (visitBlock (diamondOf body0 term0 body1 term1 body2 term2 i1 i2 rest3 term3) 3 s).1.In (3, 0) =
      {Value.inst 1 i1, Value.inst 2 i2} := by
  have hT := visitBlock_Out_terminator
    (diamondOf body0 term0 body1 term1 body2 term2 i1 i2 rest3 term3) 3 s
  have hO : (visitBlock (diamondOf body0 term0 body1 term1 body2 term2 i1 i2 rest3 term3) 3 s).1.Out
      ((diamondOf body0 term0 body1 term1 body2 term2 i1 i2 rest3 term3).terminator 3) = ∅ := by
    have hsucc : (diamondOf body0 term0 body1 term1 body2 term2 i1 i2 rest3 term3).successors 3
        = [] := rfl
    rw [hsucc, hs] at hT
    rw [hT]
    simp
  refine ⟨hO, ?_⟩
  have hl := visitBlock_local (diamondOf body0 term0 body1 term1 body2 term2 i1 i2 rest3 term3) 3 s
  have hlen : ((diamondOf body0 term0 body1 term1 body2 term2 i1 i2 rest3 term3).block 3).body.length
      = rest3.length + 1 := rfl
  have hI0 : (diamondOf body0 term0 body1 term1 body2 term2 i1 i2 rest3 term3).insn 3 0 =
      Instruction.phi [(.inst 1 i1, 1), (.inst 2 i2, 2)] := rfl
  -- after the phi only the phi is live
  have hsub : ∀ d i, i + d = rest3.length + 1 → 1 ≤ i →
      (visitBlock (diamondOf body0 term0 body1 term1 body2 term2 i1 i2 rest3 term3) 3 s).1.In (3, i)
        ⊆ {Value.inst 3 0} := by
    intro d
    induction d with
    | zero =>
      intro i hi h1
      have hi' : i = rest3.length + 1 := by omega
      subst hi'
      rw [(hl _ (by omega)).1]
      have hO' : (visitBlock (diamondOf body0 term0 body1 term1 body2 term2 i1 i2 rest3 term3) 3
          s).1.Out (3, rest3.length + 1) = ∅ := hO
      rw [hO', Finset.empty_sdiff, Finset.empty_union]
      exact hg _ h1 le_rfl
    | succ d ih =>
      intro i hi h1
      rw [(hl i (by omega)).1, (hl i (by omega)).2 (by omega)]
      exact Finset.union_subset (Finset.sdiff_subset.trans (ih (i + 1) (by omega) (by omega)))
        (hg i h1 (by omega))
  have h0 := hl 0 (by omega)
  rw [h0.1, h0.2 (by omega)]
  have h1 := hsub rest3.length 1 (by omega) le_rfl
  ext v
  have h1v := @h1 v
  simp only [Finset.mem_singleton] at h1v
  simp [kill, gen, hI0, trackedOperands, Instruction.operands, Value.isTracked]
  constructor
  · rintro (h | ⟨hv, hne⟩ | h)
    · exact Or.inl h
    · exact absurd (h1v hv) hne
    · exact Or.inr h
  · rintro (h | h)
    · exact Or.inl h
    · exact Or.inr (Or.inr h)
/-- The visit of a side block whose phis take their values from the entry block
changes `OutKill` only at the terminator of the entry block. -/
theorem diamondOf_outKill_side (h1 : ∀ I ∈ body1 ++ [term1], ∀ vp ∈ I.incoming, vp.2 = 0)
    (h2 : ∀ I ∈ body2 ++ [term2], ∀ vp ∈ I.incoming, vp.2 = 0) (b : Nat) (hb : b = 1 ∨ b = 2)
    (st : State) (k : Key) (hk : k.1 ≠ 0) :
    (visitBlock (diamondOf body0 term0 body1 term1 body2 term2 i1 i2 rest3 term3) b st).1.OutKill k =
      st.OutKill k := by
  have ht : ∀ vp : Value × Nat, vp.2 = 0 →
      (diamondOf body0 term0 body1 term1 body2 term2 i1 i2 rest3 term3).terminator vp.2 ≠ k := by
    intro vp h0 hk2
    rw [h0] at hk2
    exact hk (by rw [← hk2]; rfl)
  refine visitBlock_OutKill_frame _ b st k ?_ ?_
  · have hp : (diamondOf body0 term0 body1 term1 body2 term2 i1 i2 rest3 term3).predecessors b = [0] := by
      rcases hb with rfl | rfl <;> rfl
    rw [hp]
    intro p hp0
    exact ht (Value.arg 0, p) (by simpa using hp0)
  · rcases hb with rfl | rfl
    · exact fun I hI vp hvp => ht vp (h1 I hI vp hvp)
    · exact fun I hI vp hvp => ht vp (h2 I hI vp hvp)

/-- One round on a function of the family `diamondOf`, in terms of the maps at
its start. -/
theorem diamondOf_round (h0 : ∀ I ∈ body0 ++ [term0], I.isPhi = false)
    (h1 : ∀ I ∈ body1 ++ [term1], ∀ vp ∈ I.incoming, vp.2 = 0)
    (h2 : ∀ I ∈ body2 ++ [term2], ∀ vp ∈ I.incoming, vp.2 = 0)
    (h3 : ∀ I ∈ rest3 ++ [term3], I.isPhi = false)
    (hg : ∀ i, 1 ≤ i → i ≤ rest3.length + 1 →
      gen (diamondOf body0 term0 body1 term1 body2 term2 i1 i2 rest3 term3) 3 i ⊆
        {Value.inst 3 0})
    (s : State)
    (hs3 : s.Out ((diamondOf body0 term0 body1 term1 body2 term2 i1 i2 rest3 term3).terminator 3) = ∅)
    (hk1 : s.OutKill ((diamondOf body0 term0 body1 term1 body2 term2 i1 i2 rest3 term3).terminator 1) ⊆
      {Value.inst 2 i2})
    (hk2 : s.OutKill ((diamondOf body0 term0 body1 term1 body2 term2 i1 i2 rest3 term3).terminator 2) ⊆
      {Value.inst 1 i1})
    (ho1 : s.Out ((diamondOf body0 term0 body1 term1 body2 term2 i1 i2 rest3 term3).terminator 1) ⊆
      {Value.inst 1 i1}) :
    (round (diamondOf body0 term0 body1 term1 body2 term2 i1 i2 rest3 term3) s).1.Out
      ((diamondOf body0 term0 body1 term1 body2 term2 i1 i2 rest3 term3).terminator 3) = ∅ ∧
    (round (diamondOf body0 term0 body1 term1 body2 term2 i1 i2 rest3 term3) s).1.OutKill
      ((diamondOf body0 term0 body1 term1 body2 term2 i1 i2 rest3 term3).terminator 1) = {Value.inst 2 i2} ∧
    (round (diamondOf body0 term0 body1 term1 body2 term2 i1 i2 rest3 term3) s).1.OutKill
      ((diamondOf body0 term0 body1 term1 body2 term2 i1 i2 rest3 term3).terminator 2) = {Value.inst 1 i1} ∧
    (round (diamondOf body0 term0 body1 term1 body2 term2 i1 i2 rest3 term3) s).1.Out
      ((diamondOf body0 term0 body1 term1 body2 term2 i1 i2 rest3 term3).terminator 1) = {Value.inst 1 i1} ∧
    (round (diamondOf body0 term0 body1 term1 body2 term2 i1 i2 rest3 term3) s).1.In (3, 0) =
      {Value.inst 1 i1, Value.inst 2 i2} ∧
    (round (diamondOf body0 term0 body1 term1 body2 term2 i1 i2 rest3 term3) s).1.Out
      ((diamondOf body0 term0 body1 term1 body2 term2 i1 i2 rest3 term3).terminator 2) =
      (s.Out ((diamondOf body0 term0 body1 term1 body2 term2 i1 i2 rest3 term3).terminator 2) ∪ s.In (3, 0)) \
        s.OutKill ((diamondOf body0 term0 body1 term1 body2 term2 i1 i2 rest3 term3).terminator 2) := by
  have hn0 := not_phi_of_insts (diamondOf body0 term0 body1 term1 body2 term2 i1 i2 rest3 term3) 0 h0
  have fr := diamondOf_outKill_side body0 term0 body1 term1 body2 term2 i1 i2 rest3 term3 h1 h2
  have hs1 : (diamondOf body0 term0 body1 term1 body2 term2 i1 i2 rest3 term3).successors 1 = [3] := rfl
  have hs2 : (diamondOf body0 term0 body1 term1 body2 term2 i1 i2 rest3 term3).successors 2 = [3] := rfl
  have hf3 : (diamondOf body0 term0 body1 term1 body2 term2 i1 i2 rest3 term3).firstInsn 3 = (3, 0) := rfl
  have ht1 : ((diamondOf body0 term0 body1 term1 body2 term2 i1 i2 rest3 term3).terminator 1).1 = 1 := rfl
  have ht2 : ((diamondOf body0 term0 body1 term1 body2 term2 i1 i2 rest3 term3).terminator 2).1 = 2 := rfl
  have ht3 : ((diamondOf body0 term0 body1 term1 body2 term2 i1 i2 rest3 term3).terminator 3).1 = 3 := rfl
  rw [round_diamondOf]
  generalize hF : diamondOf body0 term0 body1 term1 body2 term2 i1 i2 rest3 term3 = F at *
  -- the visit of `b2`
  have a2K1 : (visitBlock F 2 s).1.OutKill (F.terminator 1) = s.OutKill (F.terminator 1) :=
    fr 2 (Or.inr rfl) s _ (by rw [ht1]; decide)
  have a2K2 : (visitBlock F 2 s).1.OutKill (F.terminator 2) = s.OutKill (F.terminator 2) :=
    fr 2 (Or.inr rfl) s _ (by rw [ht2]; decide)
  have a2T : (visitBlock F 2 s).1.Out (F.terminator 2) =
      (s.Out (F.terminator 2) ∪ s.In (3, 0)) \ s.OutKill (F.terminator 2) := by
    rw [visitBlock_Out_terminator, hs2, hf3.symm]
    simp
  have a2O3 : (visitBlock F 2 s).1.Out (F.terminator 3) = ∅ := by
    rw [visitBlock_Out_frame F 2 s _ (by rw [ht3]; decide), hs3]
  have a2O1 : (visitBlock F 2 s).1.Out (F.terminator 1) = s.Out (F.terminator 1) :=
    visitBlock_Out_frame F 2 s _ (by rw [ht1]; decide)
  generalize (visitBlock F 2 s).1 = s2 at *
  -- the visit of `b3`
  obtain ⟨b3O, b3I⟩ : (visitBlock F 3 s2).1.Out (F.terminator 3) = ∅ ∧
      (visitBlock F 3 s2).1.In (3, 0) = {Value.inst 1 i1, Value.inst 2 i2} := by
    subst hF
    exact diamondOf_join body0 term0 body1 term1 body2 term2 i1 i2 rest3 term3 hg s2 a2O3
  obtain ⟨b3K1, b3K2⟩ : (visitBlock F 3 s2).1.OutKill (F.terminator 1) = {Value.inst 2 i2} ∧
      (visitBlock F 3 s2).1.OutKill (F.terminator 2) = {Value.inst 1 i1} := by
    subst hF
    obtain ⟨e1, e2⟩ :=
      diamondOf_outKill body0 term0 body1 term1 body2 term2 i1 i2 rest3 term3 h3 s2
    rw [e1, e2, a2K1, a2K2]
    constructor
    · ext v
      have := @hk1 v
      simp only [Finset.mem_singleton] at this
      simp only [Finset.mem_erase, Finset.mem_union, Finset.mem_insert, Finset.mem_singleton]
      constructor
      · rintro ⟨hne, h | h | h⟩
        · exact this h
        · exact absurd h hne
        · exact h
      · rintro rfl
        exact ⟨by simp, Or.inr (Or.inr rfl)⟩
    · ext v
      have := @hk2 v
      simp only [Finset.mem_singleton] at this
      simp only [Finset.mem_erase, Finset.mem_union, Finset.mem_insert, Finset.mem_singleton]
      constructor
      · rintro ⟨hne, h | h | h⟩
        · exact this h
        · exact h
        · exact absurd h hne
      · rintro rfl
        exact ⟨by simp, Or.inr (Or.inl rfl)⟩
  have b3T1 : (visitBlock F 3 s2).1.Out (F.terminator 1) = s.Out (F.terminator 1) := by
    rw [visitBlock_Out_frame F 3 s2 _ (by rw [ht1]; decide), a2O1]
  have b3T2 : (visitBlock F 3 s2).1.Out (F.terminator 2) =
      (s.Out (F.terminator 2) ∪ s.In (3, 0)) \ s.OutKill (F.terminator 2) := by
    rw [visitBlock_Out_frame F 3 s2 _ (by rw [ht2]; decide), a2T]
  generalize (visitBlock F 3 s2).1 = s3 at *
  -- the visit of `b1`
  have c1K1 : (visitBlock F 1 s3).1.OutKill (F.terminator 1) = s3.OutKill (F.terminator 1) :=
    fr 1 (Or.inl rfl) s3 _ (by rw [ht1]; decide)
  have c1K2 : (visitBlock F 1 s3).1.OutKill (F.terminator 2) = s3.OutKill (F.terminator 2) :=
    fr 1 (Or.inl rfl) s3 _ (by rw [ht2]; decide)
  have c1T : (visitBlock F 1 s3).1.Out (F.terminator 1) = {Value.inst 1 i1} := by
    rw [visitBlock_Out_terminator, hs1, b3T1, b3K1]
    ext v
    have := @ho1 v
    simp only [Finset.mem_singleton] at this
    simp only [List.toFinset_cons, List.toFinset_nil, insert_emptyc_eq, Finset.singleton_biUnion,
      hf3, b3I, Finset.mem_sdiff, Finset.mem_union, Finset.mem_insert, Finset.mem_singleton]
    constructor
    · rintro ⟨h | h | h, hne⟩
      · exact this h
      · exact h
      · exact absurd h hne
    · rintro rfl
      exact ⟨Or.inr (Or.inl rfl), by simp⟩
  have c1O3 : (visitBlock F 1 s3).1.Out (F.terminator 3) = ∅ := by
    rw [visitBlock_Out_frame F 1 s3 _ (by rw [ht3]; decide), b3O]
  have c1I : (visitBlock F 1 s3).1.In (3, 0) = {Value.inst 1 i1, Value.inst 2 i2} := by
    rw [visitBlock_In_frame F 1 s3 _ (by decide), b3I]
  have c1T2 : (visitBlock F 1 s3).1.Out (F.terminator 2) =
      (s.Out (F.terminator 2) ∪ s.In (3, 0)) \ s.OutKill (F.terminator 2) := by
    rw [visitBlock_Out_frame F 1 s3 _ (by rw [ht2]; decide), b3T2]
  generalize (visitBlock F 1 s3).1 = s1 at *
  -- the visit of `b0`
  have d0K : (visitBlock F 0 s1).1.OutKill = s1.OutKill := visitBlock_OutKill_of_not_phi F 0 s1 hn0
  refine ⟨?_, ?_, ?_, ?_, ?_, ?_⟩
  · rw [visitBlock_Out_frame F 0 s1 _ (by rw [ht3]; decide), c1O3]
  · rw [d0K, c1K1, b3K1]
  · rw [d0K, c1K2, b3K2]
  · rw [visitBlock_Out_frame F 0 s1 _ (by rw [ht1]; decide), c1T]
  · rw [visitBlock_In_frame F 0 s1 _ (by decide), c1I]
  · rw [visitBlock_Out_frame F 0 s1 _ (by rw [ht2]; decide), c1T2]
/-- The maps at the end of every round on a function of the family `diamondOf`. -/
theorem diamondOf_stateAfter (h0 : ∀ I ∈ body0 ++ [term0], I.isPhi = false)
    (h1 : ∀ I ∈ body1 ++ [term1], ∀ vp ∈ I.incoming, vp.2 = 0)
    (h2 : ∀ I ∈ body2 ++ [term2], ∀ vp ∈ I.incoming, vp.2 = 0)
    (h3 : ∀ I ∈ rest3 ++ [term3], I.isPhi = false)
    (hg : ∀ i, 1 ≤ i → i ≤ rest3.length + 1 →
      gen (diamondOf body0 term0 body1 term1 body2 term2 i1 i2 rest3 term3) 3 i ⊆
        {Value.inst 3 0})
    (n : Nat) :
    (stateAfter (diamondOf body0 term0 body1 term1 body2 term2 i1 i2 rest3 term3) (n + 1)).Out
      ((diamondOf body0 term0 body1 term1 body2 term2 i1 i2 rest3 term3).terminator 3) = ∅ ∧
    (stateAfter (diamondOf body0 term0 body1 term1 body2 term2 i1 i2 rest3 term3) (n + 1)).OutKill
      ((diamondOf body0 term0 body1 term1 body2 term2 i1 i2 rest3 term3).terminator 1) = {Value.inst 2 i2} ∧
    (stateAfter (diamondOf body0 term0 body1 term1 body2 term2 i1 i2 rest3 term3) (n + 1)).OutKill
      ((diamondOf body0 term0 body1 term1 body2 term2 i1 i2 rest3 term3).terminator 2) = {Value.inst 1 i1} ∧
    (stateAfter (diamondOf body0 term0 body1 term1 body2 term2 i1 i2 rest3 term3) (n + 1)).Out
      ((diamondOf body0 term0 body1 term1 body2 term2 i1 i2 rest3 term3).terminator 1) = {Value.inst 1 i1} ∧
    (stateAfter (diamondOf body0 term0 body1 term1 body2 term2 i1 i2 rest3 term3) (n + 1)).In (3, 0) =
      {Value.inst 1 i1, Value.inst 2 i2} ∧
    (stateAfter (diamondOf body0 term0 body1 term1 body2 term2 i1 i2 rest3 term3) (n + 1)).Out
      ((diamondOf body0 term0 body1 term1 body2 term2 i1 i2 rest3 term3).terminator 2) =
      if n = 0 then ∅ else {Value.inst 2 i2} := by
  induction n with
  | zero =>
    obtain ⟨a, b, c, d, e, f⟩ := diamondOf_round body0 term0 body1 term1 body2 term2 i1 i2
      rest3 term3 h0 h1 h2 h3 hg State.init rfl (Finset.empty_subset _) (Finset.empty_subset _)
      (Finset.empty_subset _)
    rw [show stateAfter (diamondOf body0 term0 body1 term1 body2 term2 i1 i2 rest3 term3) (0 + 1) =
      (round (diamondOf body0 term0 body1 term1 body2 term2 i1 i2 rest3 term3) State.init).1 from rfl]
    refine ⟨a, b, c, d, e, ?_⟩
    rw [if_pos rfl]
    refine f.trans ?_
    show (∅ ∪ ∅) \ ∅ = (∅ : Finset Value)
    simp
  | succ n ih =>
    obtain ⟨a, b, c, d, e, f⟩ := ih
    obtain ⟨a', b', c', d', e', f'⟩ := diamondOf_round body0 term0 body1 term1 body2 term2 i1 i2
      rest3 term3 h0 h1 h2 h3 hg
      (stateAfter (diamondOf body0 term0 body1 term1 body2 term2 i1 i2 rest3 term3) (n + 1)) a
      (by rw [b]) (by rw [c]) (by rw [d])
    rw [show stateAfter (diamondOf body0 term0 body1 term1 body2 term2 i1 i2 rest3 term3) (n + 1 + 1) =
      (round (diamondOf body0 term0 body1 term1 body2 term2 i1 i2 rest3 term3)
        (stateAfter (diamondOf body0 term0 body1 term1 body2 term2 i1 i2 rest3 term3) (n + 1))).1 from rfl]
    refine ⟨a', b', c', d', e', ?_⟩
    rw [if_neg (Nat.succ_ne_zero n)]
    refine f'.trans ?_
    rw [f, e, c]
    ext v
    by_cases hn : n = 0
    · simp only [if_pos hn, Finset.mem_sdiff, Finset.mem_union, Finset.mem_insert,
        Finset.mem_singleton, Finset.not_mem_empty, false_or]
      constructor
      · rintro ⟨h | h, hne⟩
        · exact absurd h hne
        · exact h
      · rintro rfl
        exact ⟨Or.inr rfl, by simp⟩
    · simp only [if_neg hn, Finset.mem_sdiff, Finset.mem_union, Finset.mem_insert,
        Finset.mem_singleton]
      constructor
      · rintro ⟨h | h | h, hne⟩
        · exact h
        · exact absurd h hne
        · exact h
      · rintro rfl
        exact ⟨Or.inl rfl, by simp⟩
end Diamond

/-- With a store of an untracked source excluded, `gen` is inside the tracked
operands. -/
theorem gen_subset_of_operands (F : Function) (b i : Nat) (p : Value)
    (hs : (F.insn b i).storesUntracked = false)
    (ho : ∀ v ∈ (F.insn b i).operands, v.isTracked = true → v = p) : gen F b i ⊆ {p} := by
  unfold gen
  cases h : F.insn b i with
  | store src dst =>
    rw [h] at hs ho
    simp only
    split
    · exact Finset.empty_subset _
    · rename_i hc
      have ht : src.isTracked = true := by
        simp only [Instruction.storesUntracked, Bool.and_eq_false_imp, Bool.not_eq_eq_eq_not,
          Bool.not_true, Bool.not_false] at hs
        by_contra hnt
        have := hs (by simpa using hnt)
        exact hc this
      rw [ho src (by simp [Instruction.operands]) ht]
  | phi inc =>
    rw [h] at ho
    intro v hv
    simp only [trackedOperands, List.mem_toFinset, List.mem_filter] at hv
    exact Finset.mem_singleton.mpr (ho v hv.1 hv.2)
  | other ops =>
    rw [h] at ho
    intro v hv
    simp only [trackedOperands, List.mem_toFinset, List.mem_filter] at hv
    exact Finset.mem_singleton.mpr (ho v hv.1 hv.2)

/-- Scenario A apart from stores of untracked sources: on every function of the
family `diamondOf` in which the entry block has no phi, the phis of `b1` and `b2`
take their values from the entry block, and the instructions of `b3` after the phi
are not phis, do not store an untracked source, and have no instruction or
parameter as operand but the phi, the analysis finishes, and it finishes with
`Out(terminator of b1) = {v1}` and `Out(terminator of b2) = {v2}`. -/
theorem diamondOf_out_terminators (body0 : List Instruction) (term0 : Instruction)
    (body1 : List Instruction) (term1 : Instruction) (body2 : List Instruction)
    (term2 : Instruction) (i1 i2 : Nat) (rest3 : List Instruction) (term3 : Instruction)
    (h0 : ∀ I ∈ body0 ++ [term0], I.isPhi = false)
    (h1 : ∀ I ∈ body1 ++ [term1], ∀ vp ∈ I.incoming, vp.2 = 0)
    (h2 : ∀ I ∈ body2 ++ [term2], ∀ vp ∈ I.incoming, vp.2 = 0)
    (h3 : ∀ I ∈ rest3 ++ [term3], I.isPhi = false ∧ I.storesUntracked = false ∧
      ∀ v ∈ I.operands, v.isTracked = true → v = Value.inst 3 0) :
    (∃ fuel fin k, run (diamondOf body0 term0 body1 term1 body2 term2 i1 i2 rest3 term3) fuel =
        some (fin, k)) ∧
      ∀ fuel fin k, run (diamondOf body0 term0 body1 term1 body2 term2 i1 i2 rest3 term3) fuel =
          some (fin, k) →
        fin.Out ((diamondOf body0 term0 body1 term1 body2 term2 i1 i2 rest3 term3).terminator 1) =
          {Value.inst 1 i1} ∧
        fin.Out ((diamondOf body0 term0 body1 term1 body2 term2 i1 i2 rest3 term3).terminator 2) =
          {Value.inst 2 i2} := by
  have h3p : ∀ I ∈ rest3 ++ [term3], I.isPhi = false := fun I hI => (h3 I hI).1
  have hg : ∀ i, 1 ≤ i → i ≤ rest3.length + 1 →
      gen (diamondOf body0 term0 body1 term1 body2 term2 i1 i2 rest3 term3) 3 i ⊆
        {Value.inst 3 0} := by
    intro i hi1 hi2
    obtain ⟨m, rfl⟩ : ∃ m, i = m + 1 := ⟨i - 1, by omega⟩
    have hm : m < (rest3 ++ [term3]).length := by
      simp only [List.length_append, List.length_singleton]; omega
    have hI : (diamondOf body0 term0 body1 term1 body2 term2 i1 i2 rest3 term3).insn 3 (m + 1) =
        (rest3 ++ [term3])[m] := by
      show (rest3 ++ [term3]).getD m term3 = _
      rw [List.getD_eq_getElem _ _ hm]
    have hmem := h3 _ (List.getElem_mem hm)
    rw [← hI] at hmem
    exact gen_subset_of_operands _ 3 (m + 1) _ hmem.2.1 hmem.2.2
  constructor
  · obtain ⟨n, -, hc⟩ := exists_changeAfter_false
      (diamondOf body0 term0 body1 term1 body2 term2 i1 i2 rest3 term3)
    obtain ⟨⟨fin, k⟩, hr⟩ := runLoop_of_changeAfter
      (diamondOf body0 term0 body1 term1 body2 term2 i1 i2 rest3 term3) n 0 (by simpa using hc)
    exact ⟨n + 1, fin, k, hr⟩
  · intro fuel fin k h
    obtain ⟨hk1, hfin, hf, -⟩ := run_spec _ fuel k fin h
    have hc0 :
        changeAfter (diamondOf body0 term0 body1 term1 body2 term2 i1 i2 rest3 term3) 0 = true := by
      refine (round_snd _ _).mpr ⟨3, by rw [worklist_diamondOf]; simp, Value.inst 1 i1, ?_, ?_⟩
      · have := (diamondOf_stateAfter body0 term0 body1 term1 body2 term2 i1 i2 rest3 term3
          h0 h1 h2 h3p hg 0).2.2.2.2.1
        show Value.inst 1 i1 ∈ (stateAfter _ (0 + 1)).In (3, 0)
        rw [this]
        simp
      · exact Finset.not_mem_empty _
    have hk : 2 ≤ k := by
      by_contra hlt
      have : k - 1 = 0 := by omega
      rw [this, hc0] at hf
      exact Bool.noConfusion hf
    obtain ⟨m, rfl⟩ : ∃ m, k = m + 1 + 1 := ⟨k - 2, by omega⟩
    obtain ⟨-, -, -, d, -, f⟩ :=
      diamondOf_stateAfter body0 term0 body1 term1 body2 term2 i1 i2 rest3 term3 h0 h1 h2 h3p hg
        (m + 1)
    rw [hfin]
    exact ⟨d, by rw [f, if_neg (Nat.succ_ne_zero m)]⟩

/-- The function `diamond` meets the conditions of `diamondOf_out_terminators`. -/
theorem diamond_out_terminators :
    diamondOf [] (.other [.constInt 1]) [.other [.arg 0, .constInt 1]] (.other [])
        [.other [.arg 0, .constInt 2]] (.other []) 0 0 [] (.other [.inst 3 0]) = diamond ∧
      run diamond 10 = some (stateAfter diamond 2, 2) ∧
      ((∃ fuel fin k, run diamond fuel = some (fin, k)) ∧
        ∀ fuel fin k, run diamond fuel = some (fin, k) →
          fin.Out (diamond.terminator 1) = {Value.inst 1 0} ∧
          fin.Out (diamond.terminator 2) = {Value.inst 2 0}) :=
  ⟨rfl, rfl,
    diamondOf_out_terminators [] (.other [.constInt 1]) [.other [.arg 0, .constInt 1]] (.other [])
      [.other [.arg 0, .constInt 2]] (.other []) 0 0 [] (.other [.inst 3 0])
      (by decide) (by decide) (by decide) (by decide)⟩

/-! ## Properties of the result of `Liveness::run` -/

/-- C2: when `run` finishes, every instruction `n` that is not a phi, in a block
reachable from the entry, has `In(n) = (Out(n) \ kill(n)) ∪ gen(n)`. -/
theorem in_eq_out_sdiff_kill_union_gen (F : Function) (fuel k : Nat) (fin : State)
    (h : run F fuel = some (fin, k)) (b : Nat) (hb : Reachable F b)
    (i : Nat) (hi : i ≤ (F.block b).body.length) (_hn : (F.insn b i).isPhi = false) :
    fin.In (b, i) = (fin.Out (b, i) \ kill F b i) ∪ gen F b i :=
  (run_local F fuel fin k h b ((mem_depth_first_iff F b).mpr hb) i hi).1

/-- Witness of `in_eq_out_sdiff_kill_union_gen`: the instruction `%y = mul %x, 2`
of `straightLine`. -/
theorem in_eq_out_sdiff_kill_union_gen_witness :
    run straightLine 10 = some (stateAfter straightLine 2, 2) ∧ Reachable straightLine 0 ∧
      1 ≤ (straightLine.block 0).body.length ∧ (straightLine.insn 0 1).isPhi = false ∧
      (stateAfter straightLine 2).In (0, 1) =
        ((stateAfter straightLine 2).Out (0, 1) \ kill straightLine 0 1) ∪ gen straightLine 0 1 :=
  ⟨rfl, Relation.ReflTransGen.refl, by decide, by decide,
    in_eq_out_sdiff_kill_union_gen straightLine 10 2 (stateAfter straightLine 2) rfl 0
      Relation.ReflTransGen.refl 1 (by decide) (by decide)⟩

/-- C3: when `run` finishes, every instruction `n` that is not the terminator, in
a block reachable from the entry, has `Out(n) = In(next(n))`. -/
theorem out_eq_in_next (F : Function) (fuel k : Nat) (fin : State)
    (h : run F fuel = some (fin, k)) (b : Nat) (hb : Reachable F b)
    (i : Nat) (hi : i < (F.block b).body.length) :
    fin.Out (b, i) = fin.In (b, i + 1) :=
  (run_local F fuel fin k h b ((mem_depth_first_iff F b).mpr hb) i (Nat.le_of_lt hi)).2 hi

/-- Witness of `out_eq_in_next`: the first instruction of `straightLine`. -/
theorem out_eq_in_next_witness :
    run straightLine 10 = some (stateAfter straightLine 2, 2) ∧ Reachable straightLine 0 ∧
      0 < (straightLine.block 0).body.length ∧
      (stateAfter straightLine 2).Out (0, 0) = (stateAfter straightLine 2).In (0, 0 + 1) :=
  ⟨rfl, Relation.ReflTransGen.refl, by decide,
    out_eq_in_next straightLine 10 2 (stateAfter straightLine 2) rfl 0
      Relation.ReflTransGen.refl 0 (by decide)⟩

/-- C4 fails on `crossedPhis`: the analysis finishes after three rounds, the phi
`%y` of the reachable block `b3` receives `%b` from the reachable block `b1`, `%b`
is the result of an instruction, and `%b` is not in `Out` of the terminator of
`b1`. -/
theorem phi_operand_not_live_out :
    run crossedPhis 10 = some (stateAfter crossedPhis 3, 3) ∧
      Reachable crossedPhis 3 ∧ Reachable crossedPhis 1 ∧
      (crossedPhis.insn 3 1).isPhi = true ∧
      (Value.inst 0 1, 1) ∈ (crossedPhis.insn 3 1).incoming ∧
      (Value.inst 0 1).isTracked = true ∧
      Value.inst 0 1 ∉ (stateAfter crossedPhis 3).Out (crossedPhis.terminator 1) :=
  ⟨rfl, (mem_depth_first_iff crossedPhis 3).mp (by decide),
    (mem_depth_first_iff crossedPhis 1).mp (by decide), rfl, by decide, rfl, by decide⟩

/-- C5 fails on `sideExit`: the analysis finishes after three rounds, the
reachable block `b1` has the successor `b4`, whose first instruction `ret %a` is
not a phi, `%a` is in `In` of that instruction, and `%a` is not in `Out` of the
terminator of `b1`. -/
theorem live_in_of_successor_not_live_out :
    run sideExit 10 = some (stateAfter sideExit 3, 3) ∧
      Reachable sideExit 1 ∧ 4 ∈ sideExit.successors 1 ∧
      (sideExit.insn 4 0).isPhi = false ∧
      Value.arg 0 ∈ (stateAfter sideExit 3).In (sideExit.firstInsn 4) ∧
      Value.arg 0 ∉ (stateAfter sideExit 3).Out (sideExit.terminator 1) :=
  ⟨rfl, (mem_depth_first_iff sideExit 1).mp (by decide), by decide, rfl, by decide, by decide⟩

/-- C7: for every function the loop `while(change)` stops: some round ends with
`change` unset, and `run` returns its maps after at most
`(worklist F).length * (genUniverse F).card + 3` rounds. -/
theorem run_terminates (F : Function) :
    ∃ fin k, run F ((worklist F).length * (genUniverse F).card + 3) = some (fin, k) ∧
      k ≤ (worklist F).length * (genUniverse F).card + 3 ∧
      changeAfter F (k - 1) = false := by
  obtain ⟨n, hn, hc⟩ := exists_changeAfter_false F
  obtain ⟨⟨fin, k⟩, hr⟩ := runLoop_of_changeAfter F n 0 (by simpa using hc)
  have hrun : run F (n + 1) = some (fin, k) := hr
  obtain ⟨h1, -, h3, h4⟩ := run_spec F (n + 1) k fin hrun
  refine ⟨fin, k, runLoop_mono F (n + 1) _ (by omega) _ _ hr, ?_, h3⟩
  by_contra hlt
  have := h4 n (by omega)
  rw [hc] at this
  exact Bool.false_ne_true this

/-- C8, as stated, fails on `retArg`: the function has one instruction, the
largest set of the result has one value, and the loop runs two rounds. -/
theorem rounds_exceed_numInsts_mul_maxLive :
    run retArg 10 = some (stateAfter retArg 2, 2) ∧ retArg.numInsts = 1 ∧
      maxLive retArg (stateAfter retArg 2) = 1 ∧
      ¬ (2 ≤ retArg.numInsts * maxLive retArg (stateAfter retArg 2)) :=
  ⟨rfl, by decide, by decide, by decide⟩

/-- C8, amended: for every well-formed function the number of rounds of the
loop is at most (number of instructions) × (largest cardinality of an `In` or
`Out` set of the result) + 1. -/
theorem rounds_le_numInsts_mul_maxLive_add_one (F : Function) (hwf : F.WellFormed)
    (fuel k : Nat) (fin : State) (h : run F fuel = some (fin, k)) :
    k ≤ F.numInsts * maxLive F fin + 1 := by
  by_cases hk : k < 2
  · omega
  · have hM := maxLive_pos F hwf fuel k fin h (by omega)
    have hpot : potential F fin ≤ (worklist F).length * maxLive F fin :=
      potential_le_mul F fin _ (fun b hb =>
        card_In_le_maxLive F fin _ (mem_keys F b 0 (worklist_lt F hwf b hb) (Nat.zero_le _)))
    have hwl := worklist_length_le F hwf
    by_cases hbody : ∃ B ∈ F.blocks, B.body ≠ []
    · have h2 := rounds_le_potential_add_two F fuel k fin h
      have h3 : (worklist F).length + 1 ≤ F.numInsts :=
        Nat.succ_le_of_lt (hwl.trans_lt (length_lt_numInsts F hbody))
      have h4 := Nat.mul_le_mul_right (maxLive F fin) h3
      rw [Nat.add_mul, Nat.one_mul] at h4
      omega
    · push_neg at hbody
      have hp : ∀ b ∈ worklist F, ∀ i ≤ (F.block b).body.length,
          (F.insn b i).isPhi = false := by
        intro b hb i hi
        have hmem := block_mem F b (worklist_lt F hwf b hb)
        have hnil := hbody _ hmem
        rw [hnil] at hi
        have hi0 : i = 0 := by simpa using hi
        rw [hi0, insn_zero_of_body_nil F b hnil]
        exact hwf.2.2 _ hmem
      have h1 := rounds_le_potential_add_one F fuel k fin h hp
      have h4 := Nat.mul_le_mul_right (maxLive F fin) (hwl.trans (length_le_numInsts F))
      omega

/-- Witness of `rounds_le_numInsts_mul_maxLive_add_one`: the two rounds of `retArg`. -/
theorem rounds_le_numInsts_mul_maxLive_add_one_witness :
    retArg.WellFormed ∧ run retArg 10 = some (stateAfter retArg 2, 2) ∧
      2 ≤ retArg.numInsts * maxLive retArg (stateAfter retArg 2) + 1 :=
  ⟨by decide, rfl,
    rounds_le_numInsts_mul_maxLive_add_one retArg (by decide) 10 2 (stateAfter retArg 2) rfl⟩

/-- C9: when `run` finishes, for every instruction `n` of a block reachable from
the entry, a value of `kill(n)` that is not in `gen(n)` is not in `In(n)`. -/
theorem kill_not_in_In (F : Function) (fuel k : Nat) (fin : State)
    (h : run F fuel = some (fin, k)) (b : Nat) (hb : Reachable F b)
    (i : Nat) (hi : i ≤ (F.block b).body.length) (v : Value) (hv : v ∈ kill F b i)
    (hg : v ∉ gen F b i) : v ∉ fin.In (b, i) := by
  rw [(run_local F fuel fin k h b ((mem_depth_first_iff F b).mpr hb) i hi).1,
    Finset.mem_union, Finset.mem_sdiff]
  tauto

/-- Witness of `kill_not_in_In`: the result `%x` of the first instruction of
`straightLine`. -/
theorem kill_not_in_In_witness :
    run straightLine 10 = some (stateAfter straightLine 2, 2) ∧ Reachable straightLine 0 ∧
      0 ≤ (straightLine.block 0).body.length ∧ Value.inst 0 0 ∈ kill straightLine 0 0 ∧
      Value.inst 0 0 ∉ gen straightLine 0 0 ∧
      Value.inst 0 0 ∉ (stateAfter straightLine 2).In (0, 0) :=
  ⟨rfl, Relation.ReflTransGen.refl, by decide, by decide, by decide,
    kill_not_in_In straightLine 10 2 (stateAfter straightLine 2) rfl 0
      Relation.ReflTransGen.refl 0 (by decide) (Value.inst 0 0) (by decide) (by decide)⟩

/-- C10 fails on `storeFloat`: for `store float 1.0, float* %p` the source is a
constant, `kill` is the destination `%p`, and `gen` holds the constant. -/
theorem store_gen_of_float_constant :
    storeFloat.insn 0 0 = Instruction.store (Value.constant 0) (Value.arg 0) ∧
      (Value.constant 0).isConstant = true ∧
      kill storeFloat 0 0 = {Value.arg 0} ∧ gen storeFloat 0 0 = {Value.constant 0} :=
  ⟨rfl, rfl, by decide, by decide⟩

/-- C11, as stated, fails on `storeFloat`: its terminator `ret void` is an ordinary
instruction that produces no value, and its `kill` set is not empty: it holds the
instruction itself. -/
theorem kill_of_void_instruction_nonempty :
    storeFloat.insn 0 1 = Instruction.other [] ∧
      kill storeFloat 0 1 = {Value.inst 0 1} ∧ kill storeFloat 0 1 ≠ ∅ :=
  ⟨rfl, by decide, by decide⟩

/-- C11, amended: for an ordinary (non-store, non-phi) instruction with operand
list `ops`, `kill` is the singleton of the instruction itself, whether or not the
instruction produces a value, and `gen` holds exactly the operands that are
instruction results or function parameters. -/
theorem kill_gen_of_ordinary (F : Function) (b i : Nat) (ops : List Value)
    (h : F.insn b i = Instruction.other ops) :
    kill F b i = {Value.inst b i} ∧
      ∀ v, v ∈ gen F b i ↔ (v ∈ ops ∧ v.isTracked = true) := by
  refine ⟨by unfold kill; rw [h], fun v => ?_⟩
  unfold gen
  rw [h]
  simp [trackedOperands, Instruction.operands]

/-- Witness of `kill_gen_of_ordinary`: the instruction `%y = mul %x, 2` of
`straightLine`. -/
theorem kill_gen_of_ordinary_witness :
    straightLine.insn 0 1 = Instruction.other [Value.inst 0 0, Value.constInt 2] ∧
      kill straightLine 0 1 = {Value.inst 0 1} ∧
      ∀ v, v ∈ gen straightLine 0 1 ↔
        (v ∈ [Value.inst 0 0, Value.constInt 2] ∧ v.isTracked = true) :=
  ⟨rfl, kill_gen_of_ordinary straightLine 0 1 [Value.inst 0 0, Value.constInt 2] rfl⟩

/-- C12, as stated, fails on `crossedPhis`: the analysis finishes, `%y` at `(3, 1)`
is a phi of the reachable block `b3`, and `In(%y) ≠ Out(%y)`; moreover `%a` is in
`Out` of the earlier instruction `%x` although `%a` is an operand of `%y`, of no
later instruction of the block, and `Out` of the terminator of the block is empty. -/
theorem phi_in_ne_out :
    run crossedPhis 10 = some (stateAfter crossedPhis 3, 3) ∧ Reachable crossedPhis 3 ∧
      (crossedPhis.insn 3 1).isPhi = true ∧
      (stateAfter crossedPhis 3).In (3, 1) ≠ (stateAfter crossedPhis 3).Out (3, 1) ∧
      Value.inst 0 0 ∈ (crossedPhis.insn 3 1).operands ∧
      Value.inst 0 0 ∉ (crossedPhis.insn 3 2).operands ∧
      Value.inst 0 0 ∉ (crossedPhis.insn 3 3).operands ∧
      (stateAfter crossedPhis 3).Out (crossedPhis.terminator 3) = ∅ ∧
      Value.inst 0 0 ∈ (stateAfter crossedPhis 3).Out (3, 0) :=
  ⟨rfl, (mem_depth_first_iff crossedPhis 3).mp (by decide), rfl, by decide, by decide,
    by decide, by decide, by decide, by decide⟩

/-- C12, amended: when `run` finishes, a phi `m` of a block reachable from the
entry has `In(m) = (Out(m) \ {m}) ∪ {operands of m that are instruction results or
parameters}`: it gets the `gen` and `kill` of an ordinary instruction, and each
such operand is in `Out` of the instruction before `m`, when there is one. -/
theorem phi_in_eq (F : Function) (fuel k : Nat) (fin : State)
    (h : run F fuel = some (fin, k)) (b : Nat) (hb : Reachable F b)
    (i : Nat) (hi : i ≤ (F.block b).body.length) (incoming : List (Value × Nat))
    (hphi : F.insn b i = Instruction.phi incoming) :
    fin.In (b, i) =
        (fin.Out (b, i) \ {Value.inst b i}) ∪
          ((incoming.map Prod.fst).filter Value.isTracked).toFinset ∧
      ∀ v ∈ incoming.map Prod.fst, v.isTracked = true →
        v ∈ fin.In (b, i) ∧ ∀ j, j + 1 = i → v ∈ fin.Out (b, j) := by
  have hloc := run_local F fuel fin k h b ((mem_depth_first_iff F b).mpr hb)
  have hk : kill F b i = {Value.inst b i} := by unfold kill; rw [hphi]
  have hg : gen F b i = ((incoming.map Prod.fst).filter Value.isTracked).toFinset := by
    unfold gen; rw [hphi]; rfl
  have hin : fin.In (b, i) =
      (fin.Out (b, i) \ {Value.inst b i}) ∪
        ((incoming.map Prod.fst).filter Value.isTracked).toFinset := by
    rw [(hloc i hi).1, hk, hg]
  refine ⟨hin, fun v hv ht => ?_⟩
  have hvin : v ∈ fin.In (b, i) := by
    rw [hin]
    exact Finset.mem_union_right _ (List.mem_toFinset.mpr (List.mem_filter.mpr ⟨hv, ht⟩))
  refine ⟨hvin, fun j hj => ?_⟩
  subst hj
  rw [(hloc j (by omega)).2 (by omega)]
  exact hvin

/-- Witness of `phi_in_eq`: the phi `%y` of `crossedPhis`. -/
theorem phi_in_eq_witness :
    run crossedPhis 10 = some (stateAfter crossedPhis 3, 3) ∧ Reachable crossedPhis 3 ∧
      1 ≤ (crossedPhis.block 3).body.length ∧
      crossedPhis.insn 3 1 = Instruction.phi [(Value.inst 0 1, 1), (Value.inst 0 0, 2)] ∧
      ((stateAfter crossedPhis 3).In (3, 1) =
        ((stateAfter crossedPhis 3).Out (3, 1) \ {Value.inst 3 1}) ∪
          (([(Value.inst 0 1, 1), (Value.inst 0 0, 2)].map Prod.fst).filter
            Value.isTracked).toFinset ∧
      ∀ v ∈ [(Value.inst 0 1, 1), (Value.inst 0 0, 2)].map Prod.fst, v.isTracked = true →
        v ∈ (stateAfter crossedPhis 3).In (3, 1) ∧
          ∀ j, j + 1 = 1 → v ∈ (stateAfter crossedPhis 3).Out (3, j)) :=
  ⟨rfl, (mem_depth_first_iff crossedPhis 3).mp (by decide), by decide, rfl,
    phi_in_eq crossedPhis 10 3 (stateAfter crossedPhis 3) rfl 3
      ((mem_depth_first_iff crossedPhis 3).mp (by decide)) 1 (by decide)
      [(Value.inst 0 1, 1), (Value.inst 0 0, 2)] rfl⟩

/-- C13 (Scenario B): on `straightLine` the analysis finishes after two rounds with
`In(ret) = {%y}`, `In(%y = …) = {%x}`, `In(%x = …) = {%a, %b}` and `Out(ret) = ∅`. -/
theorem scenario_straight_line :
    run straightLine 10 = some (stateAfter straightLine 2, 2) ∧
      (stateAfter straightLine 2).In (0, 2) = {Value.inst 0 1} ∧
      (stateAfter straightLine 2).In (0, 1) = {Value.inst 0 0} ∧
      (stateAfter straightLine 2).In (0, 0) = {Value.arg 0, Value.arg 1} ∧
      (stateAfter straightLine 2).Out (straightLine.terminator 0) = ∅ :=
  ⟨rfl, by decide, by decide, by decide, by decide⟩

/-- C14 (Scenario A) fails on `diamondStore`, a diamond of the family `diamondOf`
in which `b1` defines `%v1`, `b2` defines `%v2`, and `b3` starts with the phi `%p`
of `%v1` from `b1` and `%v2` from `b2`, the only instruction or parameter that the
rest of `b3` has as an operand: the analysis finishes after three rounds with the
constant `1.0` of `store float 1.0, float* %p` in `Out` of the terminators of `b1`
and `b2`, next to `%v1` and `%v2`. -/
theorem diamond_out_holds_stored_constant :
    diamondOf [] (.other [.constInt 1]) [.other [.constInt 1]] (.other [])
        [.other [.constInt 1]] (.other []) 0 0 [.store (.constant 0) (.inst 3 0)] (.other []) =
      diamondStore ∧
    run diamondStore 10 = some (stateAfter diamondStore 3, 3) ∧
      (∀ i, 1 ≤ i → i ≤ (diamondStore.block 3).body.length →
        ∀ v ∈ (diamondStore.insn 3 i).operands, v.isTracked = true → v = Value.inst 3 0) ∧
      (Value.constant 0).isConstant = true ∧
      gen diamondStore 3 1 = {Value.constant 0} ∧
      (stateAfter diamondStore 3).In (3, 0) = {Value.inst 1 0, Value.inst 2 0, Value.constant 0} ∧
      (stateAfter diamondStore 3).Out (diamondStore.terminator 1) =
        {Value.inst 1 0, Value.constant 0} ∧
      (stateAfter diamondStore 3).Out (diamondStore.terminator 2) =
        {Value.inst 2 0, Value.constant 0} ∧
      (stateAfter diamondStore 3).Out (diamondStore.terminator 1) ≠ {Value.inst 1 0} ∧
      (stateAfter diamondStore 3).Out (diamondStore.terminator 2) ≠ {Value.inst 2 0} :=
  ⟨rfl, rfl, by decide, rfl, by decide, by decide, by decide, by decide, by decide, by decide⟩

/-- C15 (Scenario C): on every function of the family `selfLoopOf` (the entry
branches to the loop block, which branches only to itself and starts with the phi
of an initial value from the entry and of the loop-updated value `n` from the loop
block) whose entry block has no phi, the analysis converges after two rounds,
which is at most three, and `Out` of the terminator of the loop block holds `n`,
so it is not empty. -/
theorem scenario_self_loop (body0 : List Instruction) (term0 : Instruction) (a : Value)
    (j : Nat) (rest : List Instruction) (termL : Instruction)
    (h0 : ∀ I ∈ body0 ++ [term0], I.isPhi = false) :
    (∃ fin, run (selfLoopOf body0 term0 a j rest termL) 3 = some (fin, 2)) ∧
      ∀ fuel fin k, run (selfLoopOf body0 term0 a j rest termL) fuel = some (fin, k) →
        k ≤ 3 ∧
        Value.inst 1 j ∈ fin.Out ((selfLoopOf body0 term0 a j rest termL).terminator 1) ∧
        fin.Out ((selfLoopOf body0 term0 a j rest termL).terminator 1) ≠ ∅ := by
  have hc0 := selfLoopOf_change_first body0 term0 a j rest termL
  have hc1 := selfLoopOf_change_second body0 term0 a j rest termL h0
  constructor
  · refine ⟨stateAfter (selfLoopOf body0 term0 a j rest termL) 2, ?_⟩
    refine runLoop_mono _ 2 3 (by omega) _ _ ?_
    exact runLoop_of_flags _ 1 0 (by simpa using hc1) (fun i hi => by
      have : i = 0 := by omega
      subst this
      simpa using hc0)
  · intro fuel fin k h
    obtain ⟨hk1, hfin, hf, ht⟩ := run_spec _ fuel k fin h
    have hk : k = 2 := by
      by_contra hne
      rcases Nat.lt_or_ge k 2 with hlt | hge
      · have : k - 1 = 0 := by omega
        rw [this, hc0] at hf
        exact Bool.noConfusion hf
      · have := ht 1 (by omega)
        rw [hc1] at this
        exact Bool.noConfusion this
    subst hk
    have hmem : Value.inst 1 j ∈
        fin.Out ((selfLoopOf body0 term0 a j rest termL).terminator 1) := by
      rw [hfin]
      exact selfLoopOf_mem_Out body0 term0 a j rest termL h0 State.init
    exact ⟨by omega, hmem, Finset.ne_empty_of_mem hmem⟩

/-- Witness of `scenario_self_loop`: `selfLoop`, where the analysis ends with
`Out` of the terminator of the loop block equal to `{%n}`. -/
theorem scenario_self_loop_witness :
    selfLoopOf [] (.other []) (.arg 0) 1 [.other [.inst 1 0, .constInt 1]] (.other []) = selfLoop ∧
      (∀ I ∈ ([] : List Instruction) ++ [Instruction.other []], I.isPhi = false) ∧
      run selfLoop 10 = some (stateAfter selfLoop 2, 2) ∧
      (stateAfter selfLoop 2).Out (selfLoop.terminator 1) = {Value.inst 1 1} ∧
      ((∃ fin, run selfLoop 3 = some (fin, 2)) ∧
        ∀ fuel fin k, run selfLoop fuel = some (fin, k) →
          k ≤ 3 ∧ Value.inst 1 1 ∈ fin.Out (selfLoop.terminator 1) ∧
          fin.Out (selfLoop.terminator 1) ≠ ∅) :=
  ⟨rfl, by decide, rfl, by decide,
    scenario_self_loop [] (.other []) (.arg 0) 1 [.other [.inst 1 0, .constInt 1]] (.other [])
      (by decide)⟩

/-- C16 fails on `crossedPhis`: the analysis finishes, `%x` at `(3, 0)` and `%y` at
`(3, 1)` are consecutive phis of `b3`, and the report lists the point `(3, 0)`,
the point right after `%x` and immediately before the phi `%y`, with the set
`Out(%x)`, which the histogram counts under its cardinality 3. -/
theorem point_between_phis_reported :
    run crossedPhis 10 = some (stateAfter crossedPhis 3, 3) ∧
      (crossedPhis.insn 3 0).isPhi = true ∧ (crossedPhis.insn 3 1).isPhi = true ∧
      beforePhi crossedPhis (3, 0) = true ∧
      ((3, 0), (stateAfter crossedPhis 3).Out (3, 0)) ∈
        programPoints crossedPhis (stateAfter crossedPhis 3) ∧
      ((stateAfter crossedPhis 3).Out (3, 0)).card = 3 ∧
      histogram crossedPhis (stateAfter crossedPhis 3) = [(0, 1), (1, 3), (2, 4), (3, 1)] :=
  ⟨rfl, rfl, rfl, by decide, by decide, by decide, by decide⟩

/-- C17 fails on `crossedPhis`: the counts of the histogram add up to 9, the number
of instructions, while 8 program points are left when the point immediately
before the phi `%y` is not counted. -/
theorem histogram_counts_point_before_phi :
    run crossedPhis 10 = some (stateAfter crossedPhis 3, 3) ∧
      ((histogram crossedPhis (stateAfter crossedPhis 3)).map Prod.snd).sum = 9 ∧
      ((programPoints crossedPhis (stateAfter crossedPhis 3)).filter
        (fun p => !beforePhi crossedPhis p.1)).length = 8 :=
  ⟨rfl, by decide, by decide⟩

/-- The histogram counts the points that the report lists, whichever they are:
its counts add up to the number of listed points, and each entry `(s, c)` says
that exactly `c` of the listed points have a set of cardinality `s`. -/
theorem histogram_counts (F : Function) (st : State) :
    ((histogram F st).map Prod.snd).sum = (programPoints F st).length ∧
      ∀ e ∈ histogram F st,
        e.2 = ((programPoints F st).filter (fun p => decide (p.2.card = e.1))).length := by
  obtain ⟨h1, h2, h3⟩ :=
    foldl_histIncr ((programPoints F st).map (fun p => p.2.card)) [] List.Pairwise.nil
  rw [← histogram_eq] at h1 h2 h3
  refine ⟨by simpa using h2, fun e he => ?_⟩
  have h4 := h3 e.1
  rw [histGet_of_mem _ h1 e he] at h4
  rw [h4]
  simp only [histGet, List.filter_nil, List.map_nil, List.sum_nil, Nat.zero_add]
  rw [List.count_eq_countP, List.countP_map, List.countP_eq_length_filter]
  congr 1

/-- C19, as stated, fails on `staleOut`: in round 2 the visit of `b2` removes `%a`
from `In` of its first instruction, so that set differs from its value at the
start of the visit, yet the round ends with `change` unset and the loop stops. -/
theorem change_unset_though_in_differs :
    run staleOut 10 = some (stateAfter staleOut 2, 2) ∧
      (round staleOut (stateAfter staleOut 1)).2 = false ∧ 2 ∈ worklist staleOut ∧
      (visitBlock staleOut 2 (stateAtVisit staleOut (stateAfter staleOut 1) 2)).1.In
          (staleOut.firstInsn 2) ≠
        (stateAtVisit staleOut (stateAfter staleOut 1) 2).In (staleOut.firstInsn 2) ∧
      Value.arg 0 ∈ (stateAtVisit staleOut (stateAfter staleOut 1) 2).In (staleOut.firstInsn 2) ∧
      Value.arg 0 ∉
        (visitBlock staleOut 2 (stateAtVisit staleOut (stateAfter staleOut 1) 2)).1.In
          (staleOut.firstInsn 2) :=
  ⟨rfl, by decide, by decide, by decide, by decide, by decide⟩

/-- C19, amended: a round ends with `change` set if and only if, for some visited
block, `In` of the first instruction after the visit of the block holds a value
that it did not hold at the start of that visit; and the loop returns after round
`n + 1` exactly when that round is the first in which no such value was added. -/
theorem change_iff_value_added (F : Function) :
    (∀ s : State, (round F s).2 = true ↔
      ∃ b ∈ worklist F, ∃ v,
        v ∈ (visitBlock F b (stateAtVisit F s b)).1.In (F.firstInsn b) ∧
        v ∉ (stateAtVisit F s b).In (F.firstInsn b)) ∧
    (∀ n : Nat, (∃ fin, run F (n + 1) = some (fin, n + 1)) ↔
      (changeAfter F n = false ∧ ∀ j < n, changeAfter F j = true)) := by
  refine ⟨fun s => ?_, run_stops_iff F⟩
  rw [round_snd_visit]
  constructor
  · rintro ⟨b, hb, hflag⟩
    exact ⟨b, hb, (visitBlock_snd F b _).mp hflag⟩
  · rintro ⟨b, hb, hv⟩
    exact ⟨b, hb, (visitBlock_snd F b _).mpr hv⟩

/-- C20: when `run` has finished, one more round, in the same block order, on the
final `In`, `Out` and `OutKill` maps leaves the `In` and the `Out` set of every
instruction unchanged. -/
theorem result_is_fixpoint (F : Function) (fuel k : Nat) (fin : State)
    (h : run F fuel = some (fin, k)) (n : Key) :
    (round F fin).1.In n = fin.In n ∧ (round F fin).1.Out n = fin.Out n :=
  round_fixed_of_run F fuel k fin h n

/-- Witness of `result_is_fixpoint`: the terminator of `b2` of `staleOut`. -/
theorem result_is_fixpoint_witness :
    run staleOut 10 = some (stateAfter staleOut 2, 2) ∧
      (round staleOut (stateAfter staleOut 2)).1.In (2, 0) = (stateAfter staleOut 2).In (2, 0) ∧
      (round staleOut (stateAfter staleOut 2)).1.Out (2, 0) = (stateAfter staleOut 2).Out (2, 0) :=
  ⟨rfl, result_is_fixpoint staleOut 10 2 (stateAfter staleOut 2) rfl (2, 0)⟩

end LiveAnalysis
